import Mathlib

/-!
# Countdown numbers-round solver (`src/number-solver.js`)

A shallow embedding of the `NumberPuzzle` / `Value` classes and of the
search functions `consider`, `solveImpl` and `reduce`, followed by the
`TernarySearchTree` class of the letters round
(`src/letters-round/ternary-tree.js`) and its word-list converter
(`src/letters-round/convert-list-to-script.js`).

Modelling conventions.

* JavaScript numbers that hold integers are modelled by `Int`, with exact
  arithmetic (no rounding of doubles beyond 2^53).
* JavaScript strings are modelled by `List Char`; every character that
  occurs is a single UTF-16 code unit, so `List.length` is `.length`.
* `null` / `undefined` results are modelled by `Option`.
* In the ternary search tree a string is the list of its UTF-16 code units
  (`List Nat`), and the `NaN` that `charCodeAt` returns past the end of a
  string is `none`.
* A recursion that the source does not bound is given a depth bound
  (`fuel`); `none` is a call that does not return within the bound.
-/

namespace Countdown

/-! ## Values -/

/-- The four operator tags accepted by `Value.combine`:
`"+"`, `"-"`, `"×"` and `"/"`. -/
inductive Operator
  | plus
  | minus
  | times
  | divide
  deriving DecidableEq, Repr

/-- The text of an operator tag, as interpolated by `toExpression`. -/
def Operator.symbol : Operator → Char
  | Operator.plus => '+'
  | Operator.minus => '-'
  | Operator.times => '×'
  | Operator.divide => '/'

/-- A `Value` object.  `leaf n` is `new Value(n)` (fields `lhs`, `rhs`,
`operator` are `null` and `steps` is `0`); `derived` carries the five fields
assigned at the end of `combine`. -/
inductive Value
  | leaf (number : Int)
  | derived (number : Int) (lhs rhs : Value) (operator : Operator) (steps : Nat)
  deriving DecidableEq, Repr

namespace Value

/-- Field `number`. -/
def number : Value → Int
  | leaf n => n
  | derived n _ _ _ _ => n

/-- Field `steps` (initialised to `0` by the class body). -/
def steps : Value → Nat
  | leaf _ => 0
  | derived _ _ _ _ s => s

/-- Field `lhs` (`null` for a starting value). -/
def lhs : Value → Option Value
  | leaf _ => none
  | derived _ l _ _ _ => some l

/-- Field `rhs` (`null` for a starting value). -/
def rhs : Value → Option Value
  | leaf _ => none
  | derived _ _ r _ _ => some r

/-- Field `operator` (`null` for a starting value). -/
def operator : Value → Option Operator
  | leaf _ => none
  | derived _ _ _ o _ => some o

/-- Method `combine(rhs, operator)`.  `none` is the `null` result.
For `"/"` the quotient `this.number / rhs.number` of two integers passes
`Number.isInteger` exactly when the divisor is non-zero and divides the
dividend (a zero divisor gives `Infinity` or `NaN`). -/
def combine (this rhs : Value) (operator : Operator) : Option Value :=
  let n? : Option Int :=
    match operator with
    | Operator.plus => some (this.number + rhs.number)
    | Operator.times => some (this.number * rhs.number)
    | Operator.minus =>
        let n := this.number - rhs.number
        if n < 1 then none else some n
    | Operator.divide =>
        if rhs.number ≠ 0 ∧ this.number % rhs.number = 0 then
          some (this.number / rhs.number)
        else none
  match n? with
  | none => none
  | some n => some (derived n this rhs operator (this.steps + rhs.steps + 1))

/-! ### Rendering -/

/-- `String(n)` for an integer-valued number: decimal digits, with a
leading minus sign for a negative number. -/
def numberToString (n : Int) : List Char :=
  if n < 0 then '-' :: Nat.toDigits 10 n.natAbs else Nat.toDigits 10 n.toNat

/-- Method `toExpression()`: the fully parenthesised infix form. -/
def toExpression : Value → List Char
  | leaf n => numberToString n
  | derived _ l r o _ =>
      ['('] ++ toExpression l ++ [')', ' ', o.symbol, ' ', '('] ++ toExpression r ++ [')']

/-! ### Regular-expression replacement

`String.prototype.replace` with a global regular expression scans the
subject from left to right; at the first position where the expression
matches it emits the replacement and resumes right after the match.  The
five expressions used by `toString` are deterministic at a given start
position (every `\d+` is followed by a non-digit, and every iteration of the
starred group starts with a blank where the continuation needs `)`), so a
matcher is a function from the text at a position to the replacement and
the number of characters matched. -/

/-- A matcher: the text at the current position to the replacement text
and the (positive) length of the match. -/
abbrev Matcher := List Char → Option (List Char × Nat)

/-- Global replace: `skip` counts the characters of the current match that
are still to be passed over. -/
def replaceAll (m : Matcher) : Nat → List Char → List Char
  | _, [] => []
  | skip + 1, _ :: cs => replaceAll m skip cs
  | 0, c :: cs =>
      match m (c :: cs) with
      | some (rep, len) => rep ++ replaceAll m (len - 1) cs
      | none => c :: replaceAll m 0 cs

/-- Literal text at the current position; returns what follows it. -/
def expect : List Char → List Char → Option (List Char)
  | [], s => some s
  | _ :: _, [] => none
  | p :: ps, c :: cs => if p = c then expect ps cs else none

/-- The greedy `\d+` or `\d*`: the longest run of digits `0`-`9` and the
text after it. -/
def takeDigits (s : List Char) : List Char × List Char :=
  s.span Char.isDigit

/-- The expression `\((\d+)\)` with replacement `$1`. -/
def matchLoneNumber : Matcher := fun s =>
  match expect ['('] s with
  | none => none
  | some r =>
      let (ds, r) := takeDigits r
      if ds = [] then none
      else
        match expect [')'] r with
        | none => none
        | some _ => some (ds, ds.length + 2)

/-- The starred group `(?: ⊕ \d+)*` of the reduce expressions, greedy:
returns the text it matched and the text after it. -/
def chainTail (o : Char) : Nat → List Char → List Char × List Char
  | 0, s => ([], s)
  | fuel + 1, s =>
      match expect [' ', o, ' '] s with
      | none => ([], s)
      | some r =>
          let (ds, r1) := takeDigits r
          if ds = [] then ([], s)
          else
            let (t, r2) := chainTail o fuel r1
            ([' ', o, ' '] ++ ds ++ t, r2)

/-- The expressions `plusReduce`, `minusReduce`, `multReduce`, `divReduce`
for the operator character `o`:
`\(\((\d+) ⊕ (\d+(?: ⊕ \d+)*)\) ⊕ (\d+)\)` with replacement
`($1 ⊕ $2 ⊕ $3)`. -/
def matchReduce (o : Char) : Matcher := fun s =>
  match expect ['(', '('] s with
  | none => none
  | some r =>
      let (a, r) := takeDigits r
      if a = [] then none
      else
        match expect [' ', o, ' '] r with
        | none => none
        | some r =>
            let (b, r) := takeDigits r
            if b = [] then none
            else
              let (t, r) := chainTail o r.length r
              match expect [')', ' ', o, ' '] r with
              | none => none
              | some r =>
                  let (c, r) := takeDigits r
                  if c = [] then none
                  else
                    match expect [')'] r with
                    | none => none
                    | some _ =>
                        let rep := ['('] ++ a ++ [' ', o, ' '] ++ (b ++ t)
                          ++ [' ', o, ' '] ++ c ++ [')']
                        some (rep, rep.length + 2)

/-- One round of the `for (;;)` loop body of `toString`: the four
replacements in source order. -/
def reducePass (expr : List Char) : List Char :=
  let expr := replaceAll (matchReduce '+') 0 expr
  let expr := replaceAll (matchReduce '-') 0 expr
  let expr := replaceAll (matchReduce '×') 0 expr
  replaceAll (matchReduce '/') 0 expr

/-- The `for (;;)` loop of `toString`, bounded by `fuel` rounds. -/
def reduceLoop : Nat → List Char → List Char
  | 0, expr => expr
  | fuel + 1, expr =>
      let oldExpr := expr
      let expr := reducePass expr
      if oldExpr = expr then expr else reduceLoop fuel expr

/-- Method `toString()`.  The memo field `#simpleExpression` only caches
the result.  A round that changes the text removes at least two
characters, so `length + 1` rounds always reach the `break`. -/
def toString (v : Value) : List Char :=
  let expr := toExpression v
  let expr := replaceAll matchLoneNumber 0 expr
  reduceLoop (expr.length + 1) expr

/-- Method `compareTo(rhs, target)`. -/
def compareTo (this rhs : Value) (target : Int) : Int :=
  let lDist : Int := |this.number - target|
  let rDist : Int := |rhs.number - target|
  if lDist ≠ rDist then lDist - rDist
  else
    let lSteps := this.steps
    let rSteps := rhs.steps
    if lSteps ≠ rSteps then (lSteps : Int) - (rSteps : Int)
    else ((toString this).length : Int) - ((toString rhs).length : Int)

/-! ### Evaluating an expression text

`verify()` builds the text `return N === E`, with `E` the canonical string
after `×` has been replaced by `*`, and runs it.  The texts that occur are
made of decimal literals, blanks, parentheses and the four binary operators;
they are evaluated here according to the grammar of the language,

* AdditiveExpression: MultiplicativeExpression, then any number of `+` or
  `-` followed by a MultiplicativeExpression, grouped to the left;
* MultiplicativeExpression: Primary, then any number of `*` or `/`
  followed by a Primary, grouped to the left;
* Primary: a decimal literal or a parenthesised AdditiveExpression,

with exact rational arithmetic.  `none` stands for a text outside this
fragment (a syntax error, a literal with a leading zero, a division by
zero, a sign). -/

/-- A parser: the value read from a prefix of the text and the text after
it. -/
abbrev Parser := List Char → Option (ℚ × List Char)

/-- White space before a token. -/
def skipSpaces : List Char → List Char
  | [] => []
  | c :: s => if c = ' ' then skipSpaces s else c :: s

/-- The number denoted by a run of decimal digits. -/
def digitsToNat (ds : List Char) : Nat :=
  ds.foldl (fun acc c => 10 * acc + (c.toNat - 48)) 0

/-- Primary: a decimal literal or `(` AdditiveExpression `)`, the latter
read by `inner`. -/
def primary (inner : Parser) : Parser := fun s =>
  match skipSpaces s with
  | [] => none
  | c :: r =>
      if c = '(' then
        match inner r with
        | none => none
        | some (v, r1) =>
            match skipSpaces r1 with
            | [] => none
            | d :: r2 => if d = ')' then some (v, r2) else none
      else
        let (ds, r1) := takeDigits (c :: r)
        if ds = [] then none
        else if ds.head? = some '0' ∧ 1 < ds.length then none
        else some ((digitsToNat ds : ℚ), r1)

/-- The tail of a MultiplicativeExpression: `fuel` bounds the number of
operators read. -/
def mulRest (prim : Parser) : Nat → ℚ → List Char → Option (ℚ × List Char)
  | 0, _, _ => none
  | fuel + 1, acc, s =>
      match skipSpaces s with
      | [] => some (acc, s)
      | c :: r =>
          if c = '*' then
            match prim r with
            | none => none
            | some (v, r1) => mulRest prim fuel (acc * v) r1
          else if c = '/' then
            match prim r with
            | none => none
            | some (v, r1) => if v = 0 then none else mulRest prim fuel (acc / v) r1
          else some (acc, s)

/-- MultiplicativeExpression. -/
def multiplicative (prim : Parser) : Parser := fun s =>
  match prim s with
  | none => none
  | some (v, r) => mulRest prim (r.length + 1) v r

/-- The tail of an AdditiveExpression: `fuel` bounds the number of
operators read. -/
def addRest (prim : Parser) : Nat → ℚ → List Char → Option (ℚ × List Char)
  | 0, _, _ => none
  | fuel + 1, acc, s =>
      match skipSpaces s with
      | [] => some (acc, s)
      | c :: r =>
          if c = '+' then
            match multiplicative prim r with
            | none => none
            | some (v, r1) => addRest prim fuel (acc + v) r1
          else if c = '-' then
            match multiplicative prim r with
            | none => none
            | some (v, r1) => addRest prim fuel (acc - v) r1
          else some (acc, s)

/-- AdditiveExpression. -/
def additive (prim : Parser) : Parser := fun s =>
  match multiplicative prim s with
  | none => none
  | some (v, r) => addRest prim (r.length + 1) v r

/-- AdditiveExpression with parentheses nested at most `depth` deep. -/
def expression : Nat → Parser
  | 0 => fun _ => none
  | depth + 1 => additive (primary (expression depth))

/-- The value of an expression text; the whole text must be used up. -/
def evalExpression (s : List Char) : Option ℚ :=
  match expression (s.length + 1) s with
  | none => none
  | some (v, r) => if skipSpaces r = [] then some v else none

/-- Method `verify()`: the result of `N === E` for `N` the number and `E`
the canonical string with `×` replaced by `*`. -/
def verify (this : Value) : Option Bool :=
  let body := (toString this).map (fun c => if c = '×' then '*' else c)
  match evalExpression body with
  | none => none
  | some q => some (decide ((this.number : ℚ) = q))

/-- A Value built from leaves that are integers at least 1 by successful
calls of `combine`. -/
def built : Value → Prop
  | leaf n => 1 ≤ n
  | derived n l r o s => built l ∧ built r ∧ combine l r o = some (derived n l r o s)

/-- Whether a Value is `built` can be computed. -/
def decideBuilt : (v : Value) → Decidable (built v)
  | leaf n => inferInstanceAs (Decidable (1 ≤ n))
  | derived n l r o s =>
      match decideBuilt l, decideBuilt r with
      | isTrue hl, isTrue hr =>
          if hc : combine l r o = some (derived n l r o s) then isTrue ⟨hl, hr, hc⟩
          else isFalse (fun h => hc h.2.2)
      | isFalse hl, _ => isFalse (fun h => hl h.1)
      | _, isFalse hr => isFalse (fun h => hr h.2.1)

instance (v : Value) : Decidable (built v) := decideBuilt v

end Value

/-- Every `number` stored in the derivation tree of a Value (its own and
those of all `lhs` / `rhs` below it) is at least 1. -/
def Value.numbersPositive : Value → Prop
  | Value.leaf n => 1 ≤ n
  | Value.derived n l r _ _ => 1 ≤ n ∧ l.numbersPositive ∧ r.numbersPositive

/-! ## The search -/

/-- The accumulator `solns` threaded through the search:
`{ best: Value, all: Value[] }`. -/
structure Solns where
  best : Value
  all : List Value
  deriving DecidableEq, Repr

/-- Function `consider(value, target, solns)`. -/
def consider (value : Value) (target : Int) (solns : Solns) : Solns :=
  let solns : Solns :=
    if value.compareTo solns.best target < 0 then { solns with best := value } else solns
  if value.number = target then { solns with all := solns.all ++ [value] } else solns

/-- The constant `operations`. -/
def operations : List Operator :=
  [Operator.plus, Operator.minus, Operator.times, Operator.divide]

/-- Function `reduce(values, skipIndex1, skipIndex2, combined)`; `none` is
`null`. -/
def reduce (values : List Value) (skipIndex1 skipIndex2 : Nat)
    (combined : Option Value) : Option (List Value) :=
  match combined with
  | none => none
  | some combined =>
      some ((List.range values.length).foldl
        (fun copy i =>
          if i = skipIndex1 ∨ i = skipIndex2 then copy
          else
            match values[i]? with
            | some v => copy ++ [v]
            | none => copy)
        [combined])

/-- The body of `solveImpl(values, target, solns)`: the three nested loops,
with the recursive call `solveImpl(reducedValues, target, solns)` passed in
as `recurse`.  `none` stands for a run that does not complete (an
out-of-range array read, which the loop bounds exclude, or a failing
`recurse`). -/
def solveImplBody (recurse : List Value → Int → Solns → Option Solns)
    (values : List Value) (target : Int) (solns : Solns) : Option Solns :=
  (List.range (values.length - 1)).foldlM
    (fun solns i =>
      (List.range' (i + 1) (values.length - (i + 1))).foldlM
        (fun solns j =>
          match values[i]?, values[j]? with
          | some vi, some vj =>
              let lhs := if vi.number < vj.number then vj else vi
              let rhs := if vi.number < vj.number then vi else vj
              operations.foldlM
                (fun solns op =>
                  match lhs.combine rhs op with
                  | none => some solns
                  | some result =>
                      let solns := consider result target solns
                      if values.length > 2 then
                        match reduce values i j (some result) with
                        | none => none
                        | some reducedValues => recurse reducedValues target solns
                      else some solns)
                solns
          | _, _ => none)
        solns)
    solns

/-- Function `solveImpl(values, target, solns)` with the depth of the
recursion bounded by `fuel`: with no fuel left a recursive call does not
complete. -/
def solveImplFuel : Nat → List Value → Int → Solns → Option Solns
  | 0, values, target, solns =>
      solveImplBody (fun _ _ _ => none) values target solns
  | fuel + 1, values, target, solns =>
      solveImplBody (solveImplFuel fuel) values target solns

/-- Function `solveImpl`: every recursive call receives a list one shorter,
so `values.length` levels of recursion are never exceeded. -/
def solveImpl (values : List Value) (target : Int) (solns : Solns) : Option Solns :=
  solveImplFuel values.length values target solns

/-! ### The values passed to `consider`

The search calls `consider` on a sequence of Values that does not depend on
the accumulator.  `searchTrace` lists the arguments of these calls in the
order in which `solveImpl` makes them. -/

/-- The arguments of the `consider` calls made by the body of `solveImpl`
on `values`, given the calls `rtrace` made by each recursive invocation. -/
def searchTraceBody (rtrace : List Value → List Value) (values : List Value) :
    List Value :=
  (List.range (values.length - 1)).flatMap fun i =>
    (List.range' (i + 1) (values.length - (i + 1))).flatMap fun j =>
      match values[i]?, values[j]? with
      | some vi, some vj =>
          let lhs := if vi.number < vj.number then vj else vi
          let rhs := if vi.number < vj.number then vi else vj
          operations.flatMap fun op =>
            match lhs.combine rhs op with
            | none => []
            | some result =>
                result ::
                  (if values.length > 2 then
                    match reduce values i j (some result) with
                    | none => []
                    | some reducedValues => rtrace reducedValues
                  else [])
      | _, _ => []

/-- The arguments of the `consider` calls made by `solveImpl(values, …)`,
to recursion depth `fuel`. -/
def searchTrace : Nat → List Value → List Value
  | 0, values => searchTraceBody (fun _ => []) values
  | fuel + 1, values => searchTraceBody (searchTrace fuel) values

/-- All Values that `solve()` passes to `consider` for the input numbers:
the leaves in input order, then the Values reached by `solveImpl`. -/
def considered (numbers : List Int) : List Value :=
  numbers.map Value.leaf ++
    searchTrace (numbers.map Value.leaf).length (numbers.map Value.leaf)

/-! ### Expression trees over the puzzle's values

The reference notion of "what can be made from the values": an arithmetic
expression whose leaves name positions of the value list and whose inner
nodes apply an operator to the two sub-results, the larger one first. -/

/-- An arithmetic expression tree over positions of a list of numbers. -/
inductive Tree
  | leaf (position : Nat)
  | node (operator : Operator) (left right : Tree)
  deriving DecidableEq, Repr

/-- The positions at the leaves of a tree, left to right. -/
def Tree.leaves : Tree → List Nat
  | Tree.leaf p => [p]
  | Tree.node _ l r => l.leaves ++ r.leaves

/-- The result of an operator on two integers `a`, `b` under the rules of
the game: a difference must be at least 1 and a quotient exact. -/
def applyOperator (op : Operator) (a b : Int) : Option Int :=
  match op with
  | Operator.plus => some (a + b)
  | Operator.times => some (a * b)
  | Operator.minus => if a - b < 1 then none else some (a - b)
  | Operator.divide => if b ≠ 0 ∧ a % b = 0 then some (a / b) else none

/-- The value of a tree over `numbers`: a leaf is the number at its
position, an inner node applies its operator to the two sub-results taken
larger-first.  `none` when a position is out of range or an operation is not
allowed. -/
def Tree.eval (numbers : List Int) : Tree → Option Int
  | Tree.leaf p => numbers[p]?
  | Tree.node op l r =>
      match Tree.eval numbers l, Tree.eval numbers r with
      | some a, some b => applyOperator op (max a b) (min a b)
      | _, _ => none

/-- The numbers at the leaves of a tree, as a multiset. -/
def Tree.leafNumbers (numbers : List Int) (t : Tree) : Multiset Int :=
  ((t.leaves.map (fun p => numbers.getD p 0) : List Int) : Multiset Int)

/-- One reduction of a pool of numbers: two of its members `a`, `b` are
replaced by the result `n` of an operator applied to them larger-first. -/
inductive PoolStep : Multiset Int → Int → Multiset Int → Prop
  | mk (a b : Int) (rest : Multiset Int) (op : Operator) (n : Int) :
      applyOperator op (max a b) (min a b) = some n →
      PoolStep (a ::ₘ b ::ₘ rest) n (n ::ₘ rest)

/-- A non-empty sequence of reductions from the pool `M` to the pool `M2`
whose last reduction has result `n`. -/
inductive DerivesTo : Multiset Int → Int → Multiset Int → Prop
  | last {M : Multiset Int} {n : Int} {M2 : Multiset Int} :
      PoolStep M n M2 → DerivesTo M n M2
  | next {M : Multiset Int} {m : Int} {M1 : Multiset Int} {n : Int} {M2 : Multiset Int} :
      PoolStep M m M1 → DerivesTo M1 n M2 → DerivesTo M n M2

/-! ### The shape of the texts produced by `toString`

After the parentheses around lone numbers are removed, the text of a Value
is made of *atoms*: a number, a parenthesised binary operation on two
atoms, or a parenthesised flat chain of numbers under one operator (the
result of a reduce expression).  These definitions describe the texts; the
theorems below show that the replacements of `toString` act on them as
`Atom.rewrite` does. -/

/-- The structure of a piece of text that stands as an operand. -/
inductive Atom
  | num (n : Nat)
  | bin (l : Atom) (o : Operator) (r : Atom)
  | chain (o : Operator) (a : Nat) (ns : List Nat)
  deriving DecidableEq, Repr

/-- The text ` ⊕ ` placed between operands, for a choice `sym` of operator
characters. -/
def sepText (sym : Operator → Char) (o : Operator) : List Char :=
  [' ', sym o, ' ']

/-- The text ` ⊕ n₁ ⊕ n₂ …` of the tail of a flat chain. -/
def chainText (sym : Operator → Char) (o : Operator) : List Nat → List Char
  | [] => []
  | n :: ns => sepText sym o ++ Nat.toDigits 10 n ++ chainText sym o ns

/-- The text of an atom. -/
def Atom.text (sym : Operator → Char) : Atom → List Char
  | Atom.num n => Nat.toDigits 10 n
  | Atom.bin l o r => '(' :: (Atom.text sym l ++ sepText sym o ++ Atom.text sym r ++ [')'])
  | Atom.chain o a ns => '(' :: (Nat.toDigits 10 a ++ chainText sym o ns ++ [')'])

/-- The text of a whole expression: as `Atom.text`, without the outermost
pair of parentheses. -/
def Atom.topText (sym : Operator → Char) : Atom → List Char
  | Atom.num n => Nat.toDigits 10 n
  | Atom.bin l o r => Atom.text sym l ++ sepText sym o ++ Atom.text sym r
  | Atom.chain o a ns => Nat.toDigits 10 a ++ chainText sym o ns

/-- The numbers of an atom that is a flat chain under the operator `o`
with at least two numbers. -/
def Atom.asChain (o : Operator) : Atom → Option (Nat × List Nat)
  | Atom.bin (Atom.num a) o1 (Atom.num b) => if o1 = o then some (a, [b]) else none
  | Atom.chain o1 a (n :: ns) => if o1 = o then some (a, n :: ns) else none
  | _ => none

/-- The effect on an atom of one global replacement with the reduce
expression of the operator `o`: the outermost, leftmost groups of the form
`((a ⊕ …) ⊕ c)` are flattened. -/
def Atom.rewrite (o : Operator) : Atom → Atom
  | Atom.num n => Atom.num n
  | Atom.chain o1 a ns => Atom.chain o1 a ns
  | Atom.bin l o1 r =>
      match (if o1 = o then Atom.asChain o l else none), r with
      | some (a, ns), Atom.num c => Atom.chain o a (ns ++ [c])
      | _, _ => Atom.bin (Atom.rewrite o l) o1 (Atom.rewrite o r)

/-- The effect of the replacement on a whole expression, whose outermost
operation carries no parentheses. -/
def Atom.rewriteTop (o : Operator) : Atom → Atom
  | Atom.bin l o1 r => Atom.bin (Atom.rewrite o l) o1 (Atom.rewrite o r)
  | a => a

/-- The arithmetic of an operator on rationals. -/
def Operator.apply (o : Operator) (x y : ℚ) : ℚ :=
  match o with
  | Operator.plus => x + y
  | Operator.minus => x - y
  | Operator.times => x * y
  | Operator.divide => x / y

/-- The value of an atom, operators of a chain grouped to the left. -/
def Atom.value : Atom → ℚ
  | Atom.num n => (n : ℚ)
  | Atom.bin l o r => o.apply (Atom.value l) (Atom.value r)
  | Atom.chain o a ns => ns.foldl (fun (acc : ℚ) (n : Nat) => o.apply acc (n : ℚ)) (a : ℚ)

/-- No division of the atom has a zero divisor. -/
def Atom.divisorsNonzero : Atom → Prop
  | Atom.num _ => True
  | Atom.bin l o r =>
      Atom.divisorsNonzero l ∧ Atom.divisorsNonzero r ∧
        (o = Operator.divide → Atom.value r ≠ 0)
  | Atom.chain o _ ns => o = Operator.divide → ∀ n ∈ ns, n ≠ 0

/-- The nesting depth of parentheses in the text of an atom. -/
def Atom.depth : Atom → Nat
  | Atom.num _ => 0
  | Atom.bin l _ r => max (Atom.depth l) (Atom.depth r) + 1
  | Atom.chain _ _ _ => 1

/-- The atom of a Value: its derivation tree, numbers as naturals. -/
def Atom.ofValue : Value → Atom
  | Value.leaf n => Atom.num n.toNat
  | Value.derived _ l r o _ => Atom.bin (Atom.ofValue l) o (Atom.ofValue r)

/-- The operator characters of the text passed to the evaluator: `×` has
become `*`. -/
def Operator.scriptSymbol : Operator → Char
  | Operator.plus => '+'
  | Operator.minus => '-'
  | Operator.times => '*'
  | Operator.divide => '/'

/-! ## Puzzles -/

/-- A `NumberPuzzle` object.  An entry `none` of `values` is an `undefined`
array element. -/
structure NumberPuzzle where
  target : Int
  values : List (Option Int)
  deriving DecidableEq, Repr

/-- The object returned by `solve()`.  `best` is `undefined` (`none`) only
when the puzzle has no values. -/
structure SolveResult where
  best : Option Value
  all : List Value
  deriving DecidableEq, Repr

/-- The entries of `values` when none of them is `undefined`. -/
def definedValues : List (Option Int) → Option (List Int)
  | [] => some []
  | none :: _ => none
  | some n :: rest =>
      match definedValues rest with
      | none => none
      | some ns => some (n :: ns)

/-- `Array.prototype.sort` with the comparator
`(v1, v2) => v1.compareTo(v2, target)`.  The sort is stable; for a
consistent comparator its result is that of a stable insertion sort. -/
def sortByRank (target : Int) (all : List Value) : List Value :=
  all.insertionSort (fun v1 v2 => v1.compareTo v2 target ≤ 0)

/-- Method `solve()`, for a puzzle all of whose values are integers
(`none` otherwise: arithmetic on `undefined` is outside this model). -/
def NumberPuzzle.solve (this : NumberPuzzle) : Option SolveResult :=
  match definedValues this.values with
  | none => none
  | some numbers =>
      let values := numbers.map Value.leaf
      match values with
      | [] => some { best := none, all := [] }
      | first :: _ =>
          let solns : Solns := { best := first, all := [] }
          let solns := values.foldl (fun solns v => consider v this.target solns) solns
          match solveImpl values this.target solns with
          | none => none
          | some solns =>
              some { best := some solns.best, all := sortByRank this.target solns.all }

/-! ### Construction

`Math.random()` is modelled by a stream `rng : Nat → Nat` of raw draws
together with the count of draws made so far; the call `random(n)` maps
the next raw draw into `0 .. n-1`.  Every sequence of results that
`random` can produce is produced by some stream. -/

/-- Method `random(n)`: the result and the advanced draw count. -/
def random (rng : Nat → Nat) (draws : Nat) (n : Nat) : Nat × Nat :=
  (if n = 0 then 0 else rng draws % n, draws + 1)

/-- The three assignments `t = a[i]; a[i] = a[j]; a[j] = t` for in-range
`i`, `j`. -/
def swap (a : List Int) (i j : Nat) : List Int :=
  match a[i]?, a[j]? with
  | some x, some y => (a.set i y).set j x
  | _, _ => a

/-- Method `shuffle(a)`: the shuffled contents and the advanced draw
count. -/
def shuffle (rng : Nat → Nat) (a : List Int) (draws : Nat) : List Int × Nat :=
  (List.range a.length).foldl
    (fun (st : List Int × Nat) i =>
      let r := random rng st.2 st.1.length
      (swap st.1 i r.1, r.2))
    (a, draws)

/-- Method `standardBigOnes()`. -/
def standardBigOnes : List Int := [100, 75, 50, 25]

/-- Method `standardLittleOnes()`. -/
def standardLittleOnes : List Int :=
  (List.range' 1 10).foldl (fun littles i => littles ++ [(i : Int), (i : Int)]) []

/-- A parameter variable that holds an array: `caller` is the array object
passed in by the caller (`none` for `null` / omitted), `fresh` the array the
variable was last assigned inside the constructor, if any.  In-place
operations act on the array the variable currently denotes. -/
structure ArrayVar where
  caller : Option (List Int)
  fresh : Option (List Int)
  deriving DecidableEq, Repr

/-- The contents of the array the variable denotes. -/
def ArrayVar.read (v : ArrayVar) : List Int :=
  match v.fresh with
  | some a => a
  | none => v.caller.getD []

/-- An in-place update of the array the variable denotes. -/
def ArrayVar.update (v : ArrayVar) (a : List Int) : ArrayVar :=
  match v.fresh with
  | some _ => { v with fresh := some a }
  | none => { v with caller := v.caller.map (fun _ => a) }

/-- Assignment of a newly created array to the variable. -/
def ArrayVar.assign (v : ArrayVar) (a : List Int) : ArrayVar :=
  { v with fresh := some a }

/-- The loop `for (i = 0; i < count; ++i) values.push(pool.pop())`:
`pop` on an empty array returns `undefined` and leaves it empty. -/
def popInto : Nat → ArrayVar → List (Option Int) → ArrayVar × List (Option Int)
  | 0, pool, values => (pool, values)
  | count + 1, pool, values =>
      popInto count (pool.update pool.read.dropLast) (values ++ [pool.read.getLast?])

/-- What the constructor leaves behind: the new puzzle, and the contents of
the two array objects passed by the caller. -/
structure Constructed where
  puzzle : NumberPuzzle
  bigOnesArg : Option (List Int)
  littleOnesArg : Option (List Int)
  deriving DecidableEq, Repr

/-- The constructor `NumberPuzzle(target, numBigOnes, numSelections,
bigOnes, littleOnes)`; an argument `none` is `null` or omitted. -/
def NumberPuzzle.construct (rng : Nat → Nat) (target : Option Int)
    (numBigOnes numSelections : Option Nat)
    (bigOnes littleOnes : Option (List Int)) : Constructed :=
  let draws := 0
  let (target, draws) : Int × Nat :=
    match target with
    | some t => (t, draws)
    | none => let r := random rng draws 900; (100 + (r.1 : Int), r.2)
  let numBigOnes := match numBigOnes with | some n => n | none => 2
  let numSelections := match numSelections with | some n => n | none => 6
  let bigVar : ArrayVar := { caller := bigOnes, fresh := none }
  let bigVar := if bigOnes = none then bigVar.assign standardBigOnes else bigVar
  let littleVar : ArrayVar := { caller := littleOnes, fresh := none }
  let littleVar :=
    if littleOnes = none then littleVar.assign standardLittleOnes else littleVar
  let bigVar := bigVar.assign bigVar.read
  let littleVar := littleVar.assign littleVar.read
  let (bigVar, littleVar) : ArrayVar × ArrayVar :=
    if numBigOnes ≠ numSelections then
      let b := shuffle rng bigVar.read draws
      let l := shuffle rng littleVar.read b.2
      (bigVar.update b.1, littleVar.update l.1)
    else
      (bigVar.update bigVar.read.reverse, littleVar)
  let values : List (Option Int) := []
  let (bigVar, values) := popInto numBigOnes bigVar values
  let numLittleOnes := numSelections - numBigOnes
  let (littleVar, values) := popInto numLittleOnes littleVar values
  { puzzle := { target := target, values := values },
    bigOnesArg := bigVar.caller,
    littleOnesArg := littleVar.caller }

/-! ## Derivation trees of Values -/

/-- The number of internal (operator) nodes of the derivation tree of a
Value: the nodes that carry an `lhs`, an `rhs` and an `operator`. -/
def Value.operatorNodes : Value → Nat
  | Value.leaf _ => 0
  | Value.derived _ l r _ _ => l.operatorNodes + r.operatorNodes + 1

/-- A Value made by the class itself: `new Value(n)` for any number `n`, or
the result of a successful `lhs.combine(rhs, operator)` on two such
Values. -/
def Value.made : Value → Prop
  | Value.leaf _ => True
  | Value.derived n l r o s =>
      l.made ∧ r.made ∧ Value.combine l r o = some (Value.derived n l r o s)

/-- Method `toString()` with its memo field `#simpleExpression` made
explicit: the argument is the field before the call (`none` is `null`), the
result the returned string and the field after the call. -/
def Value.toStringMemo (v : Value) (simpleExpression : Option (List Char)) :
    List Char × Option (List Char) :=
  match simpleExpression with
  | none => (v.toString, some v.toString)
  | some expr => (expr, some expr)

/-! ### The runs of `shuffle`

A run of `shuffle(a)` is fixed by the results `j_0, …, j_{n-1}` of its `n`
calls `random(a.length)`. -/

/-- All sequences of `k` results that calls of `random(n)` can return:
every entry is one of `0 .. n-1`. -/
def choiceSequences (n : Nat) : Nat → List (List Nat)
  | 0 => [[]]
  | k + 1 => (List.range n).flatMap fun j => (choiceSequences n k).map fun js => j :: js

/-- The array left by `shuffle(a)` when its calls of `random` return the
entries of `js` in turn. -/
def shuffleWith (js : List Nat) (a : List Int) : List Int :=
  (shuffle (fun k => js.getD k 0) a 0).1

/-- The number of runs of `shuffle(a)` that leave `result`. -/
def shuffleCount (a result : List Int) : Nat :=
  ((choiceSequences a.length a.length).filter fun js => shuffleWith js a = result).length

/-! ## The list of steps -/

/-- The characters that the string method `trim()` removes from both ends:
the white space and line terminator code points. -/
def isTrimSpace (c : Char) : Bool :=
  decide (c.toNat = 9 ∨ c.toNat = 10 ∨ c.toNat = 11 ∨ c.toNat = 12 ∨ c.toNat = 13 ∨
    c.toNat = 32 ∨ c.toNat = 160 ∨ c.toNat = 5760 ∨ (8192 ≤ c.toNat ∧ c.toNat ≤ 8202) ∨
    c.toNat = 8232 ∨ c.toNat = 8233 ∨ c.toNat = 8239 ∨ c.toNat = 8287 ∨ c.toNat = 12288 ∨
    c.toNat = 65279)

/-- The string method `trim()`. -/
def trim (s : List Char) : List Char :=
  ((s.dropWhile isTrimSpace).reverse.dropWhile isTrimSpace).reverse

/-- The helper `steps(v)` inside `toListOfSteps`: the steps of `v.lhs`,
those of `v.rhs`, then the step that made `v`, each ended by a newline. -/
def Value.stepsText : Value → List Char
  | Value.leaf _ => []
  | Value.derived n l r o _ =>
      let prevSteps := Value.stepsText l ++ Value.stepsText r
      prevSteps ++
        (Value.numberToString l.number ++ [' ', o.symbol, ' '] ++
          Value.numberToString r.number ++ [' ', '=', ' '] ++ Value.numberToString n ++ ['\n'])

/-- Method `toListOfSteps()`. -/
def Value.toListOfSteps : Value → List Char
  | Value.leaf n => Value.numberToString n ++ [' ', '=', ' '] ++ Value.numberToString n
  | Value.derived n l r o s => trim (Value.stepsText (Value.derived n l r o s))

/-- The lines of the derivation of a Value in post-order: the lines of
`lhs`, the lines of `rhs`, then the line
`lhs.number operator rhs.number = number`; a starting value has none. -/
def Value.stepLines : Value → List (List Char)
  | Value.leaf _ => []
  | Value.derived n l r o _ =>
      Value.stepLines l ++ Value.stepLines r ++
        [Value.numberToString l.number ++ [' ', o.symbol, ' '] ++
          Value.numberToString r.number ++ [' ', '=', ' '] ++ Value.numberToString n]

/-- Lines joined by newlines, with no separator after the last line. -/
def joinLines : List (List Char) → List Char
  | [] => []
  | [line] => line
  | line :: rest => line ++ '\n' :: joinLines rest

/-- A text that is not empty and neither starts nor ends with a character
that `trim()` removes. -/
def Framed (s : List Char) : Prop :=
  (∃ a, s.head? = some a ∧ isTrimSpace a = false) ∧
    (∃ z, s.getLast? = some z ∧ isTrimSpace z = false)

/-! ## The leaves of a derivation -/

/-- The numbers at the leaves of the derivation tree of a Value, from left
to right. -/
def Value.leafNumbers : Value → List Int
  | Value.leaf n => [n]
  | Value.derived _ l r _ _ => l.leafNumbers ++ r.leafNumbers

/-- Every internal node of the derivation tree has
`lhs.number ≥ rhs.number`. -/
def Value.lhsNotSmaller : Value → Prop
  | Value.leaf _ => True
  | Value.derived _ l r _ _ => r.number ≤ l.number ∧ l.lhsNotSmaller ∧ r.lhsNotSmaller

/-- A list of Values in the search whose leaves sit at the positions
listed beside them: each Value's leaf numbers are the puzzle numbers at its
positions, no position occurs twice in the whole list, every position is
in range, and every internal node has `lhs.number ≥ rhs.number`. -/
def PoolSound (numbers : List Int) (placed : List (Value × List Nat)) : Prop :=
  (∀ a ∈ placed, a.2.map (fun p => numbers.getD p 0) = a.1.leafNumbers ∧ a.1.lhsNotSmaller) ∧
    (placed.map Prod.snd).flatten.Nodup ∧
    ∀ p ∈ (placed.map Prod.snd).flatten, p < numbers.length

/-! ## The letters round: the ternary search tree

Strings are lists of UTF-16 code units, the values read by `charCodeAt`
and written by `String.fromCharCode`. -/

/-- A node reference: `null`, or a node object with the fields `char`,
`lt`, `eq`, `gt` and `eow`.  `char` holds the result of `charCodeAt`
(`none` is `NaN`); `eow` is `true` once the property has been set. -/
inductive Node
  | null
  | node (char : Option Nat) (lt eq gt : Node) (eow : Bool)
  deriving DecidableEq, Repr

/-- The comparison `a < b` of two results of `charCodeAt`: false when
either is `NaN`. -/
def numLt (a b : Option Nat) : Bool :=
  match a, b with
  | some x, some y => decide (x < y)
  | _, _ => false

/-- The number of node objects on the longest path from a node
reference. -/
def Node.height : Node → Nat
  | Node.null => 0
  | Node.node _ lt eq gt _ => max (max lt.height eq.height) gt.height + 1

namespace TernarySearchTree

/-- Method `#has(node, word, i)`. -/
def hasNode : Node → List Nat → Nat → Bool
  | Node.null, _, _ => false
  | Node.node char lt eq gt eow, word, i =>
      let ch := word[i]?
      if numLt ch char then hasNode lt word i
      else if numLt char ch then hasNode gt word i
      else
        let i := i + 1
        if i = word.length then eow else hasNode eq word i

/-- Method `has(word)` for a string `word`, on the tree with the given
root. -/
def has (root : Node) (word : List Nat) : Bool :=
  hasNode root word 0

/-- Method `#add(node, word, i)` with the depth of the recursion bounded by
`fuel`; `none` is a call that does not return within the bound. -/
def addNode : Nat → Node → List Nat → Nat → Option Node
  | 0, _, _, _ => none
  | fuel + 1, node, word, i =>
      let ch := word[i]?
      let (char, lt, eq, gt, eow) : Option Nat × Node × Node × Node × Bool :=
        match node with
        | Node.null => (ch, Node.null, Node.null, Node.null, false)
        | Node.node char lt eq gt eow => (char, lt, eq, gt, eow)
      if numLt ch char then
        (addNode fuel lt word i).map fun lt => Node.node char lt eq gt eow
      else if numLt char ch then
        (addNode fuel gt word i).map fun gt => Node.node char lt eq gt eow
      else
        let i := i + 1
        if i = word.length then some (Node.node char lt eq gt true)
        else (addNode fuel eq word i).map fun eq => Node.node char lt eq gt eow

/-- Method `add(word)` for a string `word`: the new root, or `none` when
the call does not return.  A call that returns does so within
`root.height + word.length` levels of recursion. -/
def add (root : Node) (word : List Nat) : Option Node :=
  addNode (root.height + word.length + 1) root word 0

/-- Method `addAll(words, start, end)` with the depth of the recursion
bounded by `fuel`.  `words[mid]` outside the array is `undefined`, for
which `add` throws. -/
def addAllRange : Nat → Node → List (List Nat) → Int → Int → Option Node
  | 0, _, _, _, _ => none
  | fuel + 1, root, words, start, endIndex =>
      if endIndex < start then some root
      else
        let mid := start + (endIndex - start) / 2
        match (if mid < 0 then none else words[mid.toNat]?) with
        | none => none
        | some word =>
            match add root word with
            | none => none
            | some root =>
                match addAllRange fuel root words start (mid - 1) with
                | none => none
                | some root => addAllRange fuel root words (mid + 1) endIndex

/-- Method `addAll(words)`: `start` is 0 and `end` is
`words.length - 1`. -/
def addAll (root : Node) (words : List (List Nat)) : Option Node :=
  addAllRange (words.length + 1) root words 0 ((words.length : Int) - 1)

/-- The call `String.fromCharCode(...path)`: `NaN` becomes code unit 0, a
code unit is kept. -/
def fromCharCode (path : List (Option Nat)) : List Nat :=
  path.map fun c => c.getD 0

/-- Method `#visitWords(node, treePath, treePathFn)`.  The state is the
array `treePath` together with whatever `treePathFn` updates. -/
def visitWords {σ : Type} (treePathFn : σ → List (Option Nat) → σ) :
    Node → List (Option Nat) × σ → List (Option Nat) × σ
  | Node.null, st => st
  | Node.node char lt eq gt eow, st =>
      let st := visitWords treePathFn lt st
      let st := (st.1 ++ [char], st.2)
      let st := if eow then (st.1, treePathFn st.2 st.1) else st
      let st := visitWords treePathFn eq st
      let st := (st.1.dropLast, st.2)
      visitWords treePathFn gt st

/-- Method `forEach(wordFn)`: the arguments of the calls of `wordFn`, in
the order of the calls. -/
def forEach (root : Node) : List (List Nat) :=
  (visitWords (fun calls path => calls ++ [fromCharCode path]) root ([], [])).2

/-- Getter `size`. -/
def size (root : Node) : Nat :=
  (visitWords (fun wordCount _ => wordCount + 1) root ([], 0)).2

/-- The state of `#arrangements`: the arrays `charMap` (a missing entry
counts as 0), `treePath` and `words`. -/
structure ArrangeState where
  charMap : Nat → Nat
  treePath : List (Option Nat)
  words : List (List Nat)

/-- Method `#arrangements(node, charMap, treePath, words)`. -/
def arrangementsNode : Node → ArrangeState → ArrangeState
  | Node.null, st => st
  | Node.node char lt eq gt eow, st =>
      let st := arrangementsNode lt st
      let st :=
        match char with
        | none => st
        | some c =>
            if st.charMap c > 0 then
              let st := { st with charMap := Function.update st.charMap c (st.charMap c - 1) }
              let st := { st with treePath := st.treePath ++ [char] }
              let st :=
                if eow then { st with words := st.words ++ [fromCharCode st.treePath] }
                else st
              let st := arrangementsNode eq st
              let st := { st with treePath := st.treePath.dropLast }
              { st with charMap := Function.update st.charMap c (st.charMap c + 1) }
            else st
      arrangementsNode gt st

/-- The loop of `arrangements` that counts the letters. -/
def countLetters (letters : List Nat) : Nat → Nat :=
  letters.foldl
    (fun charMap char =>
      Function.update charMap char (if charMap char ≠ 0 then charMap char + 1 else 1))
    (fun _ => 0)

/-- Method `arrangements(letters)` for a string `letters`. -/
def arrangements (root : Node) (letters : List Nat) : List (List Nat) :=
  (arrangementsNode root { charMap := countLetters letters, treePath := [], words := [] }).words

/-- The node chain that `#add` creates below a `null` reference for the
characters `c`, `rest`. -/
def chain : Nat → List Nat → Node
  | c, [] => Node.node (some c) Node.null Node.null Node.null true
  | c, d :: rest => Node.node (some c) Node.null (chain d rest) Node.null false

/-- What `#add(node, word, i)` returns when `c` is the character at `i`
and `rest` the characters after it. -/
def insert : Node → Nat → List Nat → Node
  | Node.null, c, rest => chain c rest
  | Node.node char lt eq gt eow, c, rest =>
      if numLt (some c) char then Node.node char (insert lt c rest) eq gt eow
      else if numLt char (some c) then Node.node char lt eq (insert gt c rest) eow
      else
        match rest with
        | [] => Node.node char lt eq gt true
        | d :: rest => Node.node char lt (insert eq d rest) gt eow

/-- What `#has(node, word, i)` returns when `c` is the character at `i` and
`rest` the characters after it. -/
def hasFrom : Node → Nat → List Nat → Bool
  | Node.null, _, _ => false
  | Node.node char lt eq gt eow, c, rest =>
      if numLt (some c) char then hasFrom lt c rest
      else if numLt char (some c) then hasFrom gt c rest
      else
        match rest with
        | [] => eow
        | d :: rest => hasFrom eq d rest

/-- The characters of the nodes linked by `lt` and `gt` alone: the
candidates for one position of a word. -/
def level : Node → List (Option Nat)
  | Node.null => []
  | Node.node char lt _ gt _ => level lt ++ char :: level gt

/-- The search-tree order: every node holds a code unit, the nodes
reached through `lt` hold smaller characters and those reached through
`gt` larger ones. -/
def Ordered : Node → Prop
  | Node.null => True
  | Node.node char lt eq gt _ =>
      (∃ c, char = some c ∧ (∀ x ∈ level lt, numLt x (some c) = true) ∧
        (∀ x ∈ level gt, numLt (some c) x = true)) ∧
      Ordered lt ∧ Ordered eq ∧ Ordered gt

/-- The paths from a node to the nodes marked `eow`, in the order of the
traversal `lt`, node, `eq`, `gt`. -/
def paths : Node → List (List (Option Nat))
  | Node.null => []
  | Node.node char lt eq gt eow =>
      paths lt ++ ((if eow then [[char]] else []) ++ (paths eq).map (fun w => char :: w)) ++
        paths gt

/-- The strings stored below a node, in the order of the traversal. -/
def words : Node → List (List Nat)
  | Node.null => []
  | Node.node char lt eq gt eow =>
      words lt ++
        ((if eow then [[char.getD 0]] else []) ++ (words eq).map (fun w => char.getD 0 :: w)) ++
        words gt

/-- A string can be spelled from the letters counted in `charMap`: no
character occurs more often than counted. -/
def Spellable (charMap : Nat → Nat) (word : List Nat) : Prop :=
  ∀ c, word.count c ≤ charMap c

/-- A decision procedure for `Spellable`: only the characters of the word
need a check. -/
def canSpell (charMap : Nat → Nat) (word : List Nat) : Bool :=
  word.all fun c => decide (word.count c ≤ charMap c)

/-- The trees that the methods `add` and `addAll` build from the empty
tree, each with the strings that have been added to it. -/
inductive Built : List (List Nat) → Node → Prop
  | empty : Built [] Node.null
  | add (added : List (List Nat)) (root : Node) (word : List Nat) (root2 : Node) :
      Built added root → add root word = some root2 → Built (word :: added) root2
  | addAll (added : List (List Nat)) (root : Node) (words : List (List Nat)) (root2 : Node) :
      Built added root → addAll root words = some root2 → Built (words ++ added) root2

end TernarySearchTree

/-! ## The letters round: the word-list converter

`src/letters-round/convert-list-to-script.js`.  A word is the list of its
UTF-16 code units, and so is the text of the generated script. -/

/-- The code units of a text constant of the source (every character of
these constants is a single code unit). -/
def codeUnits (text : String) : List Nat :=
  text.toList.map Char.toNat

/-- The code units matched by `\s`: white space and line terminators. -/
def isSpaceUnit (c : Nat) : Bool :=
  decide (c = 9 ∨ c = 10 ∨ c = 11 ∨ c = 12 ∨ c = 13 ∨ c = 32 ∨ c = 160 ∨ c = 5760 ∨
    (8192 ≤ c ∧ c ≤ 8202) ∨ c = 8232 ∨ c = 8233 ∨ c = 8239 ∨ c = 8287 ∨ c = 12288 ∨
    c = 65279)

/-- The inner loop `for (p = 0; p < 9; ++p)` of the converter, entered at
`p` with `remaining = 9 - p` rounds to go: it stops at the first index where
`wordList[i][p] !== prevWord[p]` (an index past the end reads
`undefined`). -/
def prefixScan (word prevWord : List Nat) : Nat → Nat → Nat
  | 0, p => p
  | remaining + 1, p =>
      if word[p]? ≠ prevWord[p]? then p else prefixScan word prevWord remaining (p + 1)

/-- The value of `p` after the inner loop. -/
def prefixLength (word prevWord : List Nat) : Nat :=
  prefixScan word prevWord 9 0

/-- The body of the outer loop for one word: the new content of
`wordList[i]`, the template literal `${p}${wordList[i].substring(p)}` when
`p >= 2`. -/
def compressWord (prevWord word : List Nat) : List Nat :=
  let p := prefixLength word prevWord
  if p ≥ 2 then codeUnits (toString p) ++ word.drop p else word

/-- The encoding loop of the converter: the array `wordList` after the
loop.  The state is the array and `prevWord` (`undefined`, here the empty
word, only when the list is empty and the body never runs). -/
def compressList (wordList : List (List Nat)) : List (List Nat) :=
  ((List.range' 1 (wordList.length - 1)).foldl
    (fun (st : List (List Nat) × List Nat) i =>
      let word := st.1.getD i []
      (st.1.set i (compressWord st.2 word), word))
    (wordList, wordList.getD 0 [])).1

/-- One lower-case hexadecimal digit. -/
def hexDigit (n : Nat) : Nat :=
  if n < 10 then 48 + n else 87 + n

/-- The escape `\uXXXX` of a code unit, as written by `JSON.stringify`. -/
def unicodeEscape (c : Nat) : List Nat :=
  [92, 117, hexDigit (c / 4096 % 16), hexDigit (c / 256 % 16), hexDigit (c / 16 % 16),
    hexDigit (c % 16)]

/-- The text that `JSON.stringify` writes for a code unit that is not a
surrogate. -/
def escapeUnit (c : Nat) : List Nat :=
  if c = 8 then [92, 98]
  else if c = 9 then [92, 116]
  else if c = 10 then [92, 110]
  else if c = 12 then [92, 102]
  else if c = 13 then [92, 114]
  else if c = 34 then [92, 34]
  else if c = 92 then [92, 92]
  else if c < 32 then unicodeEscape c
  else [c]

/-- The text that `JSON.stringify` writes for one code unit `c` of a
string: a surrogate is kept when it is part of a pair (a high surrogate
followed by a low one) and escaped when it is alone.  `afterHigh` tells that
the unit before was a high surrogate, `rest` are the units after `c`. -/
def quoteToken (afterHigh : Bool) (c : Nat) (rest : List Nat) : List Nat :=
  if 55296 ≤ c ∧ c ≤ 56319 then
    (match rest.head? with
      | some d => if 56320 ≤ d ∧ d ≤ 57343 then [c] else unicodeEscape c
      | none => unicodeEscape c)
  else if 56320 ≤ c ∧ c ≤ 57343 then
    (if afterHigh then [c] else unicodeEscape c)
  else escapeUnit c

/-- The text that `JSON.stringify` writes for the code units of a
string. -/
def quoteUnits : Bool → List Nat → List Nat
  | _, [] => []
  | afterHigh, c :: rest =>
      quoteToken afterHigh c rest ++ quoteUnits (decide (55296 ≤ c ∧ c ≤ 56319)) rest

/-- The text that `JSON.stringify` writes for a string. -/
def quoteJSONString (s : List Nat) : List Nat :=
  34 :: quoteUnits false s ++ [34]

/-- The quoted strings separated by commas. -/
def joinQuoted : List (List Nat) → List Nat
  | [] => []
  | [s] => quoteJSONString s
  | s :: rest => quoteJSONString s ++ 44 :: joinQuoted rest

/-- The call `JSON.stringify(wordList)` for an array of strings. -/
def jsonStringify (wordList : List (List Nat)) : List Nat :=
  91 :: joinQuoted wordList ++ [93]

/-- Whether `text` starts with `searchValue`. -/
def startsWith : List Nat → List Nat → Bool
  | [], _ => true
  | _ :: _, [] => false
  | s :: searchValue, c :: text => s = c && startsWith searchValue text

/-- The string method `includes(searchValue)`. -/
def includes (searchValue : List Nat) : List Nat → Bool
  | [] => startsWith searchValue []
  | c :: text => startsWith searchValue (c :: text) || includes searchValue text

/-- The string method `replace(searchValue, replaceValue)` for a string
`searchValue` and a `replaceValue` without `$`: the first occurrence is
replaced. -/
def replaceFirst (searchValue replaceValue : List Nat) : List Nat → List Nat
  | [] => if startsWith searchValue [] then replaceValue else []
  | c :: text =>
      if startsWith searchValue (c :: text) then
        replaceValue ++ (c :: text).drop searchValue.length
      else c :: replaceFirst searchValue replaceValue text

/-- The text of the template literal after the interpolated
`JSON.stringify(wordList)`. -/
def loopTemplate : List Nat :=
  codeUnits (";\nfor (let i=1, p, wl=globalThis.wordList; i<wl.length; ++i) \x7b\n" ++
    "  p = wl[i][0];\n" ++
    "  if (p >= 1 && p <= 9) wl[i] = wl[i-1].substring(0,p) + wl[i].substring(1);\n" ++
    "\x7d\n")

/-- The constant `script`: the template literal with the array
interpolated, then `.replace(/\s/g, "")`, then
`.replace("(leti", "(let i")`. -/
def script (wordList : List (List Nat)) : List Nat :=
  let text := codeUnits ("\nglobalThis.wordList=") ++ jsonStringify wordList ++ loopTemplate
  let text := text.filter fun c => !isSpaceUnit c
  replaceFirst (codeUnits ("(leti")) (codeUnits ("(let i")) text

/-- The text written to `word-list.js` for a word list: the encoding loop
followed by the construction of `script`. -/
def convert (wordList : List (List Nat)) : List Nat :=
  script (compressList wordList)

/-- The number that the comparisons `p >= 1` and `p <= 9` see for a
one-unit string `p`: a decimal digit is its value, white space is 0, and
anything else is `NaN` (`none`). -/
def unitToNumber (c : Nat) : Option Nat :=
  if 48 ≤ c ∧ c ≤ 57 then some (c - 48)
  else if isSpaceUnit c then some 0
  else none

/-- The body of the decoding loop of the generated script for one entry:
the new content of `wl[i]`, given `wl[i-1]` and `wl[i]`. -/
def expandWord (previous word : List Nat) : List Nat :=
  match word.head? with
  | none => word
  | some p =>
      match unitToNumber p with
      | none => word
      | some n => if n ≥ 1 ∧ n ≤ 9 then previous.take n ++ word.drop 1 else word

/-- The decoding loop of the generated script:
`for (let i=1, p, wl=globalThis.wordList; i<wl.length; ++i)`. -/
def expandList (wordList : List (List Nat)) : List (List Nat) :=
  (List.range' 1 (wordList.length - 1)).foldl
    (fun wl i => wl.set i (expandWord (wl.getD (i - 1) []) (wl.getD i [])))
    wordList

/-- The script that assigns the array written by `JSON.stringify` and then
runs the decoding loop, without white space. -/
def scriptOf (wordList : List (List Nat)) : List Nat :=
  codeUnits ("globalThis.wordList=") ++ jsonStringify wordList ++
    codeUnits (";for(let i=1,p,wl=globalThis.wordList;i<wl.length;++i)\x7bp=wl[i][0];" ++
      "if(p>=1&&p<=9)wl[i]=wl[i-1].substring(0,p)+wl[i].substring(1);\x7d")

/-- A word begins with one of the digits `1` to `9`. -/
def beginsWithDigit (word : List Nat) : Bool :=
  match word.head? with
  | some c => decide (49 ≤ c ∧ c ≤ 57)
  | none => false

/-- No occurrence of `searchValue` starts inside `before` in the text
`before ++ after`. -/
def NoHit (searchValue : List Nat) : List Nat → List Nat → Prop
  | [], _ => True
  | c :: before, after =>
      startsWith searchValue (c :: (before ++ after)) = false ∧
        NoHit searchValue before after

/-! ## Theorems -/

/-- C1: for Values with positive integer numbers, `combine` with `+` and
`×` always returns a Value holding the sum resp. the product; with `-` it
returns a Value (holding the difference) exactly when the difference is at
least 1 and `null` otherwise; with `/` it returns a Value (holding the
quotient) exactly when `lhs.number` is an integer multiple of `rhs.number`
with quotient at least 1, and `null` otherwise. -/
theorem combine_contract (lhs rhs : Value)
    (hl : 0 < lhs.number) (hr : 0 < rhs.number) :
    (∃ v, lhs.combine rhs Operator.plus = some v ∧
        v.number = lhs.number + rhs.number) ∧
    (∃ v, lhs.combine rhs Operator.times = some v ∧
        v.number = lhs.number * rhs.number) ∧
    ((∃ v, lhs.combine rhs Operator.minus = some v) ↔
        1 ≤ lhs.number - rhs.number) ∧
    (∀ v, lhs.combine rhs Operator.minus = some v →
        v.number = lhs.number - rhs.number) ∧
    (lhs.combine rhs Operator.minus = none ↔
        ¬ 1 ≤ lhs.number - rhs.number) ∧
    ((∃ v, lhs.combine rhs Operator.divide = some v) ↔
        ∃ q : Int, 1 ≤ q ∧ lhs.number = q * rhs.number) ∧
    (∀ v, lhs.combine rhs Operator.divide = some v →
        1 ≤ v.number ∧ lhs.number = v.number * rhs.number) ∧
    (lhs.combine rhs Operator.divide = none ↔
        ¬ ∃ q : Int, 1 ≤ q ∧ lhs.number = q * rhs.number) := by
  have hdiv : (rhs.number ≠ 0 ∧ lhs.number % rhs.number = 0) ↔
      ∃ q : Int, 1 ≤ q ∧ lhs.number = q * rhs.number := by
    constructor
    · rintro ⟨_, hm⟩
      have hd : rhs.number ∣ lhs.number := Int.dvd_of_emod_eq_zero hm
      obtain ⟨q, hq⟩ := hd
      refine ⟨q, ?_, by rw [hq, mul_comm]⟩
      by_contra hlt
      have hq0 : q ≤ 0 := by omega
      have : rhs.number * q ≤ 0 :=
        Int.mul_nonpos_of_nonneg_of_nonpos hr.le hq0
      omega
    · rintro ⟨q, _, hq⟩
      refine ⟨by omega, ?_⟩
      rw [hq]
      exact Int.mul_emod_left q rhs.number
  have hquot : ∀ q : Int, lhs.number = q * rhs.number →
      lhs.number / rhs.number = q := by
    intro q hq
    rw [hq]
    exact Int.mul_ediv_cancel q (by omega)
  have hsub : lhs.combine rhs Operator.minus =
      if lhs.number - rhs.number < 1 then none
      else some (Value.derived (lhs.number - rhs.number) lhs rhs Operator.minus
        (lhs.steps + rhs.steps + 1)) := by
    unfold Value.combine
    by_cases h : lhs.number - rhs.number < 1
    · simp only [if_pos h]
    · simp only [if_neg h]
  have hquo : lhs.combine rhs Operator.divide =
      if rhs.number ≠ 0 ∧ lhs.number % rhs.number = 0 then
        some (Value.derived (lhs.number / rhs.number) lhs rhs Operator.divide
          (lhs.steps + rhs.steps + 1))
      else none := by
    unfold Value.combine
    by_cases h : rhs.number ≠ 0 ∧ lhs.number % rhs.number = 0
    · simp only [if_pos h]
    · simp only [if_neg h]
  refine ⟨⟨_, rfl, rfl⟩, ⟨_, rfl, rfl⟩, ?_, ?_, ?_, ?_, ?_, ?_⟩
  · rw [hsub]
    by_cases h : lhs.number - rhs.number < 1
    · rw [if_pos h]
      constructor
      · rintro ⟨v, hv⟩; cases hv
      · intro h1; omega
    · rw [if_neg h]
      exact ⟨fun _ => by omega, fun _ => ⟨_, rfl⟩⟩
  · intro v hv
    rw [hsub] at hv
    by_cases h : lhs.number - rhs.number < 1
    · rw [if_pos h] at hv; cases hv
    · rw [if_neg h] at hv
      cases hv; rfl
  · rw [hsub]
    by_cases h : lhs.number - rhs.number < 1
    · rw [if_pos h]
      exact ⟨fun _ => by omega, fun _ => rfl⟩
    · rw [if_neg h]
      constructor
      · intro hv; cases hv
      · intro h1; omega
  · rw [hquo, ← hdiv]
    by_cases h : rhs.number ≠ 0 ∧ lhs.number % rhs.number = 0
    · rw [if_pos h]
      exact ⟨fun _ => h, fun _ => ⟨_, rfl⟩⟩
    · rw [if_neg h]
      constructor
      · rintro ⟨v, hv⟩; cases hv
      · intro h1; exact absurd h1 h
  · intro v hv
    rw [hquo] at hv
    by_cases h : rhs.number ≠ 0 ∧ lhs.number % rhs.number = 0
    · rw [if_pos h] at hv
      obtain ⟨q, hq1, hq⟩ := hdiv.mp h
      have hvq : v.number = q := by
        cases hv
        exact hquot q hq
      rw [hvq]
      exact ⟨hq1, hq⟩
    · rw [if_neg h] at hv; cases hv
  · rw [hquo, ← hdiv]
    by_cases h : rhs.number ≠ 0 ∧ lhs.number % rhs.number = 0
    · rw [if_pos h]
      constructor
      · intro hv; cases hv
      · intro h1; exact absurd h h1
    · rw [if_neg h]
      exact ⟨fun _ => h, fun _ => rfl⟩

/-- Witness for C1 at `lhs = 6`, `rhs = 3`. -/
theorem combine_contract_witness :
    (0 < (Value.leaf 6).number ∧ 0 < (Value.leaf 3).number) ∧
    ((∃ v, (Value.leaf 6).combine (Value.leaf 3) Operator.plus = some v ∧
        v.number = (Value.leaf 6).number + (Value.leaf 3).number) ∧
    (∃ v, (Value.leaf 6).combine (Value.leaf 3) Operator.times = some v ∧
        v.number = (Value.leaf 6).number * (Value.leaf 3).number) ∧
    ((∃ v, (Value.leaf 6).combine (Value.leaf 3) Operator.minus = some v) ↔
        1 ≤ (Value.leaf 6).number - (Value.leaf 3).number) ∧
    (∀ v, (Value.leaf 6).combine (Value.leaf 3) Operator.minus = some v →
        v.number = (Value.leaf 6).number - (Value.leaf 3).number) ∧
    ((Value.leaf 6).combine (Value.leaf 3) Operator.minus = none ↔
        ¬ 1 ≤ (Value.leaf 6).number - (Value.leaf 3).number) ∧
    ((∃ v, (Value.leaf 6).combine (Value.leaf 3) Operator.divide = some v) ↔
        ∃ q : Int, 1 ≤ q ∧ (Value.leaf 6).number = q * (Value.leaf 3).number) ∧
    (∀ v, (Value.leaf 6).combine (Value.leaf 3) Operator.divide = some v →
        1 ≤ v.number ∧ (Value.leaf 6).number = v.number * (Value.leaf 3).number) ∧
    ((Value.leaf 6).combine (Value.leaf 3) Operator.divide = none ↔
        ¬ ∃ q : Int, 1 ≤ q ∧ (Value.leaf 6).number = q * (Value.leaf 3).number)) :=
  ⟨⟨by decide, by decide⟩,
   combine_contract (Value.leaf 6) (Value.leaf 3) (by decide) (by decide)⟩

theorem foldl_reduce_step (values : List Value) (i j : Nat) (ks : List Nat)
    (init : List Value) :
    ks.foldl
        (fun copy k =>
          if k = i ∨ k = j then copy
          else
            match values[k]? with
            | some v => copy ++ [v]
            | none => copy)
        init =
      init ++ ks.filterMap (fun k => if k = i ∨ k = j then none else values[k]?) := by
  induction ks generalizing init with
  | nil => simp
  | cons k ks ih =>
    rw [List.foldl_cons, ih, List.filterMap_cons]
    by_cases hk : k = i ∨ k = j
    · simp only [if_pos hk]
    · simp only [if_neg hk]
      cases hv : values[k]? with
      | none => simp
      | some v => simp

theorem filterMap_range_eraseIdx {α : Type} (values : List α) (i j : Nat) (hij : i < j) :
    (List.range values.length).filterMap
        (fun k => if k = i ∨ k = j then none else values[k]?) =
      (values.eraseIdx j).eraseIdx i := by
  induction values using List.reverseRecOn with
  | nil => simp
  | append_singleton vs x ih =>
    have hcongr : (List.range vs.length).filterMap
        (fun k => if k = i ∨ k = j then none else (vs ++ [x])[k]?) =
        (List.range vs.length).filterMap
        (fun k => if k = i ∨ k = j then none else vs[k]?) := by
      apply List.filterMap_congr
      intro k hk
      rw [List.mem_range] at hk
      rw [List.getElem?_append_left hk]
    rw [List.length_append, List.length_singleton, List.range_succ,
      List.filterMap_append, hcongr, ih]
    have hlast : (vs ++ [x])[vs.length]? = some x := by simp
    simp only [List.filterMap_cons, List.filterMap_nil, hlast]
    rcases Nat.lt_trichotomy j vs.length with hj | hj | hj
    · have hni : ¬ (vs.length = i ∨ vs.length = j) := by omega
      rw [if_neg hni, List.eraseIdx_append_of_lt_length hj,
        List.eraseIdx_append_of_lt_length]
      rw [List.length_eraseIdx_of_lt hj]; omega
    · have hni : (vs.length = i ∨ vs.length = j) := by omega
      rw [if_pos hni, List.eraseIdx_append_of_length_le (by omega)]
      subst hj
      simp [List.eraseIdx_of_length_le (k := vs.length) (l := vs) (le_refl _)]
    · rw [List.eraseIdx_of_length_le (k := j) (l := vs) (by omega),
        List.eraseIdx_of_length_le (k := j) (l := vs ++ [x]) (by simp; omega)]
      rcases Nat.lt_trichotomy i vs.length with hi | hi | hi
      · have hni : ¬ (vs.length = i ∨ vs.length = j) := by omega
        rw [if_neg hni, List.eraseIdx_append_of_lt_length hi]
      · have hni : (vs.length = i ∨ vs.length = j) := by omega
        rw [if_pos hni, List.eraseIdx_append_of_length_le (by omega)]
        subst hi
        simp
      · have hni : ¬ (vs.length = i ∨ vs.length = j) := by omega
        rw [if_neg hni, List.eraseIdx_of_length_le (k := i) (l := vs) (by omega),
          List.eraseIdx_of_length_le (k := i) (l := vs ++ [x]) (by simp; omega)]

theorem reduce_eq (values : List Value) (i j : Nat) (hij : i < j) (combined : Value) :
    reduce values i j (some combined) =
      some (combined :: (values.eraseIdx j).eraseIdx i) := by
  unfold reduce
  simp only []
  rw [foldl_reduce_step, filterMap_range_eraseIdx values i j hij]
  rfl


/-! ### The accumulator is a fold over the trace -/

theorem foldlM_eq_foldl_flatMap {σ β α : Type} (c : σ → β → σ)
    (f : σ → α → Option σ) (g : α → List β) (l : List α)
    (h : ∀ a ∈ l, ∀ s, f s a = some ((g a).foldl c s)) (s : σ) :
    l.foldlM f s = some ((l.flatMap g).foldl c s) := by
  induction l generalizing s with
  | nil => rfl
  | cons a l ih =>
    rw [List.foldlM_cons, h a (List.mem_cons_self a l) s]
    simp only [Option.some_bind, List.flatMap_cons, List.foldl_append]
    exact ih (fun b hb => h b (List.mem_cons_of_mem a hb)) _

theorem solveImplBody_eq_foldl (recurse : List Value → Int → Solns → Option Solns)
    (rtrace : List Value → List Value) (values : List Value) (target : Int)
    (hrec : 2 < values.length → ∀ rv s, rv.length + 1 = values.length →
      recurse rv target s = some ((rtrace rv).foldl (fun s v => consider v target s) s))
    (s : Solns) :
    solveImplBody recurse values target s =
      some ((searchTraceBody rtrace values).foldl (fun s v => consider v target s) s) := by
  unfold solveImplBody searchTraceBody
  apply foldlM_eq_foldl_flatMap
  intro i hi s
  apply foldlM_eq_foldl_flatMap
  intro j hj s
  rw [List.mem_range] at hi
  rw [List.mem_range'_1] at hj
  have hi' : i < values.length := by omega
  have hj' : j < values.length := by omega
  rw [List.getElem?_eq_getElem hi', List.getElem?_eq_getElem hj']
  simp only []
  apply foldlM_eq_foldl_flatMap
  intro op _ s
  cases hc : Value.combine (if values[i].number < values[j].number then values[j] else values[i])
      (if values[i].number < values[j].number then values[i] else values[j]) op with
  | none => rfl
  | some result =>
    simp only [List.foldl_cons]
    by_cases h2 : values.length > 2
    · simp only [if_pos h2]
      rw [reduce_eq values i j (by omega) result]
      simp only []
      apply hrec h2
      rw [List.length_cons, List.length_eraseIdx_of_lt, List.length_eraseIdx_of_lt hj']
      · omega
      · rw [List.length_eraseIdx_of_lt hj']; omega
    · simp only [if_neg h2, List.foldl_nil]

theorem solveImplFuel_eq_foldl (fuel : Nat) (values : List Value) (target : Int)
    (hfuel : values.length ≤ fuel + 2) (s : Solns) :
    solveImplFuel fuel values target s =
      some ((searchTrace fuel values).foldl (fun s v => consider v target s) s) := by
  induction fuel generalizing values s with
  | zero =>
    unfold solveImplFuel searchTrace
    apply solveImplBody_eq_foldl
    intro h2
    omega
  | succ fuel ih =>
    unfold solveImplFuel searchTrace
    apply solveImplBody_eq_foldl
    intro _ rv s hlen
    exact ih rv (by omega) s


/-! ### Membership in the trace -/

theorem mem_operations (op : Operator) : op ∈ operations := by
  cases op <;> simp [operations]

theorem mem_searchTraceBody (rtrace : List Value → List Value) (values : List Value)
    (v : Value) :
    v ∈ searchTraceBody rtrace values ↔
      ∃ i j vi vj op result, i < j ∧ values[i]? = some vi ∧ values[j]? = some vj ∧
        Value.combine (if vi.number < vj.number then vj else vi)
          (if vi.number < vj.number then vi else vj) op = some result ∧
        (v = result ∨
          (2 < values.length ∧ v ∈ rtrace (result :: (values.eraseIdx j).eraseIdx i))) := by
  unfold searchTraceBody
  simp only [List.mem_flatMap, List.mem_range, List.mem_range'_1]
  constructor
  · rintro ⟨i, hi, j, hj, hv⟩
    have hi' : i < values.length := by omega
    have hj' : j < values.length := by omega
    rw [List.getElem?_eq_getElem hi', List.getElem?_eq_getElem hj'] at hv
    simp only [List.mem_flatMap] at hv
    obtain ⟨op, _, hv⟩ := hv
    refine ⟨i, j, values[i], values[j], op, ?_⟩
    cases hc : Value.combine (if values[i].number < values[j].number then values[j] else values[i])
        (if values[i].number < values[j].number then values[i] else values[j]) op with
    | none => rw [hc] at hv; simp at hv
    | some result =>
      rw [hc] at hv
      refine ⟨result, by omega, List.getElem?_eq_getElem hi', List.getElem?_eq_getElem hj',
        rfl, ?_⟩
      simp only [List.mem_cons] at hv
      rcases hv with hv | hv
      · exact Or.inl hv
      · right
        by_cases h2 : values.length > 2
        · rw [if_pos h2, reduce_eq values i j (by omega) result] at hv
          exact ⟨h2, hv⟩
        · rw [if_neg h2] at hv
          simp at hv
  · rintro ⟨i, j, vi, vj, op, result, hij, hvi, hvj, hc, hv⟩
    have hj' : j < values.length := (List.getElem?_eq_some_iff.mp hvj).1
    refine ⟨i, by omega, j, by omega, ?_⟩
    rw [hvi, hvj]
    simp only [List.mem_flatMap]
    refine ⟨op, mem_operations op, ?_⟩
    rw [hc]
    simp only [List.mem_cons]
    rcases hv with hv | ⟨h2, hv⟩
    · exact Or.inl hv
    · right
      rw [if_pos h2, reduce_eq values i j hij result]
      exact hv

theorem searchTraceBody_closed (Q : Value → Prop)
    (hQ : ∀ l r op v, Q l → Q r → Value.combine l r op = some v → Q v)
    (rtrace : List Value → List Value)
    (hr : ∀ rv, (∀ x ∈ rv, Q x) → ∀ v ∈ rtrace rv, Q v)
    (values : List Value) (hvals : ∀ x ∈ values, Q x) :
    ∀ v ∈ searchTraceBody rtrace values, Q v := by
  intro v hv
  rw [mem_searchTraceBody] at hv
  obtain ⟨i, j, vi, vj, op, result, _, hvi, hvj, hc, hv⟩ := hv
  have hQi : Q vi := hvals vi (List.mem_iff_getElem?.mpr ⟨i, hvi⟩)
  have hQj : Q vj := hvals vj (List.mem_iff_getElem?.mpr ⟨j, hvj⟩)
  have hres : Q result := by
    by_cases h : vi.number < vj.number
    · simp only [if_pos h] at hc
      exact hQ _ _ _ _ hQj hQi hc
    · simp only [if_neg h] at hc
      exact hQ _ _ _ _ hQi hQj hc
  rcases hv with hv | ⟨_, hv⟩
  · rw [hv]; exact hres
  · refine hr _ ?_ v hv
    intro x hx
    rcases List.mem_cons.mp hx with hx | hx
    · rw [hx]; exact hres
    · exact hvals x (List.mem_of_mem_eraseIdx (List.mem_of_mem_eraseIdx hx))

/-- Any property of Values that holds for the inputs and is preserved by a
successful `combine` holds for every Value the search passes to
`consider`. -/
theorem searchTrace_closed (Q : Value → Prop)
    (hQ : ∀ l r op v, Q l → Q r → Value.combine l r op = some v → Q v)
    (fuel : Nat) (values : List Value) (hvals : ∀ x ∈ values, Q x) :
    ∀ v ∈ searchTrace fuel values, Q v := by
  induction fuel generalizing values with
  | zero =>
    unfold searchTrace
    exact searchTraceBody_closed Q hQ _ (fun _ _ v hv => by simp at hv) values hvals
  | succ fuel ih =>
    unfold searchTrace
    exact searchTraceBody_closed Q hQ _ (fun rv hrv => ih rv hrv) values hvals


/-! ### The ranking -/

theorem compareTo_neg_iff (a b : Value) (target : Int) :
    a.compareTo b target < 0 ↔
      (|a.number - target| < |b.number - target| ∨
        (|a.number - target| = |b.number - target| ∧
          (a.steps < b.steps ∨
            (a.steps = b.steps ∧ a.toString.length < b.toString.length)))) := by
  unfold Value.compareTo
  generalize |a.number - target| = da
  generalize |b.number - target| = db
  simp only []
  split_ifs with h1 h2 <;> omega

theorem compareTo_nonpos_iff (a b : Value) (target : Int) :
    a.compareTo b target ≤ 0 ↔
      (|a.number - target| < |b.number - target| ∨
        (|a.number - target| = |b.number - target| ∧
          (a.steps < b.steps ∨
            (a.steps = b.steps ∧ a.toString.length ≤ b.toString.length)))) := by
  unfold Value.compareTo
  generalize |a.number - target| = da
  generalize |b.number - target| = db
  simp only []
  split_ifs with h1 h2 <;> omega

theorem compareTo_nonneg_iff (a b : Value) (target : Int) :
    0 ≤ a.compareTo b target ↔ b.compareTo a target ≤ 0 := by
  rw [compareTo_nonpos_iff]
  unfold Value.compareTo
  generalize |a.number - target| = da
  generalize |b.number - target| = db
  simp only []
  split_ifs with h1 h2 <;> omega

theorem compareTo_self (a : Value) (target : Int) : a.compareTo a target = 0 := by
  unfold Value.compareTo
  simp

theorem compareTo_nonpos_trans (a b c : Value) (target : Int)
    (hab : a.compareTo b target ≤ 0) (hbc : b.compareTo c target ≤ 0) :
    a.compareTo c target ≤ 0 := by
  rw [compareTo_nonpos_iff] at hab hbc ⊢
  omega

theorem compareTo_nonpos_total (a b : Value) (target : Int) :
    a.compareTo b target ≤ 0 ∨ b.compareTo a target ≤ 0 := by
  rw [compareTo_nonpos_iff, compareTo_nonpos_iff]
  omega

/-! ### Folding `consider` -/

theorem foldl_consider_all (target : Int) (l : List Value) (s : Solns) :
    (l.foldl (fun s v => consider v target s) s).all =
      s.all ++ l.filter (fun v => v.number = target) := by
  induction l generalizing s with
  | nil => simp
  | cons v l ih =>
    rw [List.foldl_cons, ih]
    unfold consider
    by_cases hv : v.number = target <;> by_cases hc : v.compareTo s.best target < 0 <;>
      simp [hv, hc]

theorem consider_best (v : Value) (target : Int) (s : Solns) :
    (consider v target s).best =
      if v.compareTo s.best target < 0 then v else s.best := by
  unfold consider
  by_cases h : v.compareTo s.best target < 0 <;> by_cases hv : v.number = target <;>
    simp [h, hv]

theorem foldl_consider_best (target : Int) (l : List Value) (s : Solns) :
    ((l.foldl (fun s v => consider v target s) s).best = s.best ∨
        (l.foldl (fun s v => consider v target s) s).best ∈ l) ∧
      (l.foldl (fun s v => consider v target s) s).best.compareTo s.best target ≤ 0 ∧
      ∀ v ∈ l, (l.foldl (fun s v => consider v target s) s).best.compareTo v target ≤ 0 := by
  induction l generalizing s with
  | nil => simp [compareTo_self]
  | cons v l ih =>
    rw [List.foldl_cons]
    obtain ⟨h1, h2, h3⟩ := ih (consider v target s)
    have hb := consider_best v target s
    by_cases h : v.compareTo s.best target < 0
    · rw [if_pos h] at hb
      rw [hb] at h1 h2
      refine ⟨?_, ?_, ?_⟩
      · rcases h1 with h1 | h1
        · right; rw [h1]; exact List.mem_cons_self _ _
        · right; exact List.mem_cons_of_mem _ h1
      · exact compareTo_nonpos_trans _ _ _ target h2 (le_of_lt h)
      · intro w hw
        rcases List.mem_cons.mp hw with hw | hw
        · rw [hw]; exact h2
        · exact h3 w hw
    · rw [if_neg h] at hb
      rw [hb] at h1 h2
      refine ⟨?_, h2, ?_⟩
      · rcases h1 with h1 | h1
        · left; exact h1
        · right; exact List.mem_cons_of_mem _ h1
      · intro w hw
        rcases List.mem_cons.mp hw with hw | hw
        · rw [hw]
          refine compareTo_nonpos_trans _ _ _ target h2 ?_
          rw [← compareTo_nonneg_iff]
          omega
        · exact h3 w hw

/-! ### `solve` in terms of the trace -/

theorem definedValues_map_some (numbers : List Int) :
    definedValues (numbers.map some) = some numbers := by
  induction numbers with
  | nil => rfl
  | cons n ns ih => simp [definedValues, ih]

theorem solveImpl_eq_foldl (values : List Value) (target : Int) (s : Solns) :
    solveImpl values target s =
      some ((searchTrace values.length values).foldl (fun s v => consider v target s) s) :=
  solveImplFuel_eq_foldl values.length values target (by omega) s

theorem solve_cons (target : Int) (n : Int) (rest : List Int) :
    NumberPuzzle.solve ⟨target, (n :: rest).map some⟩ =
      some
        { best := some
            ((considered (n :: rest)).foldl (fun s v => consider v target s)
              ⟨Value.leaf n, []⟩).best,
          all := sortByRank target
            ((considered (n :: rest)).filter (fun v => v.number = target)) } := by
  unfold NumberPuzzle.solve
  simp only [definedValues_map_some]
  simp only [List.map_cons, solveImpl_eq_foldl, ← List.foldl_append]
  unfold considered
  simp only [List.map_cons, foldl_consider_all, List.nil_append]

theorem solve_nil (target : Int) :
    NumberPuzzle.solve ⟨target, []⟩ = some { best := none, all := [] } := rfl


theorem sortByRank_perm (target : Int) (l : List Value) : (sortByRank target l).Perm l :=
  List.perm_insertionSort _ l

theorem sortByRank_sorted (target : Int) (l : List Value) :
    (sortByRank target l).Pairwise (fun v1 v2 => v1.compareTo v2 target ≤ 0) := by
  haveI : IsTotal Value (fun v1 v2 => v1.compareTo v2 target ≤ 0) :=
    ⟨fun a b => compareTo_nonpos_total a b target⟩
  haveI : IsTrans Value (fun v1 v2 => v1.compareTo v2 target ≤ 0) :=
    ⟨fun a b c => compareTo_nonpos_trans a b c target⟩
  exact List.sorted_insertionSort (fun v1 v2 => v1.compareTo v2 target ≤ 0) l

theorem mem_sortByRank (target : Int) (l : List Value) (v : Value) :
    v ∈ sortByRank target l ↔ v ∈ l :=
  (sortByRank_perm target l).mem_iff

theorem solve_total (target : Int) (numbers : List Int) :
    ∃ r, NumberPuzzle.solve ⟨target, numbers.map some⟩ = some r ∧
      r.all = sortByRank target ((considered numbers).filter (fun v => v.number = target)) := by
  cases numbers with
  | nil => exact ⟨_, rfl, rfl⟩
  | cons n rest => exact ⟨_, solve_cons target n rest, rfl⟩

theorem combine_plus (l r : Value) :
    Value.combine l r Operator.plus =
      some (Value.derived (l.number + r.number) l r Operator.plus (l.steps + r.steps + 1)) :=
  rfl

theorem combine_times (l r : Value) :
    Value.combine l r Operator.times =
      some (Value.derived (l.number * r.number) l r Operator.times (l.steps + r.steps + 1)) :=
  rfl

theorem combine_minus (l r : Value) :
    Value.combine l r Operator.minus =
      if l.number - r.number < 1 then none
      else some (Value.derived (l.number - r.number) l r Operator.minus
        (l.steps + r.steps + 1)) := by
  unfold Value.combine
  by_cases h : l.number - r.number < 1
  · simp only [if_pos h]
  · simp only [if_neg h]

theorem combine_divide (l r : Value) :
    Value.combine l r Operator.divide =
      if r.number ≠ 0 ∧ l.number % r.number = 0 then
        some (Value.derived (l.number / r.number) l r Operator.divide
          (l.steps + r.steps + 1))
      else none := by
  unfold Value.combine
  by_cases h : r.number ≠ 0 ∧ l.number % r.number = 0
  · simp only [if_pos h]
  · simp only [if_neg h]

theorem numbersPositive_number (v : Value) (h : v.numbersPositive) : 1 ≤ v.number := by
  cases v with
  | leaf n => exact h
  | derived n l r o s => exact h.1

theorem quotient_pos (a b : Int) (ha : 1 ≤ a) (hb : 1 ≤ b) (hm : a % b = 0) : 1 ≤ a / b := by
  obtain ⟨q, hq⟩ := Int.dvd_of_emod_eq_zero hm
  rw [hq, Int.mul_ediv_cancel_left q (by omega)]
  by_contra hlt
  have hq0 : q ≤ 0 := by omega
  have : b * q ≤ 0 := Int.mul_nonpos_of_nonneg_of_nonpos (by omega) hq0
  omega

theorem combine_numbersPositive (l r : Value) (op : Operator) (v : Value)
    (hl : l.numbersPositive) (hr : r.numbersPositive)
    (hv : Value.combine l r op = some v) : v.numbersPositive := by
  have hl1 := numbersPositive_number l hl
  have hr1 := numbersPositive_number r hr
  cases op with
  | plus =>
    rw [combine_plus] at hv
    cases hv
    exact ⟨by omega, hl, hr⟩
  | times =>
    rw [combine_times] at hv
    cases hv
    exact ⟨one_le_mul_of_one_le_of_one_le hl1 hr1, hl, hr⟩
  | minus =>
    rw [combine_minus] at hv
    by_cases h : l.number - r.number < 1
    · rw [if_pos h] at hv; cases hv
    · rw [if_neg h] at hv
      cases hv
      exact ⟨by omega, hl, hr⟩
  | divide =>
    rw [combine_divide] at hv
    by_cases h : r.number ≠ 0 ∧ l.number % r.number = 0
    · rw [if_pos h] at hv
      cases hv
      exact ⟨quotient_pos _ _ hl1 hr1 h.2, hl, hr⟩
    · rw [if_neg h] at hv; cases hv

theorem considered_numbersPositive (numbers : List Int) (hpos : ∀ n ∈ numbers, 1 ≤ n) :
    ∀ v ∈ considered numbers, v.numbersPositive := by
  have hleaves : ∀ x ∈ numbers.map Value.leaf, x.numbersPositive := by
    intro x hx
    obtain ⟨n, hn, rfl⟩ := List.mem_map.mp hx
    exact hpos n hn
  intro v hv
  unfold considered at hv
  rcases List.mem_append.mp hv with hv | hv
  · exact hleaves v hv
  · exact searchTrace_closed Value.numbersPositive combine_numbersPositive _ _ hleaves v hv

theorem solve_best_mem (target n : Int) (rest : List Int) :
    ((considered (n :: rest)).foldl (fun s v => consider v target s)
        ⟨Value.leaf n, []⟩).best ∈ considered (n :: rest) := by
  have hhead : Value.leaf n ∈ considered (n :: rest) := by
    unfold considered
    simp
  rcases (foldl_consider_best target (considered (n :: rest)) ⟨Value.leaf n, []⟩).1 with h | h
  · rw [h]; exact hhead
  · exact h


/-- C2: for a puzzle with at least one value, `solve()` returns a `best`
that is one of the considered Values (input leaves and `combine` results
reached by the search) and that no considered Value ranks strictly before:
`v.compareTo(best, target) ≥ 0` for every considered `v`; in particular its
distance from the target is minimal.  For `values = [1, 1]`, `target = 3`
the result has `all` empty and `best.number = 2`. -/
theorem solve_best_minimal (target n : Int) (rest : List Int) :
    (∃ r best, NumberPuzzle.solve ⟨target, (n :: rest).map some⟩ = some r ∧
      r.best = some best ∧ best ∈ considered (n :: rest) ∧
      (∀ v ∈ considered (n :: rest), 0 ≤ v.compareTo best target) ∧
      (∀ v ∈ considered (n :: rest), |best.number - target| ≤ |v.number - target|)) ∧
    (∃ r best, NumberPuzzle.solve ⟨3, [some 1, some 1]⟩ = some r ∧ r.all = [] ∧
      r.best = some best ∧ best.number = 2) := by
  refine ⟨⟨_, _, solve_cons target n rest, rfl, solve_best_mem target n rest, ?_, ?_⟩, ?_⟩
  · intro v hv
    rw [compareTo_nonneg_iff]
    exact (foldl_consider_best target (considered (n :: rest)) ⟨Value.leaf n, []⟩).2.2 v hv
  · intro v hv
    have h := (foldl_consider_best target (considered (n :: rest)) ⟨Value.leaf n, []⟩).2.2 v hv
    rw [compareTo_nonpos_iff] at h
    omega
  · exact ⟨⟨some (Value.derived 2 (Value.leaf 1) (Value.leaf 1) Operator.plus 1), []⟩,
      Value.derived 2 (Value.leaf 1) (Value.leaf 1) Operator.plus 1,
      by decide, rfl, rfl, rfl⟩

/-- C4: the list `all` returned by `solve()` consists of exactly the
considered Values whose number equals the target, duplicates kept (it is a
permutation of the considered Values filtered by `number == target`): every
element of `all` has `number == target`, every considered Value with that
number is in `all`, and a raw input equal to the target puts the leaf Value
(`steps == 0`) into `all`, as for `values = [7, 50]`, `target = 7`. -/
theorem solve_all_exact (target : Int) (numbers : List Int) :
    (∃ r, NumberPuzzle.solve ⟨target, numbers.map some⟩ = some r ∧
      r.all.Perm ((considered numbers).filter (fun v => v.number = target)) ∧
      (∀ v ∈ r.all, v.number = target) ∧
      (∀ v ∈ considered numbers, v.number = target → v ∈ r.all) ∧
      (target ∈ numbers →
        Value.leaf target ∈ r.all ∧ (Value.leaf target).steps = 0 ∧
          (Value.leaf target).number = target)) ∧
    (∃ r, NumberPuzzle.solve ⟨7, [some 7, some 50]⟩ = some r ∧
      Value.leaf 7 ∈ r.all ∧ (Value.leaf 7).steps = 0 ∧ (Value.leaf 7).number = 7) := by
  refine ⟨?_, ⟨⟨some (Value.leaf 7), [Value.leaf 7]⟩, by decide, by decide, rfl, rfl⟩⟩
  obtain ⟨r, hr, hall⟩ := solve_total target numbers
  have hmem : ∀ v, v ∈ r.all ↔ v ∈ considered numbers ∧ v.number = target := by
    intro v
    rw [hall, mem_sortByRank, List.mem_filter]
    simp
  refine ⟨r, hr, ?_, ?_, ?_, ?_⟩
  · rw [hall]; exact sortByRank_perm target _
  · intro v hv; exact ((hmem v).mp hv).2
  · intro v hv ht; exact (hmem v).mpr ⟨hv, ht⟩
  · intro ht
    refine ⟨(hmem _).mpr ⟨?_, rfl⟩, rfl, rfl⟩
    unfold considered
    exact List.mem_append_left _ (List.mem_map.mpr ⟨target, ht, rfl⟩)

/-- C5: the list `all` returned by `solve()` is sorted ascending by the
ranking: for indices `i < j`, `all[i].compareTo(all[j], target) ≤ 0`; all
distances being zero, this means fewer steps come first and, among equal
steps, canonical strings that are not longer come first. -/
theorem solve_all_sorted (target : Int) (numbers : List Int) :
    ∃ r, NumberPuzzle.solve ⟨target, numbers.map some⟩ = some r ∧
      ∀ (i j : Nat) (hi : i < r.all.length) (hj : j < r.all.length), i < j →
        (r.all[i]).compareTo (r.all[j]) target ≤ 0 ∧
        ((r.all[i]).steps < (r.all[j]).steps ∨
          ((r.all[i]).steps = (r.all[j]).steps ∧
            (r.all[i]).toString.length ≤ (r.all[j]).toString.length)) := by
  obtain ⟨r, hr, hall⟩ := solve_total target numbers
  refine ⟨r, hr, ?_⟩
  have hsorted : r.all.Pairwise (fun v1 v2 => v1.compareTo v2 target ≤ 0) := by
    rw [hall]; exact sortByRank_sorted target _
  have hnum : ∀ v ∈ r.all, v.number = target := by
    intro v hv
    rw [hall, mem_sortByRank, List.mem_filter] at hv
    simpa using hv.2
  intro i j hi hj hij
  have hle := List.pairwise_iff_getElem.mp hsorted i j hi hj hij
  refine ⟨hle, ?_⟩
  have h1 := hnum _ (List.getElem_mem hi)
  have h2 := hnum _ (List.getElem_mem hj)
  rw [compareTo_nonpos_iff, h1, h2] at hle
  omega

/-- C6: when every value of the puzzle is an integer at least 1, every
Value created during `solve()` (each leaf and each result of `combine`, hence
`best` and every element of `all`) has a number at least 1, and so has every
`lhs` / `rhs` inside it. -/
theorem solve_numbers_positive (target : Int) (numbers : List Int)
    (hpos : ∀ n ∈ numbers, 1 ≤ n) :
    (∀ v ∈ considered numbers, v.numbersPositive ∧ 1 ≤ v.number) ∧
    (∃ r, NumberPuzzle.solve ⟨target, numbers.map some⟩ = some r ∧
      (∀ b, r.best = some b → b.numbersPositive ∧ 1 ≤ b.number) ∧
      (∀ v ∈ r.all, v.numbersPositive ∧ 1 ≤ v.number)) := by
  have hcons : ∀ v ∈ considered numbers, v.numbersPositive ∧ 1 ≤ v.number := by
    intro v hv
    have h := considered_numbersPositive numbers hpos v hv
    exact ⟨h, numbersPositive_number v h⟩
  refine ⟨hcons, ?_⟩
  cases numbers with
  | nil =>
    refine ⟨_, rfl, ?_, ?_⟩
    · intro b hb; cases hb
    · intro v hv; cases hv
  | cons n rest =>
    refine ⟨_, solve_cons target n rest, ?_, ?_⟩
    · intro b hb
      cases hb
      exact hcons _ (solve_best_mem target n rest)
    · intro v hv
      rw [mem_sortByRank, List.mem_filter] at hv
      exact hcons v hv.1

/-- Witness for C6 at `values = [3, 4]`, `target = 7`. -/
theorem solve_numbers_positive_witness :
    (∀ n ∈ ([3, 4] : List Int), 1 ≤ n) ∧
    ((∀ v ∈ considered [3, 4], v.numbersPositive ∧ 1 ≤ v.number) ∧
    (∃ r, NumberPuzzle.solve ⟨7, ([3, 4] : List Int).map some⟩ = some r ∧
      (∀ b, r.best = some b → b.numbersPositive ∧ 1 ≤ b.number) ∧
      (∀ v ∈ r.all, v.numbersPositive ∧ 1 ≤ v.number))) :=
  ⟨by decide, solve_numbers_positive 7 [3, 4] (by decide)⟩

/-- C8: for a fixed target, `compareTo` is transitive on strict precedence,
and `a.compareTo(b, target) < 0` holds exactly when `a` comes before `b` in
the lexicographic order by absolute distance from the target, then steps,
then length of the canonical string, each ascending. -/
theorem compareTo_transitive_lexicographic (target : Int) :
    (∀ a b c : Value, a.compareTo b target < 0 → b.compareTo c target < 0 →
        a.compareTo c target < 0) ∧
    (∀ a b : Value, a.compareTo b target < 0 ↔
      (|a.number - target| < |b.number - target| ∨
        (|a.number - target| = |b.number - target| ∧
          (a.steps < b.steps ∨
            (a.steps = b.steps ∧ a.toString.length < b.toString.length))))) := by
  refine ⟨?_, fun a b => compareTo_neg_iff a b target⟩
  intro a b c hab hbc
  rw [compareTo_neg_iff] at hab hbc ⊢
  omega

/-- Witness for C8: `7`, then `3 + 4`, then `(3 + 4) - 1` for target 7. -/
theorem compareTo_transitive_lexicographic_witness :
    (Value.leaf 7).compareTo
        (Value.derived 7 (Value.leaf 3) (Value.leaf 4) Operator.plus 1) 7 < 0 ∧
    (Value.derived 7 (Value.leaf 3) (Value.leaf 4) Operator.plus 1).compareTo
        (Value.derived 6 (Value.derived 7 (Value.leaf 3) (Value.leaf 4) Operator.plus 1)
          (Value.leaf 1) Operator.minus 2) 7 < 0 ∧
    (Value.leaf 7).compareTo
        (Value.derived 6 (Value.derived 7 (Value.leaf 3) (Value.leaf 4) Operator.plus 1)
          (Value.leaf 1) Operator.minus 2) 7 < 0 :=
  ⟨by decide, by decide,
   (compareTo_transitive_lexicographic 7).1 (Value.leaf 7)
     (Value.derived 7 (Value.leaf 3) (Value.leaf 4) Operator.plus 1)
     (Value.derived 6 (Value.derived 7 (Value.leaf 3) (Value.leaf 4) Operator.plus 1)
       (Value.leaf 1) Operator.minus 2) (by decide) (by decide)⟩


/-! ### Construction -/

theorem ArrayVar.read_update (v : ArrayVar) (a : List Int) (h : v.fresh.isSome) :
    (v.update a).read = a ∧ (v.update a).fresh.isSome ∧ (v.update a).caller = v.caller := by
  cases hf : v.fresh with
  | none => rw [hf] at h; cases h
  | some b => simp [ArrayVar.update, ArrayVar.read, hf]

theorem ArrayVar.read_assign (v : ArrayVar) (a : List Int) :
    (v.assign a).read = a ∧ (v.assign a).fresh.isSome ∧ (v.assign a).caller = v.caller := by
  simp [ArrayVar.assign, ArrayVar.read]

theorem range_map_reverse_succ (a : List Int) (count : Nat) :
    (List.range (count + 1)).map (fun k => a.reverse[k]?) =
      a.getLast? :: (List.range count).map (fun k => a.dropLast.reverse[k]?) := by
  rw [List.range_succ_eq_map, List.map_cons, List.map_map]
  congr 1
  · rw [← List.head?_eq_getElem?, List.head?_reverse]
  · apply List.map_congr_left
    intro k _
    simp only [Function.comp, Nat.succ_eq_add_one]
    rw [← List.tail_reverse, List.getElem?_tail]

theorem popInto_eq (count : Nat) (pool : ArrayVar) (values : List (Option Int))
    (h : pool.fresh.isSome) :
    (popInto count pool values).2 =
        values ++ (List.range count).map (fun k => pool.read.reverse[k]?) ∧
      (popInto count pool values).1.caller = pool.caller := by
  induction count generalizing pool values with
  | zero => simp [popInto]
  | succ count ih =>
    unfold popInto
    obtain ⟨hread, hfresh, hcaller⟩ := pool.read_update pool.read.dropLast h
    obtain ⟨ih1, ih2⟩ := ih (pool.update pool.read.dropLast) (values ++ [pool.read.getLast?]) hfresh
    rw [ih1, ih2, hread, hcaller, range_map_reverse_succ]
    simp

theorem swap_length (a : List Int) (i j : Nat) : (swap a i j).length = a.length := by
  unfold swap
  split <;> simp

theorem shuffle_length (rng : Nat → Nat) (a : List Int) (draws : Nat) :
    (shuffle rng a draws).1.length = a.length := by
  unfold shuffle
  generalize List.range a.length = ks
  suffices h : ∀ (st : List Int × Nat),
      (ks.foldl (fun (st : List Int × Nat) i =>
        ((swap st.1 i (random rng st.2 st.1.length).1, (random rng st.2 st.1.length).2) :
          List Int × Nat)) st).1.length = st.1.length from h (a, draws)
  induction ks with
  | nil => intro st; rfl
  | cons k ks ih =>
    intro st
    rw [List.foldl_cons, ih]
    exact swap_length _ _ _

theorem count_set_add (z : Int) (l : List Int) (i : Nat) (b x : Int) (h : l[i]? = some x) :
    (l.set i b).count z + (if x = z then 1 else 0) = l.count z + (if b = z then 1 else 0) := by
  induction l generalizing i with
  | nil => simp at h
  | cons c cs ih =>
    cases i with
    | zero =>
      simp only [List.getElem?_cons_zero, Option.some.injEq] at h
      subst h
      simp only [List.set_cons_zero, List.count_cons, beq_iff_eq]
      omega
    | succ i =>
      simp only [List.getElem?_cons_succ] at h
      have := ih i h
      simp only [List.set_cons_succ, List.count_cons, beq_iff_eq]
      omega

theorem swap_perm (a : List Int) (i j : Nat) : (swap a i j).Perm a := by
  unfold swap
  split
  · rename_i x y hx hy
    rw [List.perm_iff_count]
    intro z
    have hi : i < a.length := (List.getElem?_eq_some_iff.mp hx).1
    have hj : j < a.length := (List.getElem?_eq_some_iff.mp hy).1
    have hy2 : (a.set i y)[j]? = some y := by
      rw [List.getElem?_set]
      by_cases hij : i = j
      · rw [if_pos hij, if_pos hi]
      · rw [if_neg hij, hy]
    have h1 := count_set_add z (a.set i y) j x y hy2
    have h2 := count_set_add z a i y x hx
    omega
  · exact List.Perm.refl a

theorem shuffle_perm (rng : Nat → Nat) (a : List Int) (draws : Nat) :
    (shuffle rng a draws).1.Perm a := by
  unfold shuffle
  generalize List.range a.length = ks
  suffices h : ∀ (st : List Int × Nat),
      (ks.foldl (fun (st : List Int × Nat) i =>
        ((swap st.1 i (random rng st.2 st.1.length).1, (random rng st.2 st.1.length).2) :
          List Int × Nat)) st).1.Perm st.1 from h (a, draws)
  induction ks with
  | nil => intro st; exact List.Perm.refl _
  | cons k ks ih =>
    intro st
    rw [List.foldl_cons]
    exact (ih _).trans (swap_perm _ _ _)

theorem range_map_getElem? (l : List Int) (k : Nat) (hk : k ≤ l.length) :
    (List.range k).map (fun i => l[i]?) = (l.take k).map some := by
  induction k with
  | zero => simp
  | succ k ih =>
    rw [List.range_succ, List.map_append, ih (by omega), List.take_succ, List.map_append]
    have hlt : k < l.length := by omega
    simp [List.getElem?_eq_getElem hlt]

theorem all_defined_range_map (l : List Int) (k : Nat) :
    (∀ x ∈ (List.range k).map (fun i => l[i]?), x ≠ none) ↔ k ≤ l.length := by
  constructor
  · intro h
    by_contra hlt
    have hmem : l[l.length]? ∈ (List.range k).map (fun i => l[i]?) :=
      List.mem_map.mpr ⟨l.length, List.mem_range.mpr (by omega), rfl⟩
    exact h _ hmem (by simp)
  · intro hk x hx
    obtain ⟨i, hi, rfl⟩ := List.mem_map.mp hx
    rw [List.mem_range] at hi
    rw [List.getElem?_eq_getElem (by omega)]
    simp


theorem prepared_pool (arg : Option (List Int)) (std : List Int) :
    (((if arg = none then ({ caller := arg, fresh := none } : ArrayVar).assign std
        else { caller := arg, fresh := none }).assign
      (if arg = none then ({ caller := arg, fresh := none } : ArrayVar).assign std
        else { caller := arg, fresh := none }).read).read = arg.getD std) ∧
    (((if arg = none then ({ caller := arg, fresh := none } : ArrayVar).assign std
        else { caller := arg, fresh := none }).assign
      (if arg = none then ({ caller := arg, fresh := none } : ArrayVar).assign std
        else { caller := arg, fresh := none }).read).fresh.isSome) ∧
    (((if arg = none then ({ caller := arg, fresh := none } : ArrayVar).assign std
        else { caller := arg, fresh := none }).assign
      (if arg = none then ({ caller := arg, fresh := none } : ArrayVar).assign std
        else { caller := arg, fresh := none }).read).caller = arg) := by
  cases arg with
  | none => simp [ArrayVar.assign, ArrayVar.read]
  | some a => simp [ArrayVar.assign, ArrayVar.read]

theorem construct_values (rng : Nat → Nat) (target : Option Int) (nb ns : Option Nat)
    (big little : Option (List Int)) :
    ∃ B L : List Int,
      B.length = (big.getD standardBigOnes).length ∧
      L.length = (little.getD standardLittleOnes).length ∧
      (nb.getD 2 = ns.getD 6 → B = (big.getD standardBigOnes).reverse) ∧
      (NumberPuzzle.construct rng target nb ns big little).puzzle.values =
        (List.range (nb.getD 2)).map (fun k => B.reverse[k]?) ++
          (List.range (ns.getD 6 - nb.getD 2)).map (fun k => L.reverse[k]?) ∧
      (NumberPuzzle.construct rng target nb ns big little).bigOnesArg = big ∧
      (NumberPuzzle.construct rng target nb ns big little).littleOnesArg = little ∧
      B.Perm (big.getD standardBigOnes) ∧ L.Perm (little.getD standardLittleOnes) := by
  have hnb : (match nb with | some n => n | none => 2) = nb.getD 2 := by cases nb <;> rfl
  have hns : (match ns with | some n => n | none => 6) = ns.getD 6 := by cases ns <;> rfl
  obtain ⟨hbr, hbf, hbc⟩ := prepared_pool big standardBigOnes
  obtain ⟨hlr, hlf, hlc⟩ := prepared_pool little standardLittleOnes
  unfold NumberPuzzle.construct
  simp only [hnb, hns]
  generalize ((if big = none then ({ caller := big, fresh := none } : ArrayVar).assign
      standardBigOnes else { caller := big, fresh := none }).assign
      (if big = none then ({ caller := big, fresh := none } : ArrayVar).assign
      standardBigOnes else { caller := big, fresh := none }).read) = bv at hbr hbf hbc ⊢
  generalize ((if little = none then ({ caller := little, fresh := none } : ArrayVar).assign
      standardLittleOnes else { caller := little, fresh := none }).assign
      (if little = none then ({ caller := little, fresh := none } : ArrayVar).assign
      standardLittleOnes else { caller := little, fresh := none }).read) = lv at hlr hlf hlc ⊢
  generalize (match target with
    | some t => (t, 0)
    | none => (100 + ((random rng 0 900).1 : Int), (random rng 0 900).2)) = td
  by_cases heq : nb.getD 2 = ns.getD 6
  · have hne : ¬ (nb.getD 2 ≠ ns.getD 6) := by simpa using heq
    simp only [if_neg hne]
    obtain ⟨hr1, hf1, hc1⟩ := bv.read_update bv.read.reverse hbf
    obtain ⟨hp1, hp2⟩ := popInto_eq (nb.getD 2) (bv.update bv.read.reverse) [] hf1
    obtain ⟨hq1, hq2⟩ := popInto_eq (ns.getD 6 - nb.getD 2) lv
      (popInto (nb.getD 2) (bv.update bv.read.reverse) []).2 hlf
    refine ⟨bv.read.reverse, lv.read, by simp [hbr], by simp [hlr], fun _ => by rw [hbr], ?_,
      ?_, ?_, ?_, ?_⟩
    · rw [hq1, hp1, hr1]; simp
    · rw [hp2, hc1, hbc]
    · rw [hq2, hlc]
    · rw [hbr]; exact List.reverse_perm _
    · rw [hlr]
  · have hne : (nb.getD 2 ≠ ns.getD 6) := heq
    simp only [if_pos hne]
    obtain ⟨hr1, hf1, hc1⟩ := bv.read_update (shuffle rng bv.read td.2).1 hbf
    obtain ⟨hr2, hf2, hc2⟩ := lv.read_update
      (shuffle rng lv.read (shuffle rng bv.read td.2).2).1 hlf
    obtain ⟨hp1, hp2⟩ := popInto_eq (nb.getD 2) (bv.update (shuffle rng bv.read td.2).1) [] hf1
    obtain ⟨hq1, hq2⟩ := popInto_eq (ns.getD 6 - nb.getD 2)
      (lv.update (shuffle rng lv.read (shuffle rng bv.read td.2).2).1)
      (popInto (nb.getD 2) (bv.update (shuffle rng bv.read td.2).1) []).2 hf2
    refine ⟨(shuffle rng bv.read td.2).1,
      (shuffle rng lv.read (shuffle rng bv.read td.2).2).1, ?_, ?_, fun h => absurd h heq, ?_,
      ?_, ?_, ?_, ?_⟩
    · rw [shuffle_length, hbr]
    · rw [shuffle_length, hlr]
    · rw [hq1, hp1, hr1, hr2]; simp
    · rw [hp2, hc1, hbc]
    · rw [hq2, hc2, hlc]
    · rw [← hbr]; exact shuffle_perm _ _ _
    · rw [← hlr]; exact shuffle_perm _ _ _


/-- C9, as stated, fails: with five big numbers requested from a pool of
four the constructor returns normally, and the fifth entry of `values` is
`undefined`. -/
theorem construct_pool_exhausted_returns :
    ([100, 75, 50, 25] : List Int).length < 5 ∧
    (NumberPuzzle.construct (fun _ => 0) (some 500) (some 5) (some 5)
        (some [100, 75, 50, 25]) (some [1, 2])).puzzle.values =
      [some 100, some 75, some 50, some 25, none] ∧
    none ∈ (NumberPuzzle.construct (fun _ => 0) (some 500) (some 5) (some 5)
        (some [100, 75, 50, 25]) (some [1, 2])).puzzle.values := by
  decide

/-- C9 (amended): the constructor never raises an error; `values` always
has length `numBigOnes + (numSelections − numBigOnes)` (the difference
taken as 0 when negative), and it is free of missing entries exactly when
`numBigOnes` is at most the size of the big pool and
`numSelections − numBigOnes` at most the size of the little pool. -/
theorem construct_values_defined_iff (rng : Nat → Nat) (target : Option Int)
    (numBigOnes numSelections : Option Nat) (bigOnes littleOnes : Option (List Int)) :
    (NumberPuzzle.construct rng target numBigOnes numSelections bigOnes
        littleOnes).puzzle.values.length =
      numBigOnes.getD 2 + (numSelections.getD 6 - numBigOnes.getD 2) ∧
    ((∀ x ∈ (NumberPuzzle.construct rng target numBigOnes numSelections bigOnes
        littleOnes).puzzle.values, x ≠ none) ↔
      (numBigOnes.getD 2 ≤ (bigOnes.getD standardBigOnes).length ∧
        numSelections.getD 6 - numBigOnes.getD 2 ≤
          (littleOnes.getD standardLittleOnes).length)) := by
  obtain ⟨B, L, hB, hL, -, hvals, -, -⟩ :=
    construct_values rng target numBigOnes numSelections bigOnes littleOnes
  rw [hvals]
  refine ⟨by simp, ?_⟩
  have h1 := all_defined_range_map B.reverse (numBigOnes.getD 2)
  have h2 := all_defined_range_map L.reverse (numSelections.getD 6 - numBigOnes.getD 2)
  rw [List.length_reverse, hB] at h1
  rw [List.length_reverse, hL] at h2
  rw [← h1, ← h2]
  constructor
  · intro h
    exact ⟨fun x hx => h x (List.mem_append_left _ hx),
      fun x hx => h x (List.mem_append_right _ hx)⟩
  · rintro ⟨ha, hb⟩ x hx
    rcases List.mem_append.mp hx with hx | hx
    · exact ha x hx
    · exact hb x hx

/-- C10: when `numBigOnes = numSelections = k ≤ bigOnes.length`, the
constructed puzzle's values are the first `k` elements of `bigOnes` in their
given order, whatever the random source, and the caller's `bigOnes` array is
left unchanged; for `k = bigOnes.length` the values are `bigOnes` itself. -/
theorem construct_exact_list (rng : Nat → Nat) (target : Option Int) (k : Nat)
    (bigOnes : List Int) (littleOnes : Option (List Int)) (hk : k ≤ bigOnes.length) :
    (NumberPuzzle.construct rng target (some k) (some k) (some bigOnes)
        littleOnes).puzzle.values = (bigOnes.take k).map some ∧
    (NumberPuzzle.construct rng target (some k) (some k) (some bigOnes)
        littleOnes).bigOnesArg = some bigOnes ∧
    (∀ rng2 : Nat → Nat,
      (NumberPuzzle.construct rng2 target (some k) (some k) (some bigOnes)
          littleOnes).puzzle.values =
        (NumberPuzzle.construct rng target (some k) (some k) (some bigOnes)
          littleOnes).puzzle.values) ∧
    (k = bigOnes.length →
      (NumberPuzzle.construct rng target (some k) (some k) (some bigOnes)
          littleOnes).puzzle.values = bigOnes.map some) := by
  have hval : ∀ r : Nat → Nat,
      (NumberPuzzle.construct r target (some k) (some k) (some bigOnes)
        littleOnes).puzzle.values = (bigOnes.take k).map some := by
    intro r
    obtain ⟨B, L, -, -, hrev, hvals, -, -⟩ :=
      construct_values r target (some k) (some k) (some bigOnes) littleOnes
    have hB : B = bigOnes.reverse := hrev rfl
    rw [hvals, hB]
    simp only [Option.getD_some, Nat.sub_self, List.range_zero, List.map_nil,
      List.append_nil, List.reverse_reverse]
    exact range_map_getElem? bigOnes k hk
  refine ⟨hval rng, ?_, fun r => by rw [hval r, hval rng], ?_⟩
  · obtain ⟨_, _, -, -, -, -, harg, -⟩ :=
      construct_values rng target (some k) (some k) (some bigOnes) littleOnes
    exact harg
  · intro hlen
    rw [hval rng, hlen, List.take_length]

/-- Witness for C10: `NumberPuzzle(500, 4, 4, [100, 75, 50, 25])` has values
`[100, 75, 50, 25]`. -/
theorem construct_exact_list_witness :
    4 ≤ ([100, 75, 50, 25] : List Int).length ∧
    (NumberPuzzle.construct (fun n => n) (some 500) (some 4) (some 4)
        (some [100, 75, 50, 25]) none).puzzle.values =
      [some 100, some 75, some 50, some 25] :=
  ⟨by decide,
   (construct_exact_list (fun n => n) (some 500) 4 [100, 75, 50, 25] none (by decide)).1⟩


/-! ### Completeness of the search -/

theorem combine_of_applyOperator (l r : Value) (op : Operator) (n : Int)
    (h : applyOperator op l.number r.number = some n) :
    ∃ v, Value.combine l r op = some v ∧ v.number = n := by
  cases op with
  | plus =>
    simp only [applyOperator, Option.some.injEq] at h
    exact ⟨_, combine_plus l r, h⟩
  | times =>
    simp only [applyOperator, Option.some.injEq] at h
    exact ⟨_, combine_times l r, h⟩
  | minus =>
    simp only [applyOperator] at h
    rw [combine_minus]
    by_cases hc : l.number - r.number < 1
    · rw [if_pos hc] at h; cases h
    · rw [if_neg hc] at h ⊢
      exact ⟨_, rfl, Option.some.inj h⟩
  | divide =>
    simp only [applyOperator] at h
    rw [combine_divide]
    by_cases hc : r.number ≠ 0 ∧ l.number % r.number = 0
    · rw [if_pos hc] at h ⊢
      exact ⟨_, rfl, Option.some.inj h⟩
    · rw [if_neg hc] at h; cases h

theorem perm_cons_eraseIdx {α : Type} (l : List α) (i : Nat) (v : α) (h : l[i]? = some v) :
    (v :: l.eraseIdx i).Perm l := by
  induction l generalizing i with
  | nil => simp at h
  | cons x xs ih =>
    cases i with
    | zero =>
      simp only [List.getElem?_cons_zero, Option.some.injEq] at h
      rw [h]
      simp
    | succ i =>
      simp only [List.getElem?_cons_succ] at h
      simp only [List.eraseIdx_cons_succ]
      exact (List.Perm.swap x v _).trans ((ih i h).cons x)

theorem numbers_eraseIdx (l : List Value) (i : Nat) (v : Value) (h : l[i]? = some v) :
    (((l.eraseIdx i).map Value.number : List Int) : Multiset Int) =
      ((l.map Value.number : List Int) : Multiset Int).erase v.number := by
  have hp := (perm_cons_eraseIdx l i v h).map Value.number
  rw [List.map_cons] at hp
  have hm : ((l.map Value.number : List Int) : Multiset Int) =
      v.number ::ₘ (((l.eraseIdx i).map Value.number : List Int) : Multiset Int) := by
    rw [Multiset.cons_coe]
    exact (Multiset.coe_eq_coe.mpr hp).symm
  rw [hm, Multiset.erase_cons_head]

theorem exists_positions (l : List Value) (a b : Int) (rest : Multiset Int)
    (h : ((l.map Value.number : List Int) : Multiset Int) = a ::ₘ b ::ₘ rest) :
    ∃ (i j : Nat) (vi vj : Value), i ≠ j ∧ l[i]? = some vi ∧ l[j]? = some vj ∧
      vi.number = a ∧ vj.number = b := by
  have ha : a ∈ ((l.map Value.number : List Int) : Multiset Int) := by
    rw [h]; exact Multiset.mem_cons_self a _
  rw [Multiset.mem_coe, List.mem_map] at ha
  obtain ⟨vi, hvi, hnum⟩ := ha
  obtain ⟨i, hi⟩ := List.mem_iff_getElem?.mp hvi
  have herase := numbers_eraseIdx l i vi hi
  rw [h, hnum, Multiset.erase_cons_head] at herase
  have hb : b ∈ (((l.eraseIdx i).map Value.number : List Int) : Multiset Int) := by
    rw [herase]; exact Multiset.mem_cons_self b _
  rw [Multiset.mem_coe, List.mem_map] at hb
  obtain ⟨vj, hvj, hnumj⟩ := hb
  obtain ⟨j, hji, hj⟩ := List.mem_eraseIdx_iff_getElem?.mp hvj
  exact ⟨i, j, vi, vj, fun hij => hji hij.symm, hi, hj, hnum, hnumj⟩

theorem numbers_erase_two (l : List Value) (i j : Nat) (vi vj : Value) (hij : i < j)
    (hi : l[i]? = some vi) (hj : l[j]? = some vj) :
    ((((l.eraseIdx j).eraseIdx i).map Value.number : List Int) : Multiset Int) =
      (((l.map Value.number : List Int) : Multiset Int).erase vj.number).erase vi.number := by
  have hi2 : (l.eraseIdx j)[i]? = some vi := by
    rw [List.getElem?_eraseIdx_of_lt l j i hij]; exact hi
  rw [numbers_eraseIdx (l.eraseIdx j) i vi hi2, numbers_eraseIdx l j vj hj]


theorem ordered_pair_numbers (x y : Value) :
    (if x.number < y.number then y else x).number = max x.number y.number ∧
      (if x.number < y.number then x else y).number = min x.number y.number := by
  by_cases h : x.number < y.number
  · rw [if_pos h, if_pos h, max_eq_right (le_of_lt h), min_eq_left (le_of_lt h)]
    exact ⟨rfl, rfl⟩
  · rw [if_neg h, if_neg h, max_eq_left (not_lt.mp h), min_eq_right (not_lt.mp h)]
    exact ⟨rfl, rfl⟩

theorem poolStep_simulated (values : List Value) (n : Int) (M2 : Multiset Int)
    (h : PoolStep ((values.map Value.number : List Int) : Multiset Int) n M2) :
    ∃ (i j : Nat) (vi vj : Value) (op : Operator) (result : Value),
      i < j ∧ values[i]? = some vi ∧ values[j]? = some vj ∧
      Value.combine (if vi.number < vj.number then vj else vi)
        (if vi.number < vj.number then vi else vj) op = some result ∧
      result.number = n ∧
      (((result :: (values.eraseIdx j).eraseIdx i).map Value.number : List Int) :
        Multiset Int) = M2 := by
  generalize hM : ((values.map Value.number : List Int) : Multiset Int) = M at h
  cases h with
  | mk a b rest op n happ =>
    obtain ⟨i, j, vi, vj, hij, hi, hj, hnumi, hnumj⟩ := exists_positions values a b rest hM
    rcases Nat.lt_or_gt_of_ne hij with hlt | hgt
    · obtain ⟨hmax, hmin⟩ := ordered_pair_numbers vi vj
      have happ2 : applyOperator op (if vi.number < vj.number then vj else vi).number
          (if vi.number < vj.number then vi else vj).number = some n := by
        rw [hmax, hmin, hnumi, hnumj]; exact happ
      obtain ⟨result, hres, hresn⟩ := combine_of_applyOperator _ _ op n happ2
      refine ⟨i, j, vi, vj, op, result, hlt, hi, hj, hres, hresn, ?_⟩
      rw [List.map_cons, ← Multiset.cons_coe, numbers_erase_two values i j vi vj hlt hi hj,
        hM, hnumi, hnumj, hresn, Multiset.cons_swap, Multiset.erase_cons_head,
        Multiset.erase_cons_head]
    · obtain ⟨hmax, hmin⟩ := ordered_pair_numbers vj vi
      have happ2 : applyOperator op (if vj.number < vi.number then vi else vj).number
          (if vj.number < vi.number then vj else vi).number = some n := by
        rw [hmax, hmin, hnumi, hnumj, max_comm, min_comm]; exact happ
      obtain ⟨result, hres, hresn⟩ := combine_of_applyOperator _ _ op n happ2
      refine ⟨j, i, vj, vi, op, result, hgt, hj, hi, hres, hresn, ?_⟩
      rw [List.map_cons, ← Multiset.cons_coe, numbers_erase_two values j i vj vi hgt hj hi,
        hM, hnumi, hnumj, hresn, Multiset.erase_cons_head, Multiset.erase_cons_head]

theorem poolStep_card (M : Multiset Int) (n : Int) (M2 : Multiset Int)
    (h : PoolStep M n M2) : 2 ≤ Multiset.card M := by
  cases h with
  | mk a b rest op n happ => simp

theorem derivesTo_card (M : Multiset Int) (n : Int) (M2 : Multiset Int)
    (h : DerivesTo M n M2) : 2 ≤ Multiset.card M := by
  cases h with
  | last hs => exact poolStep_card _ _ _ hs
  | next hs _ => exact poolStep_card _ _ _ hs

theorem mem_searchTrace_iff (fuel : Nat) (values : List Value) (v : Value) :
    v ∈ searchTrace fuel values ↔
      ∃ i j vi vj op result, i < j ∧ values[i]? = some vi ∧ values[j]? = some vj ∧
        Value.combine (if vi.number < vj.number then vj else vi)
          (if vi.number < vj.number then vi else vj) op = some result ∧
        (v = result ∨
          (2 < values.length ∧ 0 < fuel ∧
            v ∈ searchTrace (fuel - 1) (result :: (values.eraseIdx j).eraseIdx i))) := by
  cases fuel with
  | zero =>
    unfold searchTrace
    rw [mem_searchTraceBody]
    simp
  | succ fuel =>
    rw [searchTrace, mem_searchTraceBody]
    simp

theorem searchTrace_of_derivesTo (M : Multiset Int) (n : Int) (M2 : Multiset Int)
    (h : DerivesTo M n M2) :
    ∀ (fuel : Nat) (values : List Value), values.length ≤ fuel + 2 →
      ((values.map Value.number : List Int) : Multiset Int) = M →
      ∃ v ∈ searchTrace fuel values, v.number = n := by
  induction h with
  | last hs =>
    intro fuel values _ hM
    rw [← hM] at hs
    obtain ⟨i, j, vi, vj, op, result, hij, hi, hj, hres, hresn, -⟩ :=
      poolStep_simulated values _ _ hs
    exact ⟨result, (mem_searchTrace_iff fuel values result).mpr
      ⟨i, j, vi, vj, op, result, hij, hi, hj, hres, Or.inl rfl⟩, hresn⟩
  | next hs hd ih =>
    intro fuel values hlen hM
    rw [← hM] at hs
    obtain ⟨i, j, vi, vj, op, result, hij, hi, hj, hres, hresn, hM1⟩ :=
      poolStep_simulated values _ _ hs
    have hcard := derivesTo_card _ _ _ hd
    rw [← hM1, Multiset.coe_card, List.length_map, List.length_cons] at hcard
    have hj' : j < values.length := (List.getElem?_eq_some_iff.mp hj).1
    have hlen2 : ((values.eraseIdx j).eraseIdx i).length + 2 = values.length := by
      rw [List.length_eraseIdx_of_lt, List.length_eraseIdx_of_lt hj']
      · omega
      · rw [List.length_eraseIdx_of_lt hj']; omega
    obtain ⟨v, hv, hvn⟩ := ih (fuel - 1) (result :: (values.eraseIdx j).eraseIdx i)
      (by rw [List.length_cons]; omega) hM1
    exact ⟨v, (mem_searchTrace_iff fuel values v).mpr
      ⟨i, j, vi, vj, op, result, hij, hi, hj, hres,
        Or.inr ⟨by omega, by omega, hv⟩⟩, hvn⟩


theorem derivesTo_of_reach (M M1 : Multiset Int) (n : Int) (M2 : Multiset Int)
    (hreach : M1 = M ∨ ∃ m, DerivesTo M m M1) (h : DerivesTo M1 n M2) :
    DerivesTo M n M2 := by
  rcases hreach with rfl | ⟨m, hd⟩
  · exact h
  · induction hd with
    | last hs => exact DerivesTo.next hs h
    | next hs _ ih => exact DerivesTo.next hs (ih h)

theorem leafNumbers_node (numbers : List Int) (op : Operator) (l r : Tree) :
    (Tree.node op l r).leafNumbers numbers =
      l.leafNumbers numbers + r.leafNumbers numbers := by
  unfold Tree.leafNumbers
  rw [Tree.leaves, List.map_append, Multiset.coe_add]

theorem tree_derives (numbers : List Int) (t : Tree) :
    ∀ (n : Int) (M : Multiset Int), t.eval numbers = some n → t.leafNumbers numbers ≤ M →
      (n ::ₘ (M - t.leafNumbers numbers) = M ∨
        ∃ m, DerivesTo M m (n ::ₘ (M - t.leafNumbers numbers))) ∧
      (∀ op l r, t = Tree.node op l r →
        DerivesTo M n (n ::ₘ (M - t.leafNumbers numbers))) := by
  induction t with
  | leaf p =>
    intro n M heval hle
    refine ⟨Or.inl ?_, fun op l r h => by cases h⟩
    have hL : (Tree.leaf p).leafNumbers numbers = {n} := by
      unfold Tree.leafNumbers
      simp only [Tree.leaves, List.map_cons, List.map_nil]
      simp only [Tree.eval] at heval
      rw [List.getD_eq_getElem?_getD, heval]
      rfl
    rw [hL] at hle ⊢
    rw [Multiset.sub_singleton]
    exact Multiset.cons_erase (Multiset.singleton_le.mp hle)
  | node op l r ihl ihr =>
    intro n M heval hle
    rw [leafNumbers_node] at hle ⊢
    simp only [Tree.eval] at heval
    cases hl : Tree.eval numbers l with
    | none => rw [hl] at heval; cases heval
    | some a =>
      cases hr : Tree.eval numbers r with
      | none => rw [hl, hr] at heval; cases heval
      | some b =>
        rw [hl, hr] at heval
        simp only [] at heval
        have hLl : l.leafNumbers numbers ≤ M := le_trans (Multiset.le_add_right _ _) hle
        have hLr : r.leafNumbers numbers ≤ M - l.leafNumbers numbers :=
          le_tsub_of_add_le_left hle
        have hLr1 : r.leafNumbers numbers ≤ a ::ₘ (M - l.leafNumbers numbers) :=
          le_trans hLr (Multiset.le_cons_self _ _)
        have h1 := (ihl a M hl hLl).1
        have h2 := (ihr b (a ::ₘ (M - l.leafNumbers numbers)) hr hLr1).1
        rw [Multiset.cons_sub_of_le a hLr, tsub_tsub, Multiset.cons_swap] at h2
        have hstep : PoolStep
            (a ::ₘ b ::ₘ (M - (l.leafNumbers numbers + r.leafNumbers numbers))) n
            (n ::ₘ (M - (l.leafNumbers numbers + r.leafNumbers numbers))) :=
          PoolStep.mk a b _ op n heval
        have hd : DerivesTo M n
            (n ::ₘ (M - (l.leafNumbers numbers + r.leafNumbers numbers))) :=
          derivesTo_of_reach M _ n _ h1
            (derivesTo_of_reach _ _ n _ h2 (DerivesTo.last hstep))
        exact ⟨Or.inr ⟨n, hd⟩, fun _ _ _ _ => hd⟩

theorem eval_leaves_valid (numbers : List Int) (t : Tree) :
    ∀ n, t.eval numbers = some n → ∀ p ∈ t.leaves, p < numbers.length := by
  induction t with
  | leaf q =>
    intro n heval p hp
    simp only [Tree.leaves, List.mem_singleton] at hp
    simp only [Tree.eval] at heval
    rw [hp]
    exact (List.getElem?_eq_some_iff.mp heval).1
  | node op l r ihl ihr =>
    intro n heval p hp
    simp only [Tree.eval] at heval
    cases hl : Tree.eval numbers l with
    | none => rw [hl] at heval; cases heval
    | some a =>
      cases hr : Tree.eval numbers r with
      | none => rw [hl, hr] at heval; cases heval
      | some b =>
        simp only [Tree.leaves, List.mem_append] at hp
        rcases hp with hp | hp
        · exact ihl a hl p hp
        · exact ihr b hr p hp

theorem positions_le (l : List Int) :
    ∀ ps : List Nat, ps.Nodup → (∀ p ∈ ps, p < l.length) →
      ((ps.map (fun p => l.getD p 0) : List Int) : Multiset Int) ≤ (l : Multiset Int) := by
  induction l using List.reverseRecOn with
  | nil =>
    intro ps _ hvalid
    cases ps with
    | nil => simp
    | cons p ps => exact absurd (hvalid p (List.mem_cons_self _ _)) (by simp)
  | append_singleton l x ih =>
    intro ps hnodup hvalid
    have hget : ∀ qs : List Nat, (∀ q ∈ qs, q < l.length) →
        qs.map (fun p => (l ++ [x]).getD p 0) = qs.map (fun p => l.getD p 0) := by
      intro qs hqs
      apply List.map_congr_left
      intro q hq
      rw [List.getD_eq_getElem?_getD, List.getD_eq_getElem?_getD,
        List.getElem?_append_left (hqs q hq)]
    by_cases hmem : l.length ∈ ps
    · have hperm : ps.Perm (l.length :: ps.erase l.length) := List.perm_cons_erase hmem
      have hnodup2 : (ps.erase l.length).Nodup := hnodup.erase _
      have hvalid2 : ∀ q ∈ ps.erase l.length, q < l.length := by
        intro q hq
        have hq1 : q ∈ ps := List.mem_of_mem_erase hq
        have hq2 : q ≠ l.length := fun h => by
          rw [h] at hq
          exact (List.Nodup.not_mem_erase hnodup) hq
        have := hvalid q hq1
        rw [List.length_append, List.length_singleton] at this
        omega
      have hmap := hperm.map (fun p => (l ++ [x]).getD p 0)
      rw [Multiset.coe_eq_coe.mpr hmap, List.map_cons, hget _ hvalid2]
      have hx : (l ++ [x]).getD l.length 0 = x := by
        rw [List.getD_eq_getElem?_getD]; simp
      rw [hx, ← Multiset.cons_coe]
      have hlx : ((l ++ [x] : List Int) : Multiset Int) = x ::ₘ (l : Multiset Int) := by
        rw [Multiset.cons_coe]
        exact Multiset.coe_eq_coe.mpr (List.perm_append_singleton x l)
      rw [hlx]
      exact Multiset.cons_le_cons x (ih _ hnodup2 hvalid2)
    · have hvalid2 : ∀ q ∈ ps, q < l.length := by
        intro q hq
        have hq2 : q ≠ l.length := fun h => hmem (h ▸ hq)
        have := hvalid q hq
        rw [List.length_append, List.length_singleton] at this
        omega
      rw [hget _ hvalid2]
      refine le_trans (ih ps hnodup hvalid2) ?_
      exact Multiset.coe_le.mpr (List.sublist_append_left l [x]).subperm


theorem considered_of_tree (numbers : List Int) (t : Tree) (n : Int)
    (hnodup : t.leaves.Nodup) (heval : t.eval numbers = some n) :
    ∃ v ∈ considered numbers, v.number = n := by
  cases t with
  | leaf p =>
    simp only [Tree.eval] at heval
    refine ⟨Value.leaf n, ?_, rfl⟩
    unfold considered
    exact List.mem_append_left _
      (List.mem_map.mpr ⟨n, List.mem_iff_getElem?.mpr ⟨p, heval⟩, rfl⟩)
  | node op l r =>
    have hle : (Tree.node op l r).leafNumbers numbers ≤ (numbers : Multiset Int) :=
      positions_le numbers _ hnodup (eval_leaves_valid numbers _ n heval)
    have hd := (tree_derives numbers (Tree.node op l r) n (numbers : Multiset Int)
      heval hle).2 op l r rfl
    have hnum : (((numbers.map Value.leaf).map Value.number : List Int) : Multiset Int) =
        (numbers : Multiset Int) := by
      rw [List.map_map]
      have : (Value.number ∘ Value.leaf) = id := by funext x; rfl
      rw [this, List.map_id]
    obtain ⟨v, hv, hvn⟩ := searchTrace_of_derivesTo _ _ _ hd
      (numbers.map Value.leaf).length (numbers.map Value.leaf) (by omega) hnum
    exact ⟨v, List.mem_append_right _ hv, hvn⟩

/-- C3: the search is complete.  For every expression tree whose leaves are
distinct positions of the puzzle's values and whose inner nodes apply `+`,
`-`, `×` or `/` to their two sub-results taken larger-first (every
difference at least 1, every quotient exact), `solve()` considers a Value
whose number is the value of the tree; hence when the tree evaluates to the
target, `all` is non-empty and `best.number == target`.  (No positivity of
the values is needed.) -/
theorem search_complete (target : Int) (numbers : List Int) (t : Tree) (n : Int)
    (hnodup : t.leaves.Nodup) (heval : t.eval numbers = some n) :
    (∃ v ∈ considered numbers, v.number = n) ∧
    (n = target →
      ∃ r best, NumberPuzzle.solve ⟨target, numbers.map some⟩ = some r ∧
        r.all ≠ [] ∧ r.best = some best ∧ best.number = target) := by
  obtain ⟨v, hv, hvn⟩ := considered_of_tree numbers t n hnodup heval
  refine ⟨⟨v, hv, hvn⟩, ?_⟩
  intro hnt
  cases numbers with
  | nil =>
    unfold considered searchTrace searchTraceBody at hv
    simp at hv
  | cons n0 rest =>
    refine ⟨_, _, solve_cons target n0 rest, ?_, rfl, ?_⟩
    · intro hnil
      have hmem : v ∈ sortByRank target
          ((considered (n0 :: rest)).filter (fun v => v.number = target)) := by
        rw [mem_sortByRank, List.mem_filter]
        exact ⟨hv, by simp [hvn, hnt]⟩
      simp only [] at hnil
      rw [hnil] at hmem
      cases hmem
    · have h := (foldl_consider_best target (considered (n0 :: rest))
        ⟨Value.leaf n0, []⟩).2.2 v hv
      rw [compareTo_nonpos_iff, hvn, hnt] at h
      simp only [sub_self, abs_zero] at h
      have habs := abs_nonneg
        (((considered (n0 :: rest)).foldl (fun s v => consider v target s)
          ⟨Value.leaf n0, []⟩).best.number - target)
      have h0 : |((considered (n0 :: rest)).foldl (fun s v => consider v target s)
          ⟨Value.leaf n0, []⟩).best.number - target| = 0 := by omega
      have := abs_eq_zero.mp h0
      omega

/-- Witness for C3: `((((100 + 6) × 3) × 75) - 50) / 25 = 952` over
`values = [25, 50, 75, 100, 3, 6]`. -/
theorem search_complete_witness :
    ((Tree.node Operator.divide
        (Tree.node Operator.minus
          (Tree.node Operator.times
            (Tree.node Operator.times
              (Tree.node Operator.plus (Tree.leaf 3) (Tree.leaf 5)) (Tree.leaf 4))
            (Tree.leaf 2))
          (Tree.leaf 1))
        (Tree.leaf 0)).leaves.Nodup ∧
      (Tree.node Operator.divide
        (Tree.node Operator.minus
          (Tree.node Operator.times
            (Tree.node Operator.times
              (Tree.node Operator.plus (Tree.leaf 3) (Tree.leaf 5)) (Tree.leaf 4))
            (Tree.leaf 2))
          (Tree.leaf 1))
        (Tree.leaf 0)).eval [25, 50, 75, 100, 3, 6] = some 952) ∧
    (∃ r best,
      NumberPuzzle.solve ⟨952, ([25, 50, 75, 100, 3, 6] : List Int).map some⟩ = some r ∧
        r.all ≠ [] ∧ r.best = some best ∧ best.number = 952) :=
  ⟨⟨by decide, by decide⟩,
   (search_complete 952 [25, 50, 75, 100, 3, 6]
      (Tree.node Operator.divide
        (Tree.node Operator.minus
          (Tree.node Operator.times
            (Tree.node Operator.times
              (Tree.node Operator.plus (Tree.leaf 3) (Tree.leaf 5)) (Tree.leaf 4))
            (Tree.leaf 2))
          (Tree.leaf 1))
        (Tree.leaf 0))
      952 (by decide) (by decide)).2 rfl⟩


/-! ### Decimal digits -/

theorem toDigitsCore_acc (fuel n : Nat) (acc : List Char) :
    Nat.toDigitsCore 10 fuel n acc = Nat.toDigitsCore 10 fuel n [] ++ acc := by
  induction fuel generalizing n acc with
  | zero => simp [Nat.toDigitsCore]
  | succ fuel ih =>
    simp only [Nat.toDigitsCore]
    by_cases h : n / 10 = 0
    · simp [h]
    · simp only [h, if_false]
      rw [ih (n / 10) ((n % 10).digitChar :: acc), ih (n / 10) [(n % 10).digitChar]]
      simp

theorem digitChar_spec (d : Nat) (hd : d < 10) :
    d.digitChar.isDigit = true ∧ d.digitChar.toNat - 48 = d ∧
      (d.digitChar = '0' ↔ d = 0) := by
  interval_cases d <;> decide

theorem digitsToNat_append_singleton (xs : List Char) (c : Char) :
    Value.digitsToNat (xs ++ [c]) = 10 * Value.digitsToNat xs + (c.toNat - 48) := by
  unfold Value.digitsToNat
  rw [List.foldl_append]
  rfl

theorem toDigitsCore_spec (fuel : Nat) :
    ∀ n, n < fuel →
      Nat.toDigitsCore 10 fuel n [] ≠ [] ∧
      (∀ c ∈ Nat.toDigitsCore 10 fuel n [], c.isDigit = true) ∧
      Value.digitsToNat (Nat.toDigitsCore 10 fuel n []) = n ∧
      (n ≠ 0 → (Nat.toDigitsCore 10 fuel n []).head? ≠ some '0') ∧
      (n = 0 → Nat.toDigitsCore 10 fuel n [] = ['0']) := by
  induction fuel with
  | zero => intro n hn; omega
  | succ fuel ih =>
    intro n hn
    obtain ⟨hdig, hval, hzero⟩ := digitChar_spec (n % 10) (Nat.mod_lt n (by omega))
    simp only [Nat.toDigitsCore]
    by_cases h : n / 10 = 0
    · simp only [h, if_true]
      have hlt : n < 10 := by omega
      have hmod : n % 10 = n := Nat.mod_eq_of_lt hlt
      refine ⟨by simp, ?_, ?_, ?_, ?_⟩
      · intro c hc
        rw [List.mem_singleton] at hc
        rw [hc]; exact hdig
      · simp only [Value.digitsToNat, List.foldl_cons, List.foldl_nil]
        omega
      · intro hn0 hhead
        simp only [List.head?_cons, Option.some.injEq] at hhead
        exact hn0 (by have := hzero.mp hhead; omega)
      · intro hn0
        subst hn0
        rfl
    · simp only [h, if_false]
      rw [toDigitsCore_acc]
      have hlt : n / 10 < fuel := by omega
      obtain ⟨h1, h2, h3, h4, _⟩ := ih (n / 10) hlt
      refine ⟨by simp, ?_, ?_, ?_, ?_⟩
      · intro c hc
        rcases List.mem_append.mp hc with hc | hc
        · exact h2 c hc
        · rw [List.mem_singleton] at hc
          rw [hc]; exact hdig
      · rw [digitsToNat_append_singleton, h3, hval]
        omega
      · intro _
        rw [List.head?_append_of_ne_nil _ h1]
        exact h4 h
      · intro hn0
        omega

theorem toDigits_spec (n : Nat) :
    Nat.toDigits 10 n ≠ [] ∧
    (∀ c ∈ Nat.toDigits 10 n, c.isDigit = true) ∧
    Value.digitsToNat (Nat.toDigits 10 n) = n ∧
    ¬ ((Nat.toDigits 10 n).head? = some '0' ∧ 1 < (Nat.toDigits 10 n).length) := by
  obtain ⟨h1, h2, h3, h4, h5⟩ := toDigitsCore_spec (n + 1) n (by omega)
  refine ⟨h1, h2, h3, ?_⟩
  rintro ⟨hhead, hlen⟩
  by_cases hn : n = 0
  · have := h5 hn
    unfold Nat.toDigits at hlen
    rw [this] at hlen
    simp at hlen
  · exact h4 hn hhead


/-! ### Scanning a text -/

theorem takeDigits_append (ds R : List Char) (hds : ∀ c ∈ ds, c.isDigit = true)
    (hR : ∀ c r, R = c :: r → c.isDigit = false) :
    Value.takeDigits (ds ++ R) = (ds, R) := by
  unfold Value.takeDigits
  induction ds with
  | nil =>
    cases R with
    | nil => rfl
    | cons c r =>
      have := hR c r rfl
      simp [List.span_eq_take_drop, List.takeWhile_cons, List.dropWhile_cons, this]
  | cons d ds ih =>
    have hd := hds d (List.mem_cons_self _ _)
    have ih2 := ih (fun c hc => hds c (List.mem_cons_of_mem _ hc))
    rw [List.span_eq_take_drop] at ih2 ⊢
    simp only [List.cons_append, List.takeWhile_cons, List.dropWhile_cons, hd, if_true]
    simp only [Prod.mk.injEq] at ih2
    rw [ih2.1, ih2.2]

theorem takeDigits_nil (R : List Char) (hR : ∀ c r, R = c :: r → c.isDigit = false) :
    Value.takeDigits R = ([], R) :=
  takeDigits_append [] R (fun _ h => by cases h) hR

theorem takeDigits_toDigits (n : Nat) (R : List Char)
    (hR : ∀ c r, R = c :: r → c.isDigit = false) :
    Value.takeDigits (Nat.toDigits 10 n ++ R) = (Nat.toDigits 10 n, R) :=
  takeDigits_append _ R (toDigits_spec n).2.1 hR

theorem expect_append (p s : List Char) : Value.expect p (p ++ s) = some s := by
  induction p with
  | nil => rfl
  | cons c p ih => simp [Value.expect, ih]

theorem replaceAll_skip (m : Value.Matcher) (s R : List Char) :
    Value.replaceAll m s.length (s ++ R) = Value.replaceAll m 0 R := by
  induction s with
  | nil => rfl
  | cons c s ih =>
    rw [List.length_cons, List.cons_append, Value.replaceAll]
    exact ih

theorem replaceAll_keep (m : Value.Matcher) (s R : List Char)
    (hm : ∀ t, ∀ c ∈ s, m (c :: t) = none) :
    Value.replaceAll m 0 (s ++ R) = s ++ Value.replaceAll m 0 R := by
  induction s with
  | nil => rfl
  | cons c s ih =>
    rw [List.cons_append, Value.replaceAll, hm _ c (List.mem_cons_self _ _)]
    simp only []
    rw [ih (fun t d hd => hm t d (List.mem_cons_of_mem _ hd))]
    rfl

theorem replaceAll_cons_none (m : Value.Matcher) (c : Char) (s : List Char)
    (hm : m (c :: s) = none) :
    Value.replaceAll m 0 (c :: s) = c :: Value.replaceAll m 0 s := by
  rw [Value.replaceAll, hm]

theorem replaceAll_cons_some (m : Value.Matcher) (c : Char) (s R rep : List Char)
    (hm : m (c :: (s ++ R)) = some (rep, s.length + 1)) :
    Value.replaceAll m 0 (c :: (s ++ R)) = rep ++ Value.replaceAll m 0 R := by
  rw [Value.replaceAll, hm]
  simp only [Nat.add_sub_cancel]
  rw [replaceAll_skip]

theorem isDigit_ne (c d : Char) (hc : c.isDigit = true) (hd : d.isDigit = false) : c ≠ d := by
  intro h
  rw [h, hd] at hc
  cases hc

theorem toDigits_ne (n : Nat) (d : Char) (hd : d.isDigit = false) :
    ∀ c ∈ Nat.toDigits 10 n, c ≠ d :=
  fun c hc => isDigit_ne c d ((toDigits_spec n).2.1 c hc) hd

theorem toDigits_cons (n : Nat) :
    ∃ c cs, Nat.toDigits 10 n = c :: cs ∧ c.isDigit = true := by
  have h := toDigits_spec n
  cases hds : Nat.toDigits 10 n with
  | nil => exact absurd hds h.1
  | cons c cs => exact ⟨c, cs, rfl, h.2.1 c (by rw [hds]; exact List.mem_cons_self _ _)⟩


/-! ### Removing the parentheses around lone numbers -/

theorem matchLoneNumber_ne (c : Char) (s : List Char) (hc : c ≠ '(') :
    Value.matchLoneNumber (c :: s) = none := by
  have h : ¬ ('(' = c) := fun h => hc h.symm
  simp [Value.matchLoneNumber, Value.expect, h]

theorem matchLoneNumber_nodigit (s : List Char)
    (hs : ∀ c r, s = c :: r → c.isDigit = false) :
    Value.matchLoneNumber ('(' :: s) = none := by
  simp [Value.matchLoneNumber, Value.expect, takeDigits_nil s hs]

theorem matchLoneNumber_number (n : Nat) (R : List Char) :
    Value.matchLoneNumber ('(' :: (Nat.toDigits 10 n ++ ')' :: R)) =
      some (Nat.toDigits 10 n, (Nat.toDigits 10 n ++ [')']).length + 1) := by
  have htake := takeDigits_toDigits n (')' :: R) (by
    intro c r h
    cases h
    decide)
  simp [Value.matchLoneNumber, Value.expect, htake, (toDigits_spec n).1]

theorem numberToString_built (n : Int) (hn : 1 ≤ n) :
    Value.numberToString n = Nat.toDigits 10 n.toNat := by
  unfold Value.numberToString
  rw [if_neg (by omega)]

theorem strip_wrapped (v : Value) (hv : v.built) (R : List Char) :
    Value.replaceAll Value.matchLoneNumber 0 ('(' :: (v.toExpression ++ ')' :: R)) =
      (Atom.ofValue v).text Operator.symbol ++
        Value.replaceAll Value.matchLoneNumber 0 R := by
  induction v generalizing R with
  | leaf n =>
    simp only [Value.toExpression, Atom.ofValue, Atom.text, numberToString_built n hv]
    have h := replaceAll_cons_some Value.matchLoneNumber '('
      (Nat.toDigits 10 n.toNat ++ [')']) R (Nat.toDigits 10 n.toNat) (by
        rw [List.append_assoc]
        exact matchLoneNumber_number n.toNat R)
    rw [List.append_assoc] at h
    exact h
  | derived n l r o s ihl ihr =>
    obtain ⟨hl, hr, -⟩ := hv
    simp only [Value.toExpression, Atom.ofValue, Atom.text, sepText]
    have hfirst : Value.matchLoneNumber
        ('(' :: (['('] ++ l.toExpression ++ [')', ' ', o.symbol, ' ', '('] ++ r.toExpression ++
          [')'] ++ ')' :: R)) = none := by
      apply matchLoneNumber_nodigit
      intro c t h
      simp only [List.append_assoc, List.singleton_append, List.cons_append,
        List.cons.injEq] at h
      rw [← h.1]
      decide
    rw [replaceAll_cons_none _ _ _ hfirst]
    have e1 : ['('] ++ l.toExpression ++ [')', ' ', o.symbol, ' ', '('] ++ r.toExpression ++
          [')'] ++ ')' :: R =
        '(' :: (l.toExpression ++ ')' ::
          ([' ', o.symbol, ' '] ++ ('(' :: (r.toExpression ++ ')' :: (')' :: R))))) := by
      simp
    rw [e1, ihl hl]
    have hsep : ∀ t, ∀ c ∈ [' ', o.symbol, ' '], Value.matchLoneNumber (c :: t) = none := by
      intro t c hc
      apply matchLoneNumber_ne
      simp only [List.mem_cons, List.mem_singleton, List.not_mem_nil, or_false] at hc
      rcases hc with hc | hc | hc
      · rw [hc]; decide
      · rw [hc]; cases o <;> decide
      · rw [hc]; decide
    rw [replaceAll_keep _ _ _ hsep, ihr hr,
      replaceAll_cons_none _ _ _ (matchLoneNumber_ne ')' R (by decide))]
    simp

theorem strip_toExpression (v : Value) (hv : v.built) :
    Value.replaceAll Value.matchLoneNumber 0 v.toExpression =
      (Atom.ofValue v).topText Operator.symbol := by
  cases v with
  | leaf n =>
    simp only [Value.toExpression, Atom.ofValue, Atom.topText, numberToString_built n hv]
    have h := replaceAll_keep Value.matchLoneNumber (Nat.toDigits 10 n.toNat) [] (by
      intro t c hc
      exact matchLoneNumber_ne c t (toDigits_ne _ '(' (by decide) c hc))
    rw [List.append_nil] at h
    rw [h]
    simp [Value.replaceAll]
  | derived n l r o s =>
    obtain ⟨hl, hr, -⟩ := hv
    simp only [Value.toExpression, Atom.ofValue, Atom.topText, sepText]
    have e1 : ['('] ++ l.toExpression ++ [')', ' ', o.symbol, ' ', '('] ++ r.toExpression ++
          [')'] =
        '(' :: (l.toExpression ++ ')' ::
          ([' ', o.symbol, ' '] ++ ('(' :: (r.toExpression ++ ')' :: [])))) := by
      simp
    rw [e1, strip_wrapped l hl]
    have hsep : ∀ t, ∀ c ∈ [' ', o.symbol, ' '], Value.matchLoneNumber (c :: t) = none := by
      intro t c hc
      apply matchLoneNumber_ne
      simp only [List.mem_cons, List.mem_singleton, List.not_mem_nil, or_false] at hc
      rcases hc with hc | hc | hc
      · rw [hc]; decide
      · rw [hc]; cases o <;> decide
      · rw [hc]; decide
    rw [replaceAll_keep _ _ _ hsep, strip_wrapped r hr]
    simp [Value.replaceAll]


/-! ### The reduce expressions on the text of an atom -/

theorem symbol_injective (o1 o2 : Operator) (h : o1.symbol = o2.symbol) : o1 = o2 := by
  cases o1 <;> cases o2 <;> first | rfl | (exact absurd h (by decide))

theorem symbol_not_digit (o : Operator) : o.symbol.isDigit = false := by
  cases o <;> decide

theorem symbol_ne_paren (o : Operator) : o.symbol ≠ '(' := by
  cases o <;> decide

theorem matchReduce_ne (x c : Char) (s : List Char) (hc : c ≠ '(') :
    Value.matchReduce x (c :: s) = none := by
  have h : ¬ ('(' = c) := fun h => hc h.symm
  simp [Value.matchReduce, Value.expect, h]

theorem matchReduce_paren_ne (x c : Char) (s : List Char) (hc : c ≠ '(') :
    Value.matchReduce x ('(' :: c :: s) = none := by
  have h : ¬ ('(' = c) := fun h => hc h.symm
  simp [Value.matchReduce, Value.expect, h]

theorem matchReduce_nodigit (x : Char) (s : List Char)
    (hs : ∀ c r, s = c :: r → c.isDigit = false) :
    Value.matchReduce x ('(' :: '(' :: s) = none := by
  simp [Value.matchReduce, Value.expect, takeDigits_nil s hs]

theorem expect_sep_ne (o o1 : Operator) (s : List Char) (h : o1 ≠ o) :
    Value.expect [' ', o.symbol, ' '] (' ' :: o1.symbol :: s) = none := by
  have hne : ¬ (o.symbol = o1.symbol) := fun hs => h (symbol_injective _ _ hs).symm
  simp [Value.expect, hne]

theorem chainText_start (o : Operator) (ns : List Nat) (X : List Char)
    (hX : ∀ c r, X = c :: r → c.isDigit = false) :
    ∀ c r, chainText Operator.symbol o ns ++ X = c :: r → c.isDigit = false := by
  intro c r h
  cases ns with
  | nil => exact hX c r h
  | cons n ns =>
    simp only [chainText, sepText, List.append_assoc, List.cons_append, List.nil_append,
      List.cons.injEq] at h
    rw [← h.1]
    decide

theorem chainTail_chainText (o : Operator) (ns : List Nat) (Y : List Char) :
    ∀ fuel, ns.length < fuel →
      Value.chainTail o.symbol fuel (chainText Operator.symbol o ns ++ ')' :: Y) =
        (chainText Operator.symbol o ns, ')' :: Y) := by
  induction ns with
  | nil =>
    intro fuel hfuel
    cases fuel with
    | zero => omega
    | succ fuel => simp [chainText, Value.chainTail, Value.expect]
  | cons n ns ih =>
    intro fuel hfuel
    cases fuel with
    | zero => omega
    | succ fuel =>
      have hlen : ns.length < fuel := by
        simp only [List.length_cons] at hfuel
        omega
      have htake := takeDigits_toDigits n (chainText Operator.symbol o ns ++ ')' :: Y)
        (chainText_start o ns (')' :: Y) (by intro c r h; cases h; decide))
      have e : chainText Operator.symbol o (n :: ns) ++ ')' :: Y =
          [' ', o.symbol, ' '] ++
            (Nat.toDigits 10 n ++ (chainText Operator.symbol o ns ++ ')' :: Y)) := by
        simp [chainText, sepText]
      rw [e, Value.chainTail, expect_append]
      simp only []
      rw [htake]
      simp only [(toDigits_spec n).1, if_false, ih fuel hlen]
      simp [chainText, sepText]

theorem chainText_length (o : Operator) (ns : List Nat) :
    ns.length ≤ (chainText Operator.symbol o ns).length := by
  induction ns with
  | nil => simp [chainText]
  | cons n ns ih =>
    simp only [chainText, sepText, List.length_append, List.length_cons, List.length_nil]
    omega

theorem chainText_append (sym : Operator → Char) (o : Operator) (ns : List Nat) (c : Nat) :
    chainText sym o (ns ++ [c]) = chainText sym o ns ++ sepText sym o ++ Nat.toDigits 10 c := by
  induction ns with
  | nil => simp [chainText]
  | cons n ns ih => simp [chainText, ih]


theorem matchReduce_chain_head (o : Operator) (a n : Nat) (ns : List Nat) (Y : List Char) :
    Value.matchReduce o.symbol
        ('(' :: '(' :: (Nat.toDigits 10 a ++ chainText Operator.symbol o (n :: ns) ++ ')' :: Y)) =
      match Value.expect [')', ' ', o.symbol, ' '] (')' :: Y) with
      | none => none
      | some r =>
          if (Value.takeDigits r).1 = [] then none
          else
            match Value.expect [')'] (Value.takeDigits r).2 with
            | none => none
            | some _ =>
                some (['('] ++ Nat.toDigits 10 a ++ [' ', o.symbol, ' '] ++
                    (Nat.toDigits 10 n ++ chainText Operator.symbol o ns) ++
                    [' ', o.symbol, ' '] ++ (Value.takeDigits r).1 ++ [')'],
                  (['('] ++ Nat.toDigits 10 a ++ [' ', o.symbol, ' '] ++
                    (Nat.toDigits 10 n ++ chainText Operator.symbol o ns) ++
                    [' ', o.symbol, ' '] ++ (Value.takeDigits r).1 ++ [')']).length + 2) := by
  have e0 : '(' :: '(' :: (Nat.toDigits 10 a ++ chainText Operator.symbol o (n :: ns) ++ ')' :: Y) =
      ['(', '('] ++ (Nat.toDigits 10 a ++ ([' ', o.symbol, ' '] ++
        (Nat.toDigits 10 n ++ (chainText Operator.symbol o ns ++ ')' :: Y)))) := by
    simp [chainText, sepText]
  have h1 := takeDigits_toDigits a ([' ', o.symbol, ' '] ++
        (Nat.toDigits 10 n ++ (chainText Operator.symbol o ns ++ ')' :: Y)))
    (by intro c r h; simp only [List.cons_append, List.cons.injEq] at h; rw [← h.1]; decide)
  have h2 := takeDigits_toDigits n (chainText Operator.symbol o ns ++ ')' :: Y)
    (chainText_start o ns (')' :: Y) (by intro c r h; cases h; decide))
  have h3 := chainTail_chainText o ns Y (chainText Operator.symbol o ns ++ ')' :: Y).length
    (by
      have := chainText_length o ns
      simp only [List.length_append, List.length_cons]
      omega)
  rw [e0, Value.matchReduce, expect_append]
  simp only []
  rw [h1]
  simp only [(toDigits_spec a).1, if_false]
  rw [expect_append]
  simp only []
  rw [h2]
  simp only [(toDigits_spec n).1, if_false]
  rw [h3]


theorem matchReduce_chain_other (o o1 : Operator) (a n : Nat) (ns : List Nat)
    (Z : List Char) (h : o1 ≠ o) :
    Value.matchReduce o.symbol
        ('(' :: '(' :: (Nat.toDigits 10 a ++ chainText Operator.symbol o (n :: ns) ++
          ')' :: (sepText Operator.symbol o1 ++ Z))) = none := by
  rw [matchReduce_chain_head]
  have hne : ¬ (o.symbol = o1.symbol) := fun hs => h (symbol_injective _ _ hs).symm
  simp [Value.expect, sepText, hne]

theorem matchReduce_chain_nonnum (o : Operator) (a n : Nat) (ns : List Nat)
    (Z : List Char) (hZ : ∀ c r, Z = c :: r → c.isDigit = false) :
    Value.matchReduce o.symbol
        ('(' :: '(' :: (Nat.toDigits 10 a ++ chainText Operator.symbol o (n :: ns) ++
          ')' :: (sepText Operator.symbol o ++ Z))) = none := by
  rw [matchReduce_chain_head]
  have e : ')' :: (sepText Operator.symbol o ++ Z) = [')', ' ', o.symbol, ' '] ++ Z := by
    simp [sepText]
  rw [e, expect_append]
  simp only [takeDigits_nil Z hZ, if_true]

theorem matchReduce_chain_num (o : Operator) (a n : Nat) (ns : List Nat) (c : Nat)
    (R : List Char) :
    Value.matchReduce o.symbol
        ('(' :: (('(' :: (Nat.toDigits 10 a ++ chainText Operator.symbol o (n :: ns) ++
          ')' :: (sepText Operator.symbol o ++ Nat.toDigits 10 c ++ [')']))) ++ R)) =
      some ((Atom.chain o a ((n :: ns) ++ [c])).text Operator.symbol,
        ('(' :: (Nat.toDigits 10 a ++ chainText Operator.symbol o (n :: ns) ++
          ')' :: (sepText Operator.symbol o ++ Nat.toDigits 10 c ++ [')']))).length + 1) := by
  have e0 : '(' :: (('(' :: (Nat.toDigits 10 a ++ chainText Operator.symbol o (n :: ns) ++
          ')' :: (sepText Operator.symbol o ++ Nat.toDigits 10 c ++ [')']))) ++ R) =
      '(' :: '(' :: (Nat.toDigits 10 a ++ chainText Operator.symbol o (n :: ns) ++
          ')' :: ([' ', o.symbol, ' '] ++ (Nat.toDigits 10 c ++ ')' :: R))) := by
    simp [sepText]
  rw [e0, matchReduce_chain_head]
  have e : ')' :: ([' ', o.symbol, ' '] ++ (Nat.toDigits 10 c ++ ')' :: R)) =
      [')', ' ', o.symbol, ' '] ++ (Nat.toDigits 10 c ++ ')' :: R) := by
    simp
  rw [e, expect_append]
  simp only []
  rw [takeDigits_toDigits c (')' :: R) (by intro d r h; cases h; decide)]
  simp only [(toDigits_spec c).1, if_false]
  have e2 : ')' :: R = [')'] ++ R := rfl
  rw [e2, expect_append]
  simp only [Atom.text, Option.some.injEq, Prod.mk.injEq]
  constructor
  · rw [chainText_append]
    simp [chainText, sepText]
  · simp [chainText, sepText]
    omega

theorem asChain_text (o : Operator) (l : Atom) (a : Nat) (ns : List Nat)
    (h : Atom.asChain o l = some (a, ns)) :
    ∃ n ns1, ns = n :: ns1 ∧
      l.text Operator.symbol =
        '(' :: (Nat.toDigits 10 a ++ chainText Operator.symbol o (n :: ns1) ++ [')']) := by
  cases l with
  | num k => simp [Atom.asChain] at h
  | chain o1 b ms =>
    cases ms with
    | nil => simp [Atom.asChain] at h
    | cons m ms =>
      simp only [Atom.asChain] at h
      by_cases ho : o1 = o
      · rw [if_pos ho] at h
        simp only [Option.some.injEq, Prod.mk.injEq] at h
        refine ⟨m, ms, h.2.symm, ?_⟩
        rw [← h.1, ho]
        rfl
      · rw [if_neg ho] at h; cases h
  | bin l1 o1 r1 =>
    cases l1 with
    | num x =>
      cases r1 with
      | num y =>
        simp only [Atom.asChain] at h
        by_cases ho : o1 = o
        · rw [if_pos ho] at h
          simp only [Option.some.injEq, Prod.mk.injEq] at h
          refine ⟨y, [], h.2.symm, ?_⟩
          rw [← h.1, ho]
          simp [Atom.text, chainText]
        · rw [if_neg ho] at h; cases h
      | bin _ _ _ => simp [Atom.asChain] at h
      | chain _ _ _ => simp [Atom.asChain] at h
    | bin _ _ _ => simp [Atom.asChain] at h
    | chain _ _ _ => simp [Atom.asChain] at h


theorem matchReduce_no_sep (x : Char) (a : Nat) (W : List Char)
    (hW : ∀ c r, W = c :: r → c.isDigit = false)
    (hexp : Value.expect [' ', x, ' '] W = none) :
    Value.matchReduce x ('(' :: '(' :: (Nat.toDigits 10 a ++ W)) = none := by
  have e0 : '(' :: '(' :: (Nat.toDigits 10 a ++ W) = ['(', '('] ++ (Nat.toDigits 10 a ++ W) :=
    rfl
  rw [e0, Value.matchReduce, expect_append]
  simp only []
  rw [takeDigits_toDigits a W hW]
  simp only [(toDigits_spec a).1, if_false, hexp]

theorem matchReduce_no_second (x : Char) (a : Nat) (W : List Char)
    (hW : ∀ c r, W = c :: r → c.isDigit = false) :
    Value.matchReduce x ('(' :: '(' :: (Nat.toDigits 10 a ++ ([' ', x, ' '] ++ W))) = none := by
  have e0 : '(' :: '(' :: (Nat.toDigits 10 a ++ ([' ', x, ' '] ++ W)) =
      ['(', '('] ++ (Nat.toDigits 10 a ++ ([' ', x, ' '] ++ W)) := rfl
  rw [e0, Value.matchReduce, expect_append]
  simp only []
  rw [takeDigits_toDigits a ([' ', x, ' '] ++ W)
    (by intro c r h; simp only [List.cons_append, List.cons.injEq] at h; rw [← h.1]; decide)]
  simp only [(toDigits_spec a).1, if_false]
  rw [expect_append]
  simp only [takeDigits_nil W hW, if_true]

theorem text_start_paren (A : Atom) (hA : ∀ n, A ≠ Atom.num n) (Y : List Char) :
    ∃ r, A.text Operator.symbol ++ Y = '(' :: r := by
  cases A with
  | num n => exact absurd rfl (hA n)
  | bin l o r => exact ⟨_, rfl⟩
  | chain o a ns => exact ⟨_, rfl⟩

theorem text_start_nondigit (A : Atom) (hA : ∀ n, A ≠ Atom.num n) (Y : List Char) :
    ∀ c r, A.text Operator.symbol ++ Y = c :: r → c.isDigit = false := by
  intro c r h
  obtain ⟨t, ht⟩ := text_start_paren A hA Y
  rw [ht] at h
  cases h
  decide

theorem matchReduce_not_chain (o : Operator) (l : Atom) (h : Atom.asChain o l = none)
    (Y : List Char) :
    Value.matchReduce o.symbol ('(' :: (l.text Operator.symbol ++ ' ' :: Y)) = none := by
  cases l with
  | num a =>
    obtain ⟨c, cs, hcs, hc⟩ := toDigits_cons a
    simp only [Atom.text, hcs, List.cons_append]
    exact matchReduce_paren_ne _ c _ (isDigit_ne c '(' hc (by decide))
  | chain o2 a ms =>
    cases ms with
    | nil =>
      have e : '(' :: ((Atom.chain o2 a []).text Operator.symbol ++ ' ' :: Y) =
          '(' :: '(' :: (Nat.toDigits 10 a ++ (')' :: ' ' :: Y)) := by
        simp [Atom.text, chainText]
      rw [e]
      exact matchReduce_no_sep _ a _ (by intro c r hh; cases hh; decide) (by
        simp [Value.expect])
    | cons m ms =>
      have ho : o2 ≠ o := by
        intro ho
        simp [Atom.asChain, ho] at h
      have e : '(' :: ((Atom.chain o2 a (m :: ms)).text Operator.symbol ++ ' ' :: Y) =
          '(' :: '(' :: (Nat.toDigits 10 a ++ (' ' :: o2.symbol :: (' ' ::
            (Nat.toDigits 10 m ++ chainText Operator.symbol o2 ms ++ ')' :: ' ' :: Y)))) := by
        simp [Atom.text, chainText, sepText]
      rw [e]
      exact matchReduce_no_sep _ a _ (by intro c r hh; cases hh; decide)
        (expect_sep_ne o o2 _ ho)
  | bin l1 o2 r1 =>
    cases l1 with
    | bin l2 o3 r2 =>
      have e : '(' :: ((Atom.bin (Atom.bin l2 o3 r2) o2 r1).text Operator.symbol ++ ' ' :: Y) =
          '(' :: '(' :: ('(' :: ((l2.text Operator.symbol ++ sepText Operator.symbol o3 ++
            r2.text Operator.symbol ++ [')']) ++ sepText Operator.symbol o2 ++
            r1.text Operator.symbol ++ [')'] ++ ' ' :: Y)) := by
        simp [Atom.text]
      rw [e]
      exact matchReduce_nodigit _ _ (by intro c r hh; cases hh; decide)
    | chain o3 b ms =>
      have e : '(' :: ((Atom.bin (Atom.chain o3 b ms) o2 r1).text Operator.symbol ++ ' ' :: Y) =
          '(' :: '(' :: ('(' :: ((Nat.toDigits 10 b ++ chainText Operator.symbol o3 ms ++
            [')']) ++ sepText Operator.symbol o2 ++
            r1.text Operator.symbol ++ [')'] ++ ' ' :: Y)) := by
        simp [Atom.text]
      rw [e]
      exact matchReduce_nodigit _ _ (by intro c r hh; cases hh; decide)
    | num a =>
      by_cases ho : o2 = o
      · subst ho
        have hr1 : ∀ n, r1 ≠ Atom.num n := by
          intro n hn
          subst hn
          simp [Atom.asChain] at h
        have e : '(' :: ((Atom.bin (Atom.num a) o2 r1).text Operator.symbol ++ ' ' :: Y) =
            '(' :: '(' :: (Nat.toDigits 10 a ++ ([' ', o2.symbol, ' '] ++
              (r1.text Operator.symbol ++ (')' :: ' ' :: Y)))) := by
          simp [Atom.text, sepText]
        rw [e]
        exact matchReduce_no_second _ a _ (text_start_nondigit r1 hr1 _)
      · have e : '(' :: ((Atom.bin (Atom.num a) o2 r1).text Operator.symbol ++ ' ' :: Y) =
            '(' :: '(' :: (Nat.toDigits 10 a ++ (' ' :: o2.symbol :: (' ' ::
              (r1.text Operator.symbol ++ (')' :: ' ' :: Y))))) := by
          simp [Atom.text, sepText]
        rw [e]
        exact matchReduce_no_sep _ a _ (by intro c r hh; cases hh; decide)
          (expect_sep_ne o o2 _ ho)


theorem chainText_no_paren (o : Operator) (ns : List Nat) :
    ∀ c ∈ chainText Operator.symbol o ns, c ≠ '(' := by
  induction ns with
  | nil => intro c hc; cases hc
  | cons n ns ih =>
    intro c hc
    simp only [chainText, sepText, List.mem_append, List.mem_cons, List.mem_singleton,
      List.not_mem_nil, or_false] at hc
    rcases hc with ((hc | hc | hc) | hc) | hc
    · rw [hc]; decide
    · rw [hc]; exact symbol_ne_paren o
    · rw [hc]; decide
    · exact toDigits_ne n '(' (by decide) c hc
    · exact ih c hc

theorem rewrite_bin_redex (o : Operator) (l : Atom) (a : Nat) (ns : List Nat) (c : Nat)
    (h : Atom.asChain o l = some (a, ns)) :
    Atom.rewrite o (Atom.bin l o (Atom.num c)) = Atom.chain o a (ns ++ [c]) := by
  simp [Atom.rewrite, h]

theorem rewrite_bin_other_op (o o1 : Operator) (l r : Atom) (h : o1 ≠ o) :
    Atom.rewrite o (Atom.bin l o1 r) =
      Atom.bin (Atom.rewrite o l) o1 (Atom.rewrite o r) := by
  simp [Atom.rewrite, h]

theorem rewrite_bin_not_chain (o o1 : Operator) (l r : Atom) (h : Atom.asChain o l = none) :
    Atom.rewrite o (Atom.bin l o1 r) =
      Atom.bin (Atom.rewrite o l) o1 (Atom.rewrite o r) := by
  by_cases ho : o1 = o
  · simp [Atom.rewrite, ho, h]
  · exact rewrite_bin_other_op o o1 l r ho

theorem rewrite_bin_nonnum (o o1 : Operator) (l r : Atom) (h : ∀ n, r ≠ Atom.num n) :
    Atom.rewrite o (Atom.bin l o1 r) =
      Atom.bin (Atom.rewrite o l) o1 (Atom.rewrite o r) := by
  cases r with
  | num n => exact absurd rfl (h n)
  | bin _ _ _ =>
    rw [Atom.rewrite]
    intro a ns c _ hc
    cases hc
  | chain _ _ _ =>
    rw [Atom.rewrite, Atom.rewrite]
    · rw [Atom.rewrite]
    · intro a ns c _ hc
      cases hc

theorem matchReduce_bin_none (o o1 : Operator) (l r : Atom) (R : List Char)
    (h : ¬ (o1 = o ∧ (∃ a ns, Atom.asChain o l = some (a, ns)) ∧ ∃ c, r = Atom.num c)) :
    Value.matchReduce o.symbol ((Atom.bin l o1 r).text Operator.symbol ++ R) = none := by
  have e : (Atom.bin l o1 r).text Operator.symbol ++ R =
      '(' :: (l.text Operator.symbol ++ ' ' :: (o1.symbol ::
        (' ' :: (r.text Operator.symbol ++ ')' :: R)))) := by
    simp [Atom.text, sepText]
  cases hl : Atom.asChain o l with
  | none =>
    rw [e]
    exact matchReduce_not_chain o l hl _
  | some p =>
    obtain ⟨a, ns⟩ := p
    obtain ⟨n, ns1, hns, htext⟩ := asChain_text o l a ns hl
    have e2 : (Atom.bin l o1 r).text Operator.symbol ++ R =
        '(' :: '(' :: (Nat.toDigits 10 a ++ chainText Operator.symbol o (n :: ns1) ++
          ')' :: (sepText Operator.symbol o1 ++ (r.text Operator.symbol ++ ')' :: R))) := by
      simp [Atom.text, htext]
    rw [e2]
    by_cases ho : o1 = o
    · subst ho
      have hr : ∀ c, r ≠ Atom.num c := by
        intro c hc
        exact h ⟨rfl, ⟨a, ns, hl⟩, c, hc⟩
      exact matchReduce_chain_nonnum o1 a n ns1 _ (text_start_nondigit r hr _)
    · exact matchReduce_chain_other o o1 a n ns1 _ ho

theorem rewrite_bin_none (o o1 : Operator) (l r : Atom)
    (h : ¬ (o1 = o ∧ (∃ a ns, Atom.asChain o l = some (a, ns)) ∧ ∃ c, r = Atom.num c)) :
    Atom.rewrite o (Atom.bin l o1 r) =
      Atom.bin (Atom.rewrite o l) o1 (Atom.rewrite o r) := by
  by_cases ho : o1 = o
  · cases hl : Atom.asChain o l with
    | none => exact rewrite_bin_not_chain o o1 l r hl
    | some p =>
      apply rewrite_bin_nonnum
      intro c hc
      exact h ⟨ho, ⟨p.1, p.2, hl⟩, c, hc⟩
  · exact rewrite_bin_other_op o o1 l r ho

theorem replaceAll_reduce_text (o : Operator) (A : Atom) :
    ∀ R : List Char,
      Value.replaceAll (Value.matchReduce o.symbol) 0 (A.text Operator.symbol ++ R) =
        (A.rewrite o).text Operator.symbol ++
          Value.replaceAll (Value.matchReduce o.symbol) 0 R := by
  induction A with
  | num n =>
    intro R
    simp only [Atom.text, Atom.rewrite]
    exact replaceAll_keep _ _ _ (fun t c hc =>
      matchReduce_ne _ c t (toDigits_ne n '(' (by decide) c hc))
  | chain o1 a ns =>
    intro R
    obtain ⟨c, cs, hcs, hc⟩ := toDigits_cons a
    have hfirst : Value.matchReduce o.symbol
        ('(' :: ((Nat.toDigits 10 a ++ chainText Operator.symbol o1 ns ++ [')']) ++ R)) =
        none := by
      rw [hcs]
      exact matchReduce_paren_ne _ c _ (isDigit_ne c '(' hc (by decide))
    simp only [Atom.text, Atom.rewrite, List.cons_append]
    rw [replaceAll_cons_none _ _ _ hfirst]
    rw [replaceAll_keep _ _ R (fun t c hc => matchReduce_ne _ c t (by
      simp only [List.mem_append, List.mem_singleton] at hc
      rcases hc with (hc | hc) | hc
      · exact toDigits_ne a '(' (by decide) c hc
      · exact chainText_no_paren o1 ns c hc
      · rw [hc]; decide))]
  | bin l o1 r ihl ihr =>
    intro R
    by_cases h : o1 = o ∧ (∃ a ns, Atom.asChain o l = some (a, ns)) ∧ ∃ c, r = Atom.num c
    · obtain ⟨ho, ⟨a, ns, hl⟩, c, hr⟩ := h
      subst ho
      subst hr
      obtain ⟨n, ns1, hns, htext⟩ := asChain_text o1 l a ns hl
      rw [rewrite_bin_redex o1 l a ns c hl, hns]
      have e : (Atom.bin l o1 (Atom.num c)).text Operator.symbol ++ R =
          '(' :: (('(' :: (Nat.toDigits 10 a ++ chainText Operator.symbol o1 (n :: ns1) ++
            ')' :: (sepText Operator.symbol o1 ++ Nat.toDigits 10 c ++ [')']))) ++ R) := by
        simp [Atom.text, htext]
      rw [e]
      exact replaceAll_cons_some _ _ _ _ _ (matchReduce_chain_num o1 a n ns1 c R)
    · rw [rewrite_bin_none o o1 l r h]
      have hnone := matchReduce_bin_none o o1 l r R h
      have e : (Atom.bin l o1 r).text Operator.symbol ++ R =
          '(' :: (l.text Operator.symbol ++ ([' ', o1.symbol, ' '] ++
            (r.text Operator.symbol ++ ')' :: R))) := by
        simp [Atom.text, sepText]
      rw [e] at hnone ⊢
      rw [replaceAll_cons_none _ _ _ hnone, ihl,
        replaceAll_keep _ [' ', o1.symbol, ' '] _ (fun t c hc => matchReduce_ne _ c t (by
          simp only [List.mem_cons, List.mem_singleton, List.not_mem_nil, or_false] at hc
          rcases hc with hc | hc | hc
          · rw [hc]; decide
          · rw [hc]; exact symbol_ne_paren o1
          · rw [hc]; decide)),
        ihr, replaceAll_cons_none _ _ _ (matchReduce_ne _ ')' R (by decide))]
      simp [Atom.text, sepText]


/-! ### The loop of `toString` on the text of an atom -/

theorem replaceAll_nil (m : Value.Matcher) (k : Nat) : Value.replaceAll m k [] = [] := by
  cases k <;> rfl

theorem replaceAll_reduce_topText (o : Operator) (A : Atom) :
    Value.replaceAll (Value.matchReduce o.symbol) 0 (A.topText Operator.symbol) =
      (A.rewriteTop o).topText Operator.symbol := by
  cases A with
  | num n =>
    have h := replaceAll_reduce_text o (Atom.num n) []
    simp only [Atom.text, Atom.rewrite, List.append_nil, replaceAll_nil] at h
    exact h
  | chain o1 a ns =>
    simp only [Atom.topText, Atom.rewriteTop]
    have h := replaceAll_keep (Value.matchReduce o.symbol)
      (Nat.toDigits 10 a ++ chainText Operator.symbol o1 ns) [] (fun t c hc =>
        matchReduce_ne _ c t (by
          rcases List.mem_append.mp hc with hc | hc
          · exact toDigits_ne a '(' (by decide) c hc
          · exact chainText_no_paren o1 ns c hc))
    simp only [List.append_nil, replaceAll_nil] at h
    exact h
  | bin l o1 r =>
    simp only [Atom.topText, Atom.rewriteTop]
    rw [List.append_assoc, replaceAll_reduce_text,
      replaceAll_keep _ (sepText Operator.symbol o1) _ (fun t c hc => matchReduce_ne _ c t (by
        simp only [sepText, List.mem_cons, List.mem_singleton, List.not_mem_nil,
          or_false] at hc
        rcases hc with hc | hc | hc
        · rw [hc]; decide
        · rw [hc]; exact symbol_ne_paren o1
        · rw [hc]; decide))]
    have h := replaceAll_reduce_text o r []
    simp only [List.append_nil, replaceAll_nil] at h
    rw [h, List.append_assoc]

theorem reducePass_topText (A : Atom) :
    Value.reducePass (A.topText Operator.symbol) =
      ((((A.rewriteTop Operator.plus).rewriteTop Operator.minus).rewriteTop
        Operator.times).rewriteTop Operator.divide).topText Operator.symbol := by
  unfold Value.reducePass
  simp only []
  have h1 := replaceAll_reduce_topText Operator.plus A
  have h2 := replaceAll_reduce_topText Operator.minus (A.rewriteTop Operator.plus)
  have h3 := replaceAll_reduce_topText Operator.times
    ((A.rewriteTop Operator.plus).rewriteTop Operator.minus)
  have h4 := replaceAll_reduce_topText Operator.divide
    (((A.rewriteTop Operator.plus).rewriteTop Operator.minus).rewriteTop Operator.times)
  simp only [Operator.symbol] at h1 h2 h3 h4
  rw [h1, h2, h3, h4]

theorem asChain_value (o : Operator) (l : Atom) (a : Nat) (ns : List Nat)
    (h : Atom.asChain o l = some (a, ns)) :
    l.value = ns.foldl (fun (acc : ℚ) (n : Nat) => o.apply acc (n : ℚ)) (a : ℚ) ∧
      (l.divisorsNonzero → o = Operator.divide → ∀ n ∈ ns, n ≠ 0) := by
  cases l with
  | num k => simp [Atom.asChain] at h
  | chain o1 b ms =>
    cases ms with
    | nil => simp [Atom.asChain] at h
    | cons m ms =>
      simp only [Atom.asChain] at h
      by_cases ho : o1 = o
      · rw [if_pos ho] at h
        simp only [Option.some.injEq, Prod.mk.injEq] at h
        obtain ⟨h1, h2⟩ := h
        subst ho h1 h2
        exact ⟨rfl, fun hd => hd⟩
      · rw [if_neg ho] at h; cases h
  | bin l1 o1 r1 =>
    cases l1 with
    | num x =>
      cases r1 with
      | num y =>
        simp only [Atom.asChain] at h
        by_cases ho : o1 = o
        · rw [if_pos ho] at h
          simp only [Option.some.injEq, Prod.mk.injEq] at h
          obtain ⟨h1, h2⟩ := h
          subst ho h1 h2
          refine ⟨rfl, ?_⟩
          intro hd hdiv n hn
          rw [List.mem_singleton] at hn
          subst hn
          have := hd.2.2 hdiv
          simp only [Atom.value] at this
          exact_mod_cast this
        · rw [if_neg ho] at h; cases h
      | bin _ _ _ => simp [Atom.asChain] at h
      | chain _ _ _ => simp [Atom.asChain] at h
    | bin _ _ _ => simp [Atom.asChain] at h
    | chain _ _ _ => simp [Atom.asChain] at h

theorem rewrite_sound (o : Operator) (A : Atom) :
    (A.rewrite o).value = A.value ∧ (A.divisorsNonzero → (A.rewrite o).divisorsNonzero) := by
  induction A with
  | num n => exact ⟨rfl, fun h => h⟩
  | chain o1 a ns => exact ⟨rfl, fun h => h⟩
  | bin l o1 r ihl ihr =>
    by_cases h : o1 = o ∧ (∃ a ns, Atom.asChain o l = some (a, ns)) ∧ ∃ c, r = Atom.num c
    · obtain ⟨ho, ⟨a, ns, hl⟩, c, hr⟩ := h
      subst ho hr
      obtain ⟨hval, hdiv⟩ := asChain_value o1 l a ns hl
      rw [rewrite_bin_redex o1 l a ns c hl]
      constructor
      · simp only [Atom.value, List.foldl_append, List.foldl_cons, List.foldl_nil, hval]
      · intro hd hdivide n hn
        rcases List.mem_append.mp hn with hn | hn
        · exact hdiv hd.1 hdivide n hn
        · rw [List.mem_singleton] at hn
          subst hn
          have := hd.2.2 hdivide
          simp only [Atom.value] at this
          exact_mod_cast this
    · rw [rewrite_bin_none o o1 l r h]
      constructor
      · simp only [Atom.value, ihl.1, ihr.1]
      · intro hd
        refine ⟨ihl.2 hd.1, ihr.2 hd.2.1, ?_⟩
        rw [ihr.1]
        exact hd.2.2

theorem rewriteTop_sound (o : Operator) (A : Atom) :
    (A.rewriteTop o).value = A.value ∧
      (A.divisorsNonzero → (A.rewriteTop o).divisorsNonzero) := by
  cases A with
  | num n => exact ⟨rfl, fun h => h⟩
  | chain o1 a ns => exact ⟨rfl, fun h => h⟩
  | bin l o1 r =>
    simp only [Atom.rewriteTop]
    have hl := rewrite_sound o l
    have hr := rewrite_sound o r
    constructor
    · simp only [Atom.value, hl.1, hr.1]
    · intro hd
      refine ⟨hl.2 hd.1, hr.2 hd.2.1, ?_⟩
      rw [hr.1]
      exact hd.2.2

theorem reduceLoop_topText (fuel : Nat) :
    ∀ A : Atom, ∃ B : Atom,
      Value.reduceLoop fuel (A.topText Operator.symbol) = B.topText Operator.symbol ∧
      B.value = A.value ∧ (A.divisorsNonzero → B.divisorsNonzero) := by
  induction fuel with
  | zero => intro A; exact ⟨A, rfl, rfl, fun h => h⟩
  | succ fuel ih =>
    intro A
    have hpass := reducePass_topText A
    have s1 := rewriteTop_sound Operator.plus A
    have s2 := rewriteTop_sound Operator.minus (A.rewriteTop Operator.plus)
    have s3 := rewriteTop_sound Operator.times
      ((A.rewriteTop Operator.plus).rewriteTop Operator.minus)
    have s4 := rewriteTop_sound Operator.divide
      (((A.rewriteTop Operator.plus).rewriteTop Operator.minus).rewriteTop Operator.times)
    have hval : ((((A.rewriteTop Operator.plus).rewriteTop Operator.minus).rewriteTop
        Operator.times).rewriteTop Operator.divide).value = A.value := by
      rw [s4.1, s3.1, s2.1, s1.1]
    have hdiv : A.divisorsNonzero →
        ((((A.rewriteTop Operator.plus).rewriteTop Operator.minus).rewriteTop
          Operator.times).rewriteTop Operator.divide).divisorsNonzero :=
      fun h => s4.2 (s3.2 (s2.2 (s1.2 h)))
    simp only [Value.reduceLoop]
    split
    · exact ⟨_, hpass, hval, hdiv⟩
    · rw [hpass]
      obtain ⟨B, hB, hBv, hBd⟩ := ih ((((A.rewriteTop Operator.plus).rewriteTop
        Operator.minus).rewriteTop Operator.times).rewriteTop Operator.divide)
      exact ⟨B, hB, hBv.trans hval, fun h => hBd (hdiv h)⟩

theorem toString_topText (v : Value) (hv : v.built) :
    ∃ B : Atom, v.toString = B.topText Operator.symbol ∧
      B.value = (Atom.ofValue v).value ∧
      ((Atom.ofValue v).divisorsNonzero → B.divisorsNonzero) := by
  unfold Value.toString
  simp only []
  rw [strip_toExpression v hv]
  exact reduceLoop_topText _ _


/-! ### Evaluating the text of an atom -/

theorem skipSpaces_space (s : List Char) :
    Value.skipSpaces (' ' :: s) = Value.skipSpaces s := by
  simp [Value.skipSpaces]

theorem skipSpaces_cons (c : Char) (s : List Char) (hc : c ≠ ' ') :
    Value.skipSpaces (c :: s) = c :: s := by
  simp [Value.skipSpaces, hc]

theorem primary_space (inner : Value.Parser) (s : List Char) :
    Value.primary inner (' ' :: s) = Value.primary inner s := by
  simp only [Value.primary, skipSpaces_space]

theorem primary_number (inner : Value.Parser) (n : Nat) (R : List Char)
    (hR : ∀ c r, R = c :: r → c.isDigit = false) :
    Value.primary inner (Nat.toDigits 10 n ++ R) = some ((n : ℚ), R) := by
  obtain ⟨c, cs, hcs, hc⟩ := toDigits_cons n
  have hspec := toDigits_spec n
  have htake := takeDigits_toDigits n R hR
  rw [hcs] at htake hspec
  have hsp : c ≠ ' ' := isDigit_ne c ' ' hc (by decide)
  have hpar : c ≠ '(' := isDigit_ne c '(' hc (by decide)
  rw [hcs]
  simp only [Value.primary, List.cons_append, skipSpaces_cons c _ hsp, if_neg hpar]
  rw [List.cons_append] at htake
  rw [htake]
  simp only [List.cons_ne_nil, if_false, if_neg hspec.2.2.2, hspec.2.2.1]

theorem primary_paren (inner : Value.Parser) (s R : List Char) (v : ℚ)
    (h : inner s = some (v, ')' :: R)) :
    Value.primary inner ('(' :: s) = some (v, R) := by
  simp [Value.primary, skipSpaces_cons, h]

/-- The text after an operand at which both operator loops stop: the end
of the text or a closing parenthesis. -/
theorem mulRest_stop (prim : Value.Parser) (fuel : Nat) (acc : ℚ) (T : List Char)
    (hT : T = [] ∨ ∃ R, T = ')' :: R) :
    Value.mulRest prim (fuel + 1) acc T = some (acc, T) := by
  rcases hT with rfl | ⟨R, rfl⟩
  · simp [Value.mulRest, Value.skipSpaces]
  · simp [Value.mulRest, skipSpaces_cons]

theorem addRest_stop (prim : Value.Parser) (fuel : Nat) (acc : ℚ) (T : List Char)
    (hT : T = [] ∨ ∃ R, T = ')' :: R) :
    Value.addRest prim (fuel + 1) acc T = some (acc, T) := by
  rcases hT with rfl | ⟨R, rfl⟩
  · simp [Value.addRest, Value.skipSpaces]
  · simp [Value.addRest, skipSpaces_cons]

theorem mulRest_additive (prim : Value.Parser) (fuel : Nat) (acc : ℚ) (c : Char)
    (s : List Char) (hc : c = '+' ∨ c = '-') :
    Value.mulRest prim (fuel + 1) acc (' ' :: c :: s) = some (acc, ' ' :: c :: s) := by
  rcases hc with rfl | rfl
  · simp [Value.mulRest, skipSpaces_space, skipSpaces_cons]
  · simp [Value.mulRest, skipSpaces_space, skipSpaces_cons]

theorem stop_nondigit (T : List Char) (hT : T = [] ∨ ∃ R, T = ')' :: R) :
    ∀ c r, T = c :: r → c.isDigit = false := by
  intro c r h
  rcases hT with rfl | ⟨R, rfl⟩
  · cases h
  · cases h; decide


theorem chainText_script_start (o : Operator) (ns : List Nat) (X : List Char)
    (hX : ∀ c r, X = c :: r → c.isDigit = false) :
    ∀ c r, chainText Operator.scriptSymbol o ns ++ X = c :: r → c.isDigit = false := by
  intro c r h
  cases ns with
  | nil => exact hX c r h
  | cons n ns =>
    simp only [chainText, sepText, List.append_assoc, List.cons_append, List.nil_append,
      List.cons.injEq] at h
    rw [← h.1]
    decide

theorem mulRest_chain (prim : Value.Parser) (o : Operator)
    (ho : o = Operator.times ∨ o = Operator.divide)
    (hnum : ∀ n Y, (∀ c r, Y = c :: r → c.isDigit = false) →
      prim (Nat.toDigits 10 n ++ Y) = some ((n : ℚ), Y))
    (hsp : ∀ s, prim (' ' :: s) = prim s)
    (T : List Char) (hT : T = [] ∨ ∃ R, T = ')' :: R) (ns : List Nat) :
    ∀ (acc : ℚ) (fuel : Nat), ns.length < fuel →
      (o = Operator.divide → ∀ n ∈ ns, n ≠ 0) →
      Value.mulRest prim fuel acc (chainText Operator.scriptSymbol o ns ++ T) =
        some (ns.foldl (fun (acc : ℚ) (n : Nat) => o.apply acc (n : ℚ)) acc, T) := by
  induction ns with
  | nil =>
    intro acc fuel hfuel _
    cases fuel with
    | zero => omega
    | succ fuel => exact mulRest_stop prim fuel acc T hT
  | cons n ns ih =>
    intro acc fuel hfuel hdiv
    cases fuel with
    | zero => omega
    | succ fuel =>
      have hlen : ns.length < fuel := by
        simp only [List.length_cons] at hfuel
        omega
      have hread := hnum n (chainText Operator.scriptSymbol o ns ++ T)
        (chainText_script_start o ns T (stop_nondigit T hT))
      have hdiv2 : o = Operator.divide → ∀ m ∈ ns, m ≠ 0 :=
        fun h m hm => hdiv h m (List.mem_cons_of_mem _ hm)
      rcases ho with rfl | rfl
      · have e : chainText Operator.scriptSymbol Operator.times (n :: ns) ++ T =
            ' ' :: '*' :: (' ' :: (Nat.toDigits 10 n ++
              (chainText Operator.scriptSymbol Operator.times ns ++ T))) := by
          simp [chainText, sepText, Operator.scriptSymbol]
        rw [e, Value.mulRest, skipSpaces_space, skipSpaces_cons _ _ (by decide)]
        simp only [if_true, hsp, hread]
        rw [ih (acc * (n : ℚ)) fuel hlen hdiv2]
        rfl
      · have hn0 : (n : ℚ) ≠ 0 := by
          have := hdiv rfl n (List.mem_cons_self _ _)
          exact_mod_cast this
        have e : chainText Operator.scriptSymbol Operator.divide (n :: ns) ++ T =
            ' ' :: '/' :: (' ' :: (Nat.toDigits 10 n ++
              (chainText Operator.scriptSymbol Operator.divide ns ++ T))) := by
          simp [chainText, sepText, Operator.scriptSymbol]
        rw [e, Value.mulRest, skipSpaces_space, skipSpaces_cons _ _ (by decide)]
        have hne : ¬ ('/' = '*') := by decide
        simp only [if_neg hne, if_true, hsp, hread, if_neg hn0]
        rw [ih (acc / (n : ℚ)) fuel hlen hdiv2]
        rfl

theorem multiplicative_number (prim : Value.Parser) (o : Operator)
    (ho : o = Operator.plus ∨ o = Operator.minus)
    (hnum : ∀ n Y, (∀ c r, Y = c :: r → c.isDigit = false) →
      prim (Nat.toDigits 10 n ++ Y) = some ((n : ℚ), Y))
    (T : List Char) (hT : T = [] ∨ ∃ R, T = ')' :: R) (n : Nat) (ns : List Nat) :
    Value.multiplicative prim
        (Nat.toDigits 10 n ++ (chainText Operator.scriptSymbol o ns ++ T)) =
      some ((n : ℚ), chainText Operator.scriptSymbol o ns ++ T) := by
  have hread := hnum n (chainText Operator.scriptSymbol o ns ++ T)
    (chainText_script_start o ns T (stop_nondigit T hT))
  simp only [Value.multiplicative, hread]
  cases ns with
  | nil => exact mulRest_stop prim _ _ T hT
  | cons m ms =>
    have e : chainText Operator.scriptSymbol o (m :: ms) ++ T =
        ' ' :: o.scriptSymbol :: (' ' :: (Nat.toDigits 10 m ++
          (chainText Operator.scriptSymbol o ms ++ T))) := by
      simp [chainText, sepText]
    rw [e]
    exact mulRest_additive prim _ _ _ _ (by
      rcases ho with rfl | rfl
      · left; rfl
      · right; rfl)

theorem addRest_chain (prim : Value.Parser) (o : Operator)
    (ho : o = Operator.plus ∨ o = Operator.minus)
    (hnum : ∀ n Y, (∀ c r, Y = c :: r → c.isDigit = false) →
      prim (Nat.toDigits 10 n ++ Y) = some ((n : ℚ), Y))
    (hsp : ∀ s, prim (' ' :: s) = prim s)
    (T : List Char) (hT : T = [] ∨ ∃ R, T = ')' :: R) (ns : List Nat) :
    ∀ (acc : ℚ) (fuel : Nat), ns.length < fuel →
      Value.addRest prim fuel acc (chainText Operator.scriptSymbol o ns ++ T) =
        some (ns.foldl (fun (acc : ℚ) (n : Nat) => o.apply acc (n : ℚ)) acc, T) := by
  induction ns with
  | nil =>
    intro acc fuel hfuel
    cases fuel with
    | zero => omega
    | succ fuel => exact addRest_stop prim fuel acc T hT
  | cons n ns ih =>
    intro acc fuel hfuel
    cases fuel with
    | zero => omega
    | succ fuel =>
      have hlen : ns.length < fuel := by
        simp only [List.length_cons] at hfuel
        omega
      have hmul := multiplicative_number prim o ho hnum T hT n ns
      have hmsp : Value.multiplicative prim (' ' :: (Nat.toDigits 10 n ++
          (chainText Operator.scriptSymbol o ns ++ T))) =
          some ((n : ℚ), chainText Operator.scriptSymbol o ns ++ T) := by
        rw [← hmul]
        simp only [Value.multiplicative, hsp]
      rcases ho with rfl | rfl
      · have e : chainText Operator.scriptSymbol Operator.plus (n :: ns) ++ T =
            ' ' :: '+' :: (' ' :: (Nat.toDigits 10 n ++
              (chainText Operator.scriptSymbol Operator.plus ns ++ T))) := by
          simp [chainText, sepText, Operator.scriptSymbol]
        rw [e, Value.addRest, skipSpaces_space, skipSpaces_cons _ _ (by decide)]
        simp only [if_true, hmsp]
        rw [ih (acc + (n : ℚ)) fuel hlen]
        rfl
      · have e : chainText Operator.scriptSymbol Operator.minus (n :: ns) ++ T =
            ' ' :: '-' :: (' ' :: (Nat.toDigits 10 n ++
              (chainText Operator.scriptSymbol Operator.minus ns ++ T))) := by
          simp [chainText, sepText, Operator.scriptSymbol]
        rw [e, Value.addRest, skipSpaces_space, skipSpaces_cons _ _ (by decide)]
        have hne : ¬ ('-' = '+') := by decide
        simp only [if_neg hne, if_true, hmsp]
        rw [ih (acc - (n : ℚ)) fuel hlen]
        rfl


theorem chainText_script_length (o : Operator) (ns : List Nat) :
    ns.length ≤ (chainText Operator.scriptSymbol o ns).length := by
  induction ns with
  | nil => simp [chainText]
  | cons n ns ih =>
    simp only [chainText, sepText, List.length_append, List.length_cons, List.length_nil]
    omega

theorem additive_chain (prim : Value.Parser) (o : Operator)
    (hnum : ∀ n Y, (∀ c r, Y = c :: r → c.isDigit = false) →
      prim (Nat.toDigits 10 n ++ Y) = some ((n : ℚ), Y))
    (hsp : ∀ s, prim (' ' :: s) = prim s)
    (T : List Char) (hT : T = [] ∨ ∃ R, T = ')' :: R) (a : Nat) (ns : List Nat)
    (hdiv : o = Operator.divide → ∀ n ∈ ns, n ≠ 0) :
    Value.additive prim (Nat.toDigits 10 a ++ chainText Operator.scriptSymbol o ns ++ T) =
      some (ns.foldl (fun (acc : ℚ) (n : Nat) => o.apply acc (n : ℚ)) (a : ℚ), T) := by
  have hlen : ns.length < (chainText Operator.scriptSymbol o ns ++ T).length + 1 := by
    have := chainText_script_length o ns
    rw [List.length_append]
    omega
  rw [List.append_assoc]
  by_cases ho : o = Operator.plus ∨ o = Operator.minus
  · simp only [Value.additive, multiplicative_number prim o ho hnum T hT a ns]
    exact addRest_chain prim o ho hnum hsp T hT ns _ _ hlen
  · have ho2 : o = Operator.times ∨ o = Operator.divide := by
      cases o
      · exact absurd (Or.inl rfl) ho
      · exact absurd (Or.inr rfl) ho
      · exact Or.inl rfl
      · exact Or.inr rfl
    have hread := hnum a (chainText Operator.scriptSymbol o ns ++ T)
      (chainText_script_start o ns T (stop_nondigit T hT))
    simp only [Value.additive, Value.multiplicative, hread,
      mulRest_chain prim o ho2 hnum hsp T hT ns _ _ hlen hdiv]
    exact addRest_stop prim _ _ T hT

theorem additive_bin (prim : Value.Parser) (o : Operator) (ltext rtext : List Char)
    (lv rv : ℚ)
    (hl : ∀ Y, (∀ c r, Y = c :: r → c.isDigit = false) → prim (ltext ++ Y) = some (lv, Y))
    (hr : ∀ Y, (∀ c r, Y = c :: r → c.isDigit = false) → prim (rtext ++ Y) = some (rv, Y))
    (hsp : ∀ s, prim (' ' :: s) = prim s)
    (T : List Char) (hT : T = [] ∨ ∃ R, T = ')' :: R)
    (hdiv : o = Operator.divide → rv ≠ 0) :
    Value.additive prim (ltext ++ sepText Operator.scriptSymbol o ++ rtext ++ T) =
      some (o.apply lv rv, T) := by
  have e : ltext ++ sepText Operator.scriptSymbol o ++ rtext ++ T =
      ltext ++ (' ' :: o.scriptSymbol :: (' ' :: (rtext ++ T))) := by
    simp [sepText]
  have hlread := hl (' ' :: o.scriptSymbol :: (' ' :: (rtext ++ T)))
    (by intro c r h; cases h; decide)
  have hrread : prim (' ' :: (rtext ++ T)) = some (rv, T) := by
    rw [hsp]; exact hr T (stop_nondigit T hT)
  rw [e]
  cases o with
  | plus =>
    simp only [Operator.scriptSymbol] at hlread ⊢
    simp only [Value.additive, Value.multiplicative, hlread]
    rw [mulRest_additive prim _ _ '+' _ (Or.inl rfl)]
    simp only [List.length_cons]
    rw [Value.addRest, skipSpaces_space, skipSpaces_cons _ _ (by decide)]
    simp only [if_true, Value.multiplicative, hrread, mulRest_stop prim _ _ T hT]
    exact addRest_stop prim _ _ T hT
  | minus =>
    simp only [Operator.scriptSymbol] at hlread ⊢
    simp only [Value.additive, Value.multiplicative, hlread]
    rw [mulRest_additive prim _ _ '-' _ (Or.inr rfl)]
    simp only [List.length_cons]
    rw [Value.addRest, skipSpaces_space, skipSpaces_cons _ _ (by decide)]
    have hne : ¬ ('-' = '+') := by decide
    simp only [if_neg hne, if_true, Value.multiplicative, hrread, mulRest_stop prim _ _ T hT]
    exact addRest_stop prim _ _ T hT
  | times =>
    simp only [Operator.scriptSymbol] at hlread ⊢
    simp only [Value.additive, Value.multiplicative, hlread, List.length_cons]
    rw [Value.mulRest, skipSpaces_space, skipSpaces_cons _ _ (by decide)]
    simp only [if_true, hrread]
    rw [mulRest_stop prim _ _ T hT]
    exact addRest_stop prim _ _ T hT
  | divide =>
    have hrv : rv ≠ 0 := hdiv rfl
    simp only [Operator.scriptSymbol] at hlread ⊢
    simp only [Value.additive, Value.multiplicative, hlread, List.length_cons]
    rw [Value.mulRest, skipSpaces_space, skipSpaces_cons _ _ (by decide)]
    have hne : ¬ ('/' = '*') := by decide
    simp only [if_neg hne, if_true, hrread, if_neg hrv]
    rw [mulRest_stop prim _ _ T hT]
    exact addRest_stop prim _ _ T hT

theorem primary_reads (A : Atom) :
    ∀ (n : Nat), A.depth ≤ n → A.divisorsNonzero →
      ∀ Y, (∀ c r, Y = c :: r → c.isDigit = false) →
        Value.primary (Value.expression n) (A.text Operator.scriptSymbol ++ Y) =
          some (A.value, Y) := by
  induction A with
  | num k =>
    intro n _ _ Y hY
    exact primary_number _ k Y hY
  | chain o a ns =>
    intro n hn hd Y _
    cases n with
    | zero => simp [Atom.depth] at hn
    | succ n =>
      have hadd := additive_chain (Value.primary (Value.expression n)) o
        (fun k Y hY => primary_number _ k Y hY) (fun s => primary_space _ s)
        (')' :: Y) (Or.inr ⟨Y, rfl⟩) a ns hd
      have e : (Atom.chain o a ns).text Operator.scriptSymbol ++ Y =
          '(' :: (Nat.toDigits 10 a ++ chainText Operator.scriptSymbol o ns ++ ')' :: Y) := by
        simp [Atom.text]
      rw [e]
      exact primary_paren _ _ Y _ hadd
  | bin l o r ihl ihr =>
    intro n hn hd Y _
    cases n with
    | zero => simp [Atom.depth] at hn
    | succ n =>
      simp only [Atom.depth] at hn
      have hl := ihl n (by omega) hd.1
      have hr := ihr n (by omega) hd.2.1
      have hadd := additive_bin (Value.primary (Value.expression n)) o
        (l.text Operator.scriptSymbol) (r.text Operator.scriptSymbol) l.value r.value
        hl hr (fun s => primary_space _ s) (')' :: Y) (Or.inr ⟨Y, rfl⟩) hd.2.2
      have e : (Atom.bin l o r).text Operator.scriptSymbol ++ Y =
          '(' :: (l.text Operator.scriptSymbol ++ sepText Operator.scriptSymbol o ++
            r.text Operator.scriptSymbol ++ ')' :: Y) := by
        simp [Atom.text]
      rw [e]
      exact primary_paren _ _ Y _ hadd


theorem depth_le_length (sym : Operator → Char) (A : Atom) :
    A.depth ≤ (A.text sym).length := by
  induction A with
  | num n => simp [Atom.depth]
  | chain o a ns => simp [Atom.depth, Atom.text]
  | bin l o r ihl ihr =>
    simp only [Atom.depth, Atom.text, List.length_cons, List.length_append, sepText,
      List.length_nil]
    omega

theorem evalExpression_topText (A : Atom) (hd : A.divisorsNonzero) :
    Value.evalExpression (A.topText Operator.scriptSymbol) = some A.value := by
  have key : Value.expression ((A.topText Operator.scriptSymbol).length + 1)
      (A.topText Operator.scriptSymbol) = some (A.value, []) := by
    simp only [Value.expression]
    cases A with
    | num n =>
      have h := additive_chain
        (Value.primary (Value.expression (Nat.toDigits 10 n).length)) Operator.plus
        (fun k Y hY => primary_number _ k Y hY) (fun s => primary_space _ s)
        [] (Or.inl rfl) n [] (fun h => by cases h)
      simp only [chainText, List.append_nil, List.foldl_nil] at h
      exact h
    | chain o a ns =>
      have h := additive_chain
        (Value.primary (Value.expression
          ((Atom.chain o a ns).topText Operator.scriptSymbol).length)) o
        (fun k Y hY => primary_number _ k Y hY) (fun s => primary_space _ s)
        [] (Or.inl rfl) a ns hd
      simp only [List.append_nil] at h
      exact h
    | bin l o r =>
      have hlen_l : l.depth ≤ ((Atom.bin l o r).topText Operator.scriptSymbol).length := by
        have := depth_le_length Operator.scriptSymbol l
        simp only [Atom.topText, List.length_append]
        omega
      have hlen_r : r.depth ≤ ((Atom.bin l o r).topText Operator.scriptSymbol).length := by
        have := depth_le_length Operator.scriptSymbol r
        simp only [Atom.topText, List.length_append]
        omega
      have h := additive_bin
        (Value.primary (Value.expression
          ((Atom.bin l o r).topText Operator.scriptSymbol).length)) o
        (l.text Operator.scriptSymbol) (r.text Operator.scriptSymbol) l.value r.value
        (primary_reads l _ hlen_l hd.1) (primary_reads r _ hlen_r hd.2.1)
        (fun s => primary_space _ s) [] (Or.inl rfl) hd.2.2
      simp only [List.append_nil] at h
      exact h
  simp only [Value.evalExpression, key, Value.skipSpaces, if_true]

theorem map_toDigits (n : Nat) :
    (Nat.toDigits 10 n).map (fun c => if c = '×' then '*' else c) = Nat.toDigits 10 n := by
  have h := toDigits_ne n '×' (by decide)
  generalize Nat.toDigits 10 n = ds at h
  induction ds with
  | nil => rfl
  | cons d ds ih =>
    rw [List.map_cons, ih (fun c hc => h c (List.mem_cons_of_mem _ hc)),
      if_neg (h d (List.mem_cons_self _ _))]

theorem map_symbol (o : Operator) :
    (if o.symbol = '×' then '*' else o.symbol) = o.scriptSymbol := by
  cases o <;> decide

theorem map_chainText (o : Operator) (ns : List Nat) :
    (chainText Operator.symbol o ns).map (fun c => if c = '×' then '*' else c) =
      chainText Operator.scriptSymbol o ns := by
  induction ns with
  | nil => rfl
  | cons n ns ih =>
    simp only [chainText, sepText, List.map_append, List.map_cons, List.map_nil,
      map_toDigits, ih, map_symbol]
    simp

theorem map_text (A : Atom) :
    (A.text Operator.symbol).map (fun c => if c = '×' then '*' else c) =
      A.text Operator.scriptSymbol := by
  induction A with
  | num n => exact map_toDigits n
  | chain o a ns =>
    simp only [Atom.text, List.map_cons, List.map_append, List.map_nil, map_toDigits,
      map_chainText]
    simp
  | bin l o r ihl ihr =>
    simp only [Atom.text, sepText, List.map_cons, List.map_append, List.map_nil, ihl, ihr,
      map_symbol]
    simp

theorem map_topText (A : Atom) :
    (A.topText Operator.symbol).map (fun c => if c = '×' then '*' else c) =
      A.topText Operator.scriptSymbol := by
  cases A with
  | num n => exact map_toDigits n
  | chain o a ns =>
    simp only [Atom.topText, List.map_append, map_toDigits, map_chainText]
  | bin l o r =>
    simp only [Atom.topText, sepText, List.map_cons, List.map_append, List.map_nil, map_text,
      map_symbol]
    simp

theorem combine_value (l r : Value) (o : Operator) (v : Value)
    (hc : Value.combine l r o = some v) :
    (v.number : ℚ) = o.apply (l.number : ℚ) (r.number : ℚ) := by
  cases o with
  | plus =>
    rw [combine_plus] at hc
    cases hc
    simp [Operator.apply, Value.number]
  | times =>
    rw [combine_times] at hc
    cases hc
    simp [Operator.apply, Value.number]
  | minus =>
    rw [combine_minus] at hc
    by_cases h : l.number - r.number < 1
    · rw [if_pos h] at hc; cases hc
    · rw [if_neg h] at hc
      cases hc
      simp [Operator.apply, Value.number]
  | divide =>
    rw [combine_divide] at hc
    by_cases h : r.number ≠ 0 ∧ l.number % r.number = 0
    · rw [if_pos h] at hc
      cases hc
      have hr0 : (r.number : ℚ) ≠ 0 := by exact_mod_cast h.1
      show ((l.number / r.number : Int) : ℚ) = (l.number : ℚ) / (r.number : ℚ)
      exact Int.cast_div (Int.dvd_of_emod_eq_zero h.2) hr0
    · rw [if_neg h] at hc; cases hc

theorem built_numbersPositive (v : Value) (hv : v.built) : v.numbersPositive := by
  induction v with
  | leaf n => exact hv
  | derived n l r o s ihl ihr =>
    obtain ⟨hl, hr, hc⟩ := hv
    exact combine_numbersPositive l r o _ (ihl hl) (ihr hr) hc

theorem ofValue_sound (v : Value) (hv : v.built) :
    (Atom.ofValue v).value = (v.number : ℚ) ∧ (Atom.ofValue v).divisorsNonzero := by
  induction v with
  | leaf n =>
    have hn : 1 ≤ n := hv
    refine ⟨?_, trivial⟩
    simp only [Atom.ofValue, Atom.value, Value.number]
    have h : ((n.toNat : Int)) = n := Int.toNat_of_nonneg (by omega)
    exact_mod_cast congrArg (fun z : Int => (z : ℚ)) h
  | derived n l r o s ihl ihr =>
    obtain ⟨hl, hr, hc⟩ := hv
    obtain ⟨hlv, hld⟩ := ihl hl
    obtain ⟨hrv, hrd⟩ := ihr hr
    have hr1 := numbersPositive_number r (built_numbersPositive r hr)
    have hr0 : (r.number : ℚ) ≠ 0 := by
      have : r.number ≠ 0 := by omega
      exact_mod_cast this
    refine ⟨?_, hld, hrd, fun _ => ?_⟩
    · rw [combine_value l r o _ hc]
      simp only [Atom.ofValue, Atom.value, hlv, hrv]
    · rw [hrv]; exact hr0

theorem toExpression_pos (v : Value) (hv : v.built) : 0 < v.toExpression.length := by
  cases v with
  | leaf n =>
    simp only [Value.toExpression, numberToString_built n hv]
    exact List.length_pos.mpr (toDigits_spec _).1
  | derived n l r o s => simp [Value.toExpression]

theorem map_toExpression_derived (n : Int) (l r : Value) (o : Operator) (s : Nat) :
    (Value.derived n l r o s).toExpression.map (fun c => if c = '×' then '*' else c) =
      ('(' :: (l.toExpression.map (fun c => if c = '×' then '*' else c) ++ [')'])) ++
        sepText Operator.scriptSymbol o ++
        ('(' :: (r.toExpression.map (fun c => if c = '×' then '*' else c) ++ [')'])) := by
  simp only [Value.toExpression, sepText, List.map_append, List.map_cons, List.map_nil,
    map_symbol]
  simp

theorem wrapped_reads (v : Value) (hv : v.built) :
    ∀ (n : Nat), v.toExpression.length ≤ n →
      ∀ Y, (∀ c r, Y = c :: r → c.isDigit = false) →
        Value.primary (Value.expression n)
            (('(' :: (v.toExpression.map (fun c => if c = '×' then '*' else c) ++ [')'])) ++
              Y) =
          some ((v.number : ℚ), Y) := by
  induction v with
  | leaf k =>
    intro n hn Y _
    have hpos := toExpression_pos (Value.leaf k) hv
    cases n with
    | zero => omega
    | succ n =>
      have hk : 1 ≤ k := hv
      simp only [Value.toExpression, numberToString_built k hk, map_toDigits]
      have hadd := additive_chain (Value.primary (Value.expression n)) Operator.plus
        (fun m Y hY => primary_number _ m Y hY) (fun s => primary_space _ s)
        (')' :: Y) (Or.inr ⟨Y, rfl⟩) k.toNat [] (fun h => by cases h)
      simp only [chainText, List.append_nil, List.foldl_nil] at hadd
      have e : ('(' :: (Nat.toDigits 10 k.toNat ++ [')'])) ++ Y =
          '(' :: (Nat.toDigits 10 k.toNat ++ ')' :: Y) := by simp
      have hp := primary_paren (Value.expression (n + 1)) _ Y _ hadd
      rw [e, hp]
      have h : ((k.toNat : Int)) = k := Int.toNat_of_nonneg (by omega)
      simp only [Value.number, Option.some.injEq, Prod.mk.injEq, and_true]
      exact_mod_cast congrArg (fun z : Int => (z : ℚ)) h
  | derived k l r o s ihl ihr =>
    intro n hn Y _
    obtain ⟨hl, hr, hc⟩ := hv
    cases n with
    | zero => simp [Value.toExpression] at hn
    | succ n =>
      have hlen_l : l.toExpression.length ≤ n := by
        simp only [Value.toExpression, List.length_append, List.length_cons,
          List.length_nil] at hn
        omega
      have hlen_r : r.toExpression.length ≤ n := by
        simp only [Value.toExpression, List.length_append, List.length_cons,
          List.length_nil] at hn
        omega
      have hr1 := numbersPositive_number r (built_numbersPositive r hr)
      have hr0 : (r.number : ℚ) ≠ 0 := by
        have : r.number ≠ 0 := by omega
        exact_mod_cast this
      have hadd := additive_bin (Value.primary (Value.expression n)) o _ _ _ _
        (ihl hl n hlen_l) (ihr hr n hlen_r) (fun s => primary_space _ s)
        (')' :: Y) (Or.inr ⟨Y, rfl⟩) (fun _ => hr0)
      rw [map_toExpression_derived]
      have e : ('(' :: ((('(' :: (l.toExpression.map (fun c => if c = '×' then '*' else c) ++
            [')'])) ++ sepText Operator.scriptSymbol o ++
          ('(' :: (r.toExpression.map (fun c => if c = '×' then '*' else c) ++ [')']))) ++
            [')'])) ++ Y =
          '(' :: ((('(' :: (l.toExpression.map (fun c => if c = '×' then '*' else c) ++
            [')'])) ++ sepText Operator.scriptSymbol o ++
          ('(' :: (r.toExpression.map (fun c => if c = '×' then '*' else c) ++ [')']))) ++
            ')' :: Y) := by simp
      have hp := primary_paren (Value.expression (n + 1)) _ Y _ hadd
      rw [e, hp, combine_value l r o _ hc]

theorem evalExpression_toExpression (v : Value) (hv : v.built) :
    Value.evalExpression (v.toExpression.map (fun c => if c = '×' then '*' else c)) =
      some (v.number : ℚ) := by
  have key : Value.expression
      ((v.toExpression.map (fun c => if c = '×' then '*' else c)).length + 1)
      (v.toExpression.map (fun c => if c = '×' then '*' else c)) =
      some ((v.number : ℚ), []) := by
    simp only [Value.expression, List.length_map]
    cases v with
    | leaf k =>
      have hk : 1 ≤ k := hv
      simp only [Value.toExpression, numberToString_built k hk, map_toDigits]
      have hadd := additive_chain
        (Value.primary (Value.expression (Nat.toDigits 10 k.toNat).length)) Operator.plus
        (fun m Y hY => primary_number _ m Y hY) (fun s => primary_space _ s)
        [] (Or.inl rfl) k.toNat [] (fun h => by cases h)
      simp only [chainText, List.append_nil, List.foldl_nil] at hadd
      rw [hadd]
      have h : ((k.toNat : Int)) = k := Int.toNat_of_nonneg (by omega)
      simp only [Value.number, Option.some.injEq, Prod.mk.injEq, and_true]
      exact_mod_cast congrArg (fun z : Int => (z : ℚ)) h
    | derived k l r o s =>
      obtain ⟨hl, hr, hc⟩ := hv
      have hlen_l : l.toExpression.length ≤ (Value.derived k l r o s).toExpression.length := by
        simp only [Value.toExpression, List.length_append, List.length_cons,
          List.length_nil]
        omega
      have hlen_r : r.toExpression.length ≤ (Value.derived k l r o s).toExpression.length := by
        simp only [Value.toExpression, List.length_append, List.length_cons,
          List.length_nil]
        omega
      have hr1 := numbersPositive_number r (built_numbersPositive r hr)
      have hr0 : (r.number : ℚ) ≠ 0 := by
        have : r.number ≠ 0 := by omega
        exact_mod_cast this
      have hadd := additive_bin
        (Value.primary (Value.expression (Value.derived k l r o s).toExpression.length)) o
        _ _ _ _ (wrapped_reads l hl _ hlen_l) (wrapped_reads r hr _ hlen_r)
        (fun s => primary_space _ s) [] (Or.inl rfl) (fun _ => hr0)
      rw [map_toExpression_derived]
      simp only [List.append_nil] at hadd
      rw [hadd, combine_value l r o _ hc]
  simp only [Value.evalExpression, key, Value.skipSpaces, if_true]

theorem evalExpression_rounds (v : Value) (hv : v.built) (rounds : Nat) :
    Value.evalExpression
        ((Value.reduceLoop rounds
          (Value.replaceAll Value.matchLoneNumber 0 v.toExpression)).map
            (fun c => if c = '×' then '*' else c)) =
      some (v.number : ℚ) := by
  obtain ⟨hnum, hd⟩ := ofValue_sound v hv
  rw [strip_toExpression v hv]
  obtain ⟨B, htext, hval, hdiv⟩ := reduceLoop_topText rounds (Atom.ofValue v)
  rw [htext, map_topText, evalExpression_topText B (hdiv hd), hval, hnum]

/-- C7: for every Value built from leaves that are integers at least 1 by
successful calls of `combine`, `verify()` returns `true`: the canonical
string `toString()`, with `×` read as multiplication and evaluated with the
usual precedence and left associativity, has the value `number`.  The same
holds for the text after any number of rounds of the simplification loop and
for the fully parenthesised `toExpression()`, so removing the parentheses
around lone numbers and flattening chains never changes the value. -/
theorem verify_built (v : Value) (hv : v.built) :
    v.verify = some true ∧
    Value.evalExpression (v.toString.map (fun c => if c = '×' then '*' else c)) =
      some (v.number : ℚ) ∧
    (∀ rounds : Nat,
      Value.evalExpression
          ((Value.reduceLoop rounds
            (Value.replaceAll Value.matchLoneNumber 0 v.toExpression)).map
              (fun c => if c = '×' then '*' else c)) =
        some (v.number : ℚ)) ∧
    Value.evalExpression (v.toExpression.map (fun c => if c = '×' then '*' else c)) =
      some (v.number : ℚ) := by
  have heval : Value.evalExpression
      (v.toString.map (fun c => if c = '×' then '*' else c)) = some (v.number : ℚ) :=
    evalExpression_rounds v hv _
  refine ⟨?_, heval, evalExpression_rounds v hv, evalExpression_toExpression v hv⟩
  unfold Value.verify
  simp only []
  rw [heval]
  simp

/-- Witness for C7: `((3 + 4) + 5) × (12 / 4)`, whose canonical string is
`(3 + 4 + 5) × (12 / 4)`. -/
theorem verify_built_witness :
    (Value.derived 36
        (Value.derived 12 (Value.derived 7 (Value.leaf 3) (Value.leaf 4) Operator.plus 1)
          (Value.leaf 5) Operator.plus 2)
        (Value.derived 3 (Value.leaf 12) (Value.leaf 4) Operator.divide 1)
        Operator.times 4).built ∧
    (Value.derived 36
        (Value.derived 12 (Value.derived 7 (Value.leaf 3) (Value.leaf 4) Operator.plus 1)
          (Value.leaf 5) Operator.plus 2)
        (Value.derived 3 (Value.leaf 12) (Value.leaf 4) Operator.divide 1)
        Operator.times 4).verify = some true :=
  ⟨by decide,
   (verify_built
      (Value.derived 36
        (Value.derived 12 (Value.derived 7 (Value.leaf 3) (Value.leaf 4) Operator.plus 1)
          (Value.leaf 5) Operator.plus 2)
        (Value.derived 3 (Value.leaf 12) (Value.leaf 4) Operator.divide 1)
        Operator.times 4) (by decide)).1⟩


/-! ### The depth bound does not cut the search -/

theorem searchTraceBody_congr (rt1 rt2 : List Value → List Value) (values : List Value)
    (h : 2 < values.length → ∀ rv, rv.length + 1 = values.length → rt1 rv = rt2 rv) :
    searchTraceBody rt1 values = searchTraceBody rt2 values := by
  unfold searchTraceBody
  apply List.flatMap_congr
  intro i hi
  apply List.flatMap_congr
  intro j hj
  rw [List.mem_range] at hi
  rw [List.mem_range'_1] at hj
  have hi' : i < values.length := by omega
  have hj' : j < values.length := by omega
  rw [List.getElem?_eq_getElem hi', List.getElem?_eq_getElem hj']
  simp only []
  apply List.flatMap_congr
  intro op _
  cases hc : Value.combine (if values[i].number < values[j].number then values[j] else values[i])
      (if values[i].number < values[j].number then values[i] else values[j]) op with
  | none => rfl
  | some result =>
    simp only []
    by_cases h2 : values.length > 2
    · simp only [if_pos h2]
      rw [reduce_eq values i j (by omega) result]
      simp only []
      rw [h h2]
      rw [List.length_cons, List.length_eraseIdx_of_lt, List.length_eraseIdx_of_lt hj']
      · omega
      · rw [List.length_eraseIdx_of_lt hj']; omega
    · simp only [if_neg h2]

/-- Any two recursion-depth bounds of at least `values.length - 2` give the
same trace: the bound of `solveImpl` never cuts the search short. -/
theorem searchTrace_fuel_irrelevant (fuel1 : Nat) :
    ∀ (fuel2 : Nat) (values : List Value), values.length ≤ fuel1 + 2 →
      values.length ≤ fuel2 + 2 → searchTrace fuel1 values = searchTrace fuel2 values := by
  induction fuel1 with
  | zero =>
    intro fuel2 values h1 _
    cases fuel2 with
    | zero => rfl
    | succ fuel2 =>
      unfold searchTrace
      exact searchTraceBody_congr _ _ values (fun h2 => by omega)
  | succ fuel1 ih =>
    intro fuel2 values h1 h2
    cases fuel2 with
    | zero =>
      unfold searchTrace
      exact searchTraceBody_congr _ _ values (fun h => by omega)
    | succ fuel2 =>
      unfold searchTrace
      exact searchTraceBody_congr _ _ values
        (fun _ rv hlen => ih fuel2 rv (by omega) (by omega))

/-- With any recursion-depth bound of at least `values.length - 2`,
`solveImpl` completes, and with the same accumulator. -/
theorem solveImplFuel_fuel_irrelevant (fuel : Nat) (values : List Value) (target : Int)
    (s : Solns) (hfuel : values.length ≤ fuel + 2) :
    solveImplFuel fuel values target s = solveImpl values target s := by
  rw [solveImpl_eq_foldl, solveImplFuel_eq_foldl fuel values target hfuel,
    searchTrace_fuel_irrelevant fuel values.length values hfuel (by omega)]


/-! ### The loop of `toString` reaches its `break` -/

theorem expect_some (p s r : List Char) (h : Value.expect p s = some r) : s = p ++ r := by
  induction p generalizing s with
  | nil =>
    simp only [Value.expect, Option.some.injEq] at h
    rw [h]; rfl
  | cons c p ih =>
    cases s with
    | nil => simp [Value.expect] at h
    | cons d s =>
      simp only [Value.expect] at h
      by_cases hcd : c = d
      · rw [if_pos hcd] at h
        rw [hcd, ih s h]
        rfl
      · rw [if_neg hcd] at h; cases h

theorem takeDigits_eq (s : List Char) :
    (Value.takeDigits s).1 ++ (Value.takeDigits s).2 = s := by
  unfold Value.takeDigits
  rw [List.span_eq_take_drop]
  exact List.takeWhile_append_dropWhile _ s

theorem chainTail_eq (o : Char) (fuel : Nat) :
    ∀ s, (Value.chainTail o fuel s).1 ++ (Value.chainTail o fuel s).2 = s := by
  induction fuel with
  | zero => intro s; rfl
  | succ fuel ih =>
    intro s
    rw [Value.chainTail]
    cases he : Value.expect [' ', o, ' '] s with
    | none => rfl
    | some r =>
      simp only []
      by_cases hd : (Value.takeDigits r).1 = []
      · rw [if_pos hd]
        rfl
      · rw [if_neg hd]
        simp only []
        have h1 := expect_some _ _ _ he
        have h2 := takeDigits_eq r
        have h3 := ih (Value.takeDigits r).2
        rw [List.append_assoc, List.append_assoc, h3, h2, ← h1]

theorem matchLoneNumber_some (s rep : List Char) (len : Nat)
    (h : Value.matchLoneNumber s = some (rep, len)) :
    len = rep.length + 2 ∧ len ≤ s.length := by
  unfold Value.matchLoneNumber at h
  cases he : Value.expect ['('] s with
  | none => rw [he] at h; cases h
  | some r =>
    rw [he] at h
    simp only [] at h
    by_cases hd : (Value.takeDigits r).1 = []
    · rw [if_pos hd] at h; cases h
    · rw [if_neg hd] at h
      cases he2 : Value.expect [')'] (Value.takeDigits r).2 with
      | none => rw [he2] at h; cases h
      | some r2 =>
        rw [he2] at h
        simp only [Option.some.injEq, Prod.mk.injEq] at h
        obtain ⟨h1, h2⟩ := h
        have e1 := congrArg List.length (expect_some _ _ _ he)
        have e2 := congrArg List.length (takeDigits_eq r)
        have e3 := congrArg List.length (expect_some _ _ _ he2)
        have hrep := congrArg List.length h1
        rw [List.length_append] at e1 e2 e3
        simp only [List.length_cons, List.length_nil] at e1 e3
        constructor
        · omega
        · omega

theorem matchReduce_some (o : Char) (s rep : List Char) (len : Nat)
    (h : Value.matchReduce o s = some (rep, len)) :
    len = rep.length + 2 ∧ len ≤ s.length := by
  unfold Value.matchReduce at h
  cases he1 : Value.expect ['(', '('] s with
  | none => rw [he1] at h; cases h
  | some r1 =>
    rw [he1] at h
    simp only [] at h
    by_cases hd1 : (Value.takeDigits r1).1 = []
    · rw [if_pos hd1] at h; cases h
    · rw [if_neg hd1] at h
      cases he2 : Value.expect [' ', o, ' '] (Value.takeDigits r1).2 with
      | none => rw [he2] at h; cases h
      | some r2 =>
        rw [he2] at h
        simp only [] at h
        by_cases hd2 : (Value.takeDigits r2).1 = []
        · rw [if_pos hd2] at h; cases h
        · rw [if_neg hd2] at h
          cases he3 : Value.expect [')', ' ', o, ' ']
              (Value.chainTail o (Value.takeDigits r2).2.length (Value.takeDigits r2).2).2 with
          | none => rw [he3] at h; cases h
          | some r3 =>
            rw [he3] at h
            simp only [] at h
            by_cases hd3 : (Value.takeDigits r3).1 = []
            · rw [if_pos hd3] at h; cases h
            · rw [if_neg hd3] at h
              cases he4 : Value.expect [')'] (Value.takeDigits r3).2 with
              | none => rw [he4] at h; cases h
              | some r4 =>
                rw [he4] at h
                simp only [Option.some.injEq, Prod.mk.injEq] at h
                obtain ⟨h1, h2⟩ := h
                have e1 := congrArg List.length (expect_some _ _ _ he1)
                have e2 := congrArg List.length (takeDigits_eq r1)
                have e3 := congrArg List.length (expect_some _ _ _ he2)
                have e4 := congrArg List.length (takeDigits_eq r2)
                have e5 := congrArg List.length
                  (chainTail_eq o (Value.takeDigits r2).2.length (Value.takeDigits r2).2)
                have e6 := congrArg List.length (expect_some _ _ _ he3)
                have e7 := congrArg List.length (takeDigits_eq r3)
                have e8 := congrArg List.length (expect_some _ _ _ he4)
                have hrep := congrArg List.length h1
                rw [List.length_append] at e1 e2 e3 e4 e5 e6 e7 e8
                simp only [List.length_append, List.length_cons,
                  List.length_nil] at e1 e3 e6 e8 hrep h2
                constructor
                · omega
                · omega


theorem replaceAll_length_le (m : Value.Matcher)
    (hm : ∀ s rep len, m s = some (rep, len) → len = rep.length + 2 ∧ len ≤ s.length) :
    ∀ (s : List Char) (k : Nat), k ≤ s.length →
      (Value.replaceAll m k s).length + k ≤ s.length := by
  intro s
  induction s with
  | nil =>
    intro k hk
    simp only [List.length_nil, Nat.le_zero] at hk
    subst hk
    simp [Value.replaceAll]
  | cons c cs ih =>
    intro k hk
    cases k with
    | succ k =>
      rw [Value.replaceAll]
      have := ih k (by simp only [List.length_cons] at hk; omega)
      simp only [List.length_cons]
      omega
    | zero =>
      rw [Value.replaceAll]
      cases hmc : m (c :: cs) with
      | none =>
        have := ih 0 (Nat.zero_le _)
        simp only [List.length_cons]
        omega
      | some p =>
        obtain ⟨rep, len⟩ := p
        obtain ⟨h1, h2⟩ := hm _ _ _ hmc
        simp only [List.length_cons] at h2
        have := ih (len - 1) (by omega)
        simp only [List.length_append, List.length_cons]
        omega

theorem replaceAll_same_or_shorter (m : Value.Matcher)
    (hm : ∀ s rep len, m s = some (rep, len) → len = rep.length + 2 ∧ len ≤ s.length) :
    ∀ s : List Char,
      Value.replaceAll m 0 s = s ∨ (Value.replaceAll m 0 s).length < s.length := by
  intro s
  induction s with
  | nil => left; rfl
  | cons c cs ih =>
    rw [Value.replaceAll]
    cases hmc : m (c :: cs) with
    | none =>
      rcases ih with h | h
      · left; simp only [h]
      · right; simp only [List.length_cons]; omega
    | some p =>
      obtain ⟨rep, len⟩ := p
      obtain ⟨h1, h2⟩ := hm _ _ _ hmc
      simp only [List.length_cons] at h2
      have := replaceAll_length_le m hm cs (len - 1) (by omega)
      right
      simp only [List.length_append, List.length_cons]
      omega

theorem reducePass_same_or_shorter (s : List Char) :
    Value.reducePass s = s ∨ (Value.reducePass s).length < s.length := by
  unfold Value.reducePass
  simp only []
  have h1 := replaceAll_same_or_shorter (Value.matchReduce '+') (matchReduce_some '+') s
  have h2 := replaceAll_same_or_shorter (Value.matchReduce '-') (matchReduce_some '-')
    (Value.replaceAll (Value.matchReduce '+') 0 s)
  have h3 := replaceAll_same_or_shorter (Value.matchReduce '×') (matchReduce_some '×')
    (Value.replaceAll (Value.matchReduce '-') 0
      (Value.replaceAll (Value.matchReduce '+') 0 s))
  have h4 := replaceAll_same_or_shorter (Value.matchReduce '/') (matchReduce_some '/')
    (Value.replaceAll (Value.matchReduce '×') 0
      (Value.replaceAll (Value.matchReduce '-') 0
        (Value.replaceAll (Value.matchReduce '+') 0 s)))
  have l1 := replaceAll_length_le (Value.matchReduce '+') (matchReduce_some '+') s 0
    (Nat.zero_le _)
  have l2 := replaceAll_length_le (Value.matchReduce '-') (matchReduce_some '-')
    (Value.replaceAll (Value.matchReduce '+') 0 s) 0 (Nat.zero_le _)
  have l3 := replaceAll_length_le (Value.matchReduce '×') (matchReduce_some '×')
    (Value.replaceAll (Value.matchReduce '-') 0
      (Value.replaceAll (Value.matchReduce '+') 0 s)) 0 (Nat.zero_le _)
  have l4 := replaceAll_length_le (Value.matchReduce '/') (matchReduce_some '/')
    (Value.replaceAll (Value.matchReduce '×') 0
      (Value.replaceAll (Value.matchReduce '-') 0
        (Value.replaceAll (Value.matchReduce '+') 0 s))) 0 (Nat.zero_le _)
  rcases h1 with e1 | s1
  · rcases h2 with e2 | s2
    · rcases h3 with e3 | s3
      · rcases h4 with e4 | s4
        · left
          rw [e4, e3, e2, e1]
        · right; rw [e3, e2, e1] at s4 ⊢; exact s4
      · right; rw [e2, e1] at s3 l4 ⊢; omega
    · right; rw [e1] at s2 l3 l4 ⊢; omega
  · right; omega

/-- With more rounds than the text has characters, the loop of `toString`
stops at a text that one more round leaves unchanged. -/
theorem reduceLoop_fixpoint (fuel : Nat) :
    ∀ s : List Char, s.length < fuel →
      Value.reducePass (Value.reduceLoop fuel s) = Value.reduceLoop fuel s := by
  induction fuel with
  | zero => intro s hs; omega
  | succ fuel ih =>
    intro s hs
    rw [Value.reduceLoop]
    by_cases h : s = Value.reducePass s
    · rw [if_pos h, ← h, ← h]
    · rw [if_neg h]
      rcases reducePass_same_or_shorter s with e | hlt
      · exact absurd e.symm h
      · exact ih _ (by omega)

/-- The string returned by `toString` is unchanged by one more round of
the four replacements: the loop has reached its `break`. -/
theorem toString_reducePass (v : Value) : Value.reducePass v.toString = v.toString := by
  unfold Value.toString
  exact reduceLoop_fixpoint _ _ (Nat.lt_succ_self _)

/-! ### Steps and operator nodes -/

theorem combine_shape (l r : Value) (op : Operator) (v : Value)
    (hc : Value.combine l r op = some v) :
    ∃ n, v = Value.derived n l r op (l.steps + r.steps + 1) := by
  unfold Value.combine at hc
  simp only [] at hc
  split at hc
  · cases hc
  · cases hc
    exact ⟨_, rfl⟩

theorem combine_made (l r : Value) (op : Operator) (v : Value) (hl : l.made) (hr : r.made)
    (hc : Value.combine l r op = some v) : v.made := by
  obtain ⟨n, hv⟩ := combine_shape l r op v hc
  subst hv
  exact ⟨hl, hr, hc⟩

theorem made_steps (v : Value) (h : v.made) : v.steps = v.operatorNodes := by
  induction v with
  | leaf n => rfl
  | derived n l r o s ihl ihr =>
    obtain ⟨hl, hr, hc⟩ := h
    obtain ⟨m, hv⟩ := combine_shape l r o _ hc
    simp only [Value.derived.injEq] at hv
    simp only [Value.steps, Value.operatorNodes]
    rw [hv.2.2.2.2, ihl hl, ihr hr]

theorem considered_made (numbers : List Int) : ∀ v ∈ considered numbers, v.made := by
  intro v hv
  unfold considered at hv
  have hleaves : ∀ x ∈ numbers.map Value.leaf, x.made := by
    intro x hx
    obtain ⟨n, _, rfl⟩ := List.mem_map.mp hx
    exact trivial
  rcases List.mem_append.mp hv with h | h
  · exact hleaves v h
  · exact searchTrace_closed Value.made combine_made _ _ hleaves v h

/-- C13: `steps` is 0 for a Value created by the constructor; a Value
returned by `combine` has the two operands as `lhs` and `rhs` and
`steps = lhs.steps + rhs.steps + 1`; hence for every Value made by the
constructor and `combine` — in particular every Value the solver considers —
`steps` is the number of operator nodes of its derivation tree. -/
theorem steps_counts_operator_nodes :
    (∀ n : Int, (Value.leaf n).steps = 0 ∧ (Value.leaf n).operatorNodes = 0) ∧
    (∀ (l r : Value) (op : Operator) (v : Value), Value.combine l r op = some v →
      v.lhs = some l ∧ v.rhs = some r ∧ v.steps = l.steps + r.steps + 1) ∧
    (∀ v : Value, v.made → v.steps = v.operatorNodes) ∧
    (∀ (numbers : List Int), ∀ v ∈ considered numbers,
      v.made ∧ v.steps = v.operatorNodes) := by
  refine ⟨fun n => ⟨rfl, rfl⟩, ?_, made_steps, ?_⟩
  · intro l r op v hc
    obtain ⟨n, hv⟩ := combine_shape l r op v hc
    subst hv
    exact ⟨rfl, rfl, rfl⟩
  · intro numbers v hv
    exact ⟨considered_made numbers v hv, made_steps v (considered_made numbers v hv)⟩

/-- Witness for C13: `4 + 3`, made by `combine` from two starting
values, has one step and one operator node. -/
theorem steps_counts_operator_nodes_witness :
    Value.combine (Value.leaf 4) (Value.leaf 3) Operator.plus =
      some (Value.derived 7 (Value.leaf 4) (Value.leaf 3) Operator.plus 1) ∧
    (Value.derived 7 (Value.leaf 4) (Value.leaf 3) Operator.plus 1).made ∧
    ((Value.derived 7 (Value.leaf 4) (Value.leaf 3) Operator.plus 1).lhs =
        some (Value.leaf 4) ∧
      (Value.derived 7 (Value.leaf 4) (Value.leaf 3) Operator.plus 1).rhs =
        some (Value.leaf 3) ∧
      (Value.derived 7 (Value.leaf 4) (Value.leaf 3) Operator.plus 1).steps =
        (Value.leaf 4).steps + (Value.leaf 3).steps + 1) ∧
    (Value.derived 7 (Value.leaf 4) (Value.leaf 3) Operator.plus 1).steps =
      (Value.derived 7 (Value.leaf 4) (Value.leaf 3) Operator.plus 1).operatorNodes :=
  ⟨rfl, ⟨trivial, trivial, rfl⟩,
    steps_counts_operator_nodes.2.1 (Value.leaf 4) (Value.leaf 3) Operator.plus _ rfl,
    steps_counts_operator_nodes.2.2.1 _ ⟨trivial, trivial, rfl⟩⟩

/-! ### Termination of the search -/

theorem reduce_comm (values : List Value) (i j : Nat) (combined : Option Value) :
    reduce values i j combined = reduce values j i combined := by
  unfold reduce
  cases combined with
  | none => rfl
  | some c =>
    simp only []
    congr 2
    funext copy k
    by_cases h : k = i ∨ k = j
    · rw [if_pos h, if_pos (Or.symm h)]
    · rw [if_neg h, if_neg (fun h2 => h (Or.symm h2))]

theorem reduce_distinct (values : List Value) (i j : Nat) (hij : i ≠ j) (combined : Value) :
    reduce values i j (some combined) =
      some (combined :: (values.eraseIdx (max i j)).eraseIdx (min i j)) := by
  rcases Nat.lt_or_gt_of_ne hij with h | h
  · rw [max_eq_right (le_of_lt h), min_eq_left (le_of_lt h)]
    exact reduce_eq values i j h combined
  · rw [max_eq_left (le_of_lt h), min_eq_right (le_of_lt h), reduce_comm]
    exact reduce_eq values j i h combined

theorem solveImpl_short (values : List Value) (target : Int) (solns : Solns)
    (h : values.length < 2) : solveImpl values target solns = some solns := by
  rw [solveImpl_eq_foldl]
  have hnil : searchTrace values.length values = [] := by
    have h0 : values.length - 1 = 0 := by omega
    cases values.length <;> simp [searchTrace, searchTraceBody, h0]
  rw [hnil]
  rfl

/-- C19: for distinct in-range indices, `reduce` returns `combined`
followed by the other elements of `values` in their order, a list one
shorter than `values`; `solveImpl` completes on every list, already with
the recursion depth bounded by `values.length - 2`; and on a list of fewer
than two Values it returns the accumulator untouched. -/
theorem solveImpl_terminates :
    (∀ (values : List Value) (i j : Nat) (combined : Value),
      i ≠ j → i < values.length → j < values.length →
        reduce values i j (some combined) =
            some (combined :: (values.eraseIdx (max i j)).eraseIdx (min i j)) ∧
          (combined :: (values.eraseIdx (max i j)).eraseIdx (min i j)).length + 1 =
            values.length) ∧
    (∀ (values : List Value) (target : Int) (solns : Solns),
      ∃ r, solveImpl values target solns = some r ∧
        ∀ fuel, values.length - 2 ≤ fuel →
          solveImplFuel fuel values target solns = some r) ∧
    (∀ (values : List Value) (target : Int) (solns : Solns),
      values.length < 2 → solveImpl values target solns = some solns ∧
        searchTrace values.length values = []) := by
  refine ⟨?_, ?_, ?_⟩
  · intro values i j combined hij hi hj
    refine ⟨reduce_distinct values i j hij combined, ?_⟩
    have hmax : max i j < values.length := max_lt hi hj
    have hmin : min i j < max i j := by
      rcases Nat.lt_or_gt_of_ne hij with h | h
      · rw [max_eq_right (le_of_lt h), min_eq_left (le_of_lt h)]; exact h
      · rw [max_eq_left (le_of_lt h), min_eq_right (le_of_lt h)]; exact h
    rw [List.length_cons, List.length_eraseIdx_of_lt, List.length_eraseIdx_of_lt hmax]
    · omega
    · rw [List.length_eraseIdx_of_lt hmax]; omega
  · intro values target solns
    refine ⟨_, solveImpl_eq_foldl values target solns, ?_⟩
    intro fuel hfuel
    rw [solveImplFuel_fuel_irrelevant fuel values target solns (by omega)]
    exact solveImpl_eq_foldl values target solns
  · intro values target solns h
    refine ⟨solveImpl_short values target solns h, ?_⟩
    have h0 : values.length - 1 = 0 := by omega
    cases values.length <;> simp [searchTrace, searchTraceBody, h0]

/-- Witness for C19: merging the entries at indices 2 and 0 of three
values. -/
theorem solveImpl_terminates_witness :
    (2 : Nat) ≠ 0 ∧ 2 < [Value.leaf 1, Value.leaf 2, Value.leaf 3].length ∧
    0 < [Value.leaf 1, Value.leaf 2, Value.leaf 3].length ∧
    reduce [Value.leaf 1, Value.leaf 2, Value.leaf 3] 2 0 (some (Value.leaf 4)) =
      some [Value.leaf 4, Value.leaf 2] :=
  ⟨by decide, by decide, by decide,
    (solveImpl_terminates.1 [Value.leaf 1, Value.leaf 2, Value.leaf 3] 2 0 (Value.leaf 4)
      (by decide) (by decide) (by decide)).1⟩

/-! ### The fixpoint reached by `toString` -/

theorem reduceLoop_fuel_irrelevant (fuel1 : Nat) :
    ∀ (fuel2 : Nat) (s : List Char), s.length < fuel1 → s.length < fuel2 →
      Value.reduceLoop fuel1 s = Value.reduceLoop fuel2 s := by
  induction fuel1 with
  | zero => intro fuel2 s h1; omega
  | succ fuel1 ih =>
    intro fuel2 s h1 h2
    cases fuel2 with
    | zero => omega
    | succ fuel2 =>
      rw [Value.reduceLoop, Value.reduceLoop]
      by_cases h : s = Value.reducePass s
      · rw [if_pos h, if_pos h]
      · rw [if_neg h, if_neg h]
        rcases reducePass_same_or_shorter s with e | hlt
        · exact absurd e.symm h
        · exact ih fuel2 _ (by omega) (by omega)

theorem reducePass_fixed_each (s : List Char) (h : Value.reducePass s = s) :
    ∀ o ∈ ['+', '-', '×', '/'], Value.replaceAll (Value.matchReduce o) 0 s = s := by
  unfold Value.reducePass at h
  simp only [] at h
  have h1 := replaceAll_same_or_shorter (Value.matchReduce '+') (matchReduce_some '+') s
  have h2 := replaceAll_same_or_shorter (Value.matchReduce '-') (matchReduce_some '-')
    (Value.replaceAll (Value.matchReduce '+') 0 s)
  have h3 := replaceAll_same_or_shorter (Value.matchReduce '×') (matchReduce_some '×')
    (Value.replaceAll (Value.matchReduce '-') 0
      (Value.replaceAll (Value.matchReduce '+') 0 s))
  have h4 := replaceAll_same_or_shorter (Value.matchReduce '/') (matchReduce_some '/')
    (Value.replaceAll (Value.matchReduce '×') 0
      (Value.replaceAll (Value.matchReduce '-') 0
        (Value.replaceAll (Value.matchReduce '+') 0 s)))
  have l2 := replaceAll_length_le (Value.matchReduce '-') (matchReduce_some '-')
    (Value.replaceAll (Value.matchReduce '+') 0 s) 0 (Nat.zero_le _)
  have l3 := replaceAll_length_le (Value.matchReduce '×') (matchReduce_some '×')
    (Value.replaceAll (Value.matchReduce '-') 0
      (Value.replaceAll (Value.matchReduce '+') 0 s)) 0 (Nat.zero_le _)
  have l4 := replaceAll_length_le (Value.matchReduce '/') (matchReduce_some '/')
    (Value.replaceAll (Value.matchReduce '×') 0
      (Value.replaceAll (Value.matchReduce '-') 0
        (Value.replaceAll (Value.matchReduce '+') 0 s))) 0 (Nat.zero_le _)
  have hlen := congrArg List.length h
  have e1 : Value.replaceAll (Value.matchReduce '+') 0 s = s := by
    rcases h1 with e | lt
    · exact e
    · omega
  rw [e1] at h2 h3 h4 l2 l3 l4 h hlen
  have e2 : Value.replaceAll (Value.matchReduce '-') 0 s = s := by
    rcases h2 with e | lt
    · exact e
    · omega
  rw [e2] at h3 h4 l3 l4 h hlen
  have e3 : Value.replaceAll (Value.matchReduce '×') 0 s = s := by
    rcases h3 with e | lt
    · exact e
    · omega
  rw [e3] at h4 l4 h hlen
  intro o ho
  simp only [List.mem_cons, List.mem_singleton, List.mem_nil_iff, or_false] at ho
  rcases ho with rfl | rfl | rfl | rfl
  · exact e1
  · exact e2
  · exact e3
  · exact h

/-- C15: each of the four replacements, and so a round of the loop of
`toString`, either leaves the text as it is or strictly shortens it, so
the loop reaches its `break` within
`length + 1` rounds (any larger bound gives the same result); the returned
string is unchanged by one more round, and by each of the four replacements
on its own; a second call of `toString()` returns the same string. -/
theorem toString_terminates_at_fixpoint (v : Value) :
    (∀ (o : Char) (s : List Char),
      Value.replaceAll (Value.matchReduce o) 0 s = s ∨
        (Value.replaceAll (Value.matchReduce o) 0 s).length < s.length) ∧
    (∀ s : List Char, Value.reducePass s = s ∨ (Value.reducePass s).length < s.length) ∧
    (∀ (s : List Char) (fuel : Nat), s.length < fuel →
      Value.reduceLoop fuel s = Value.reduceLoop (s.length + 1) s ∧
        Value.reducePass (Value.reduceLoop fuel s) = Value.reduceLoop fuel s) ∧
    Value.reducePass v.toString = v.toString ∧
    (∀ o ∈ ['+', '-', '×', '/'],
      Value.replaceAll (Value.matchReduce o) 0 v.toString = v.toString) ∧
    (v.toStringMemo none).1 = v.toString ∧
    (v.toStringMemo (v.toStringMemo none).2).1 = (v.toStringMemo none).1 ∧
    (v.toStringMemo (v.toStringMemo none).2).2 = (v.toStringMemo none).2 := by
  refine ⟨fun o => replaceAll_same_or_shorter (Value.matchReduce o) (matchReduce_some o),
    reducePass_same_or_shorter, ?_, toString_reducePass v,
    reducePass_fixed_each _ (toString_reducePass v), rfl, rfl, rfl⟩
  intro s fuel hfuel
  exact ⟨reduceLoop_fuel_irrelevant fuel (s.length + 1) s hfuel (Nat.lt_succ_self _),
    reduceLoop_fixpoint fuel s hfuel⟩

/-- Witness for C15: the text `((1 + 2) + 3)` with a bound of 20 rounds,
and the two calls of `toString()` on `(2 + 1) + 3`. -/
theorem toString_terminates_at_fixpoint_witness :
    (['(', '(', '1', ' ', '+', ' ', '2', ')', ' ', '+', ' ', '3', ')'] : List Char).length
      < 20 ∧
    Value.reduceLoop 20 ['(', '(', '1', ' ', '+', ' ', '2', ')', ' ', '+', ' ', '3', ')'] =
      Value.reduceLoop
        ((['(', '(', '1', ' ', '+', ' ', '2', ')', ' ', '+', ' ', '3', ')'] :
          List Char).length + 1)
        ['(', '(', '1', ' ', '+', ' ', '2', ')', ' ', '+', ' ', '3', ')'] ∧
    ((Value.derived 6 (Value.derived 3 (Value.leaf 2) (Value.leaf 1) Operator.plus 1)
        (Value.leaf 3) Operator.plus 2).toStringMemo
      ((Value.derived 6 (Value.derived 3 (Value.leaf 2) (Value.leaf 1) Operator.plus 1)
        (Value.leaf 3) Operator.plus 2).toStringMemo none).2).1 =
      ((Value.derived 6 (Value.derived 3 (Value.leaf 2) (Value.leaf 1) Operator.plus 1)
        (Value.leaf 3) Operator.plus 2).toStringMemo none).1 :=
  ⟨by decide,
    ((toString_terminates_at_fixpoint (Value.leaf 1)).2.2.1
      ['(', '(', '1', ' ', '+', ' ', '2', ')', ' ', '+', ' ', '3', ')'] 20 (by decide)).1,
    (toString_terminates_at_fixpoint
      (Value.derived 6 (Value.derived 3 (Value.leaf 2) (Value.leaf 1) Operator.plus 1)
        (Value.leaf 3) Operator.plus 2)).2.2.2.2.2.2.1⟩

/-! ### The constructed values come from the pools -/

/-- C12: with `numBigOnes ≤ numSelections`, `numBigOnes` at most the size
of the big pool and `numSelections − numBigOnes` at most the size of the
little pool, for every random source `values` has length `numSelections`,
every entry is defined, its first `numBigOnes` entries form a sub-multiset
of the big pool and the remaining entries a sub-multiset of the little
pool; `shuffle` only permutes its array. -/
theorem construct_values_from_pools (rng : Nat → Nat) (target : Option Int)
    (numBigOnes numSelections : Option Nat) (bigOnes littleOnes : Option (List Int))
    (hle : numBigOnes.getD 2 ≤ numSelections.getD 6)
    (hbig : numBigOnes.getD 2 ≤ (bigOnes.getD standardBigOnes).length)
    (hlittle : numSelections.getD 6 - numBigOnes.getD 2 ≤
      (littleOnes.getD standardLittleOnes).length) :
    (∃ bigs littles : List Int,
      (NumberPuzzle.construct rng target numBigOnes numSelections bigOnes
          littleOnes).puzzle.values = (bigs ++ littles).map some ∧
      bigs.length = numBigOnes.getD 2 ∧
      littles.length = numSelections.getD 6 - numBigOnes.getD 2 ∧
      (bigs : Multiset Int) ≤ ((bigOnes.getD standardBigOnes : List Int) : Multiset Int) ∧
      (littles : Multiset Int) ≤
        ((littleOnes.getD standardLittleOnes : List Int) : Multiset Int)) ∧
    (NumberPuzzle.construct rng target numBigOnes numSelections bigOnes
        littleOnes).puzzle.values.length = numSelections.getD 6 ∧
    (∀ (a : List Int) (draws : Nat), (shuffle rng a draws).1.Perm a) := by
  obtain ⟨B, L, hB, hL, -, hvals, -, -, hBp, hLp⟩ :=
    construct_values rng target numBigOnes numSelections bigOnes littleOnes
  have hb : numBigOnes.getD 2 ≤ B.reverse.length := by rw [List.length_reverse, hB]; exact hbig
  have hl : numSelections.getD 6 - numBigOnes.getD 2 ≤ L.reverse.length := by
    rw [List.length_reverse, hL]; exact hlittle
  rw [range_map_getElem? B.reverse _ hb, range_map_getElem? L.reverse _ hl,
    ← List.map_append] at hvals
  refine ⟨⟨B.reverse.take (numBigOnes.getD 2),
    L.reverse.take (numSelections.getD 6 - numBigOnes.getD 2), hvals, ?_, ?_, ?_, ?_⟩, ?_,
    shuffle_perm rng⟩
  · rw [List.length_take]; omega
  · rw [List.length_take]; omega
  · rw [Multiset.coe_le]
    exact (List.take_sublist _ _).subperm.trans ((List.reverse_perm B).trans hBp).subperm
  · rw [Multiset.coe_le]
    exact (List.take_sublist _ _).subperm.trans ((List.reverse_perm L).trans hLp).subperm
  · rw [hvals, List.length_map, List.length_append, List.length_take, List.length_take]
    omega

/-- Witness for C12: the standard game (two big numbers, six selections,
the standard pools) with the random source `n ↦ n`. -/
theorem construct_values_from_pools_witness :
    (none : Option Nat).getD 2 ≤ (none : Option Nat).getD 6 ∧
    (none : Option Nat).getD 2 ≤ ((none : Option (List Int)).getD standardBigOnes).length ∧
    (none : Option Nat).getD 6 - (none : Option Nat).getD 2 ≤
      ((none : Option (List Int)).getD standardLittleOnes).length ∧
    (∃ bigs littles : List Int,
      (NumberPuzzle.construct (fun n => n) (some 500) none none none none).puzzle.values =
        (bigs ++ littles).map some ∧
      bigs.length = 2 ∧ littles.length = 4 ∧
      (bigs : Multiset Int) ≤ ((standardBigOnes : List Int) : Multiset Int) ∧
      (littles : Multiset Int) ≤ ((standardLittleOnes : List Int) : Multiset Int)) ∧
    (NumberPuzzle.construct (fun n => n) (some 500) none none none none).puzzle.values.length
      = 6 :=
  ⟨by decide, by decide, by decide,
   (construct_values_from_pools (fun n => n) (some 500) none none none none
      (by decide) (by decide) (by decide)).1,
   (construct_values_from_pools (fun n => n) (some 500) none none none none
      (by decide) (by decide) (by decide)).2.1⟩

/-! ### Counting the runs of `shuffle` -/

theorem mem_choiceSequences (n k : Nat) (js : List Nat) :
    js ∈ choiceSequences n k ↔ js.length = k ∧ ∀ j ∈ js, j < n := by
  induction k generalizing js with
  | zero =>
    simp only [choiceSequences, List.mem_singleton]
    constructor
    · rintro rfl; simp
    · rintro ⟨h, -⟩; exact List.length_eq_zero.mp h
  | succ k ih =>
    simp only [choiceSequences, List.mem_flatMap, List.mem_range, List.mem_map]
    constructor
    · rintro ⟨j, hj, js2, hjs2, rfl⟩
      obtain ⟨h1, h2⟩ := (ih js2).mp hjs2
      refine ⟨by simp [h1], ?_⟩
      intro x hx
      rcases List.mem_cons.mp hx with rfl | hx
      · exact hj
      · exact h2 x hx
    · rintro ⟨h1, h2⟩
      cases js with
      | nil => simp at h1
      | cons j js2 =>
        refine ⟨j, h2 j (List.mem_cons_self _ _), js2, (ih js2).mpr ⟨?_, ?_⟩, rfl⟩
        · simpa using h1
        · intro x hx; exact h2 x (List.mem_cons_of_mem _ hx)

theorem shuffle_foldl_congr (rng1 rng2 : Nat → Nat) (ks : List Nat) :
    ∀ (st1 st2 : List Int × Nat), st1.1 = st2.1 →
      (∀ m, m < ks.length → rng1 (st1.2 + m) % st1.1.length = rng2 (st2.2 + m) % st1.1.length) →
      (ks.foldl (fun (st : List Int × Nat) i =>
          ((swap st.1 i (random rng1 st.2 st.1.length).1, (random rng1 st.2 st.1.length).2) :
            List Int × Nat)) st1).1 =
        (ks.foldl (fun (st : List Int × Nat) i =>
          ((swap st.1 i (random rng2 st.2 st.1.length).1, (random rng2 st.2 st.1.length).2) :
            List Int × Nat)) st2).1 := by
  induction ks with
  | nil => intro st1 st2 h _; exact h
  | cons k ks ih =>
    intro st1 st2 h hr
    rw [List.foldl_cons, List.foldl_cons]
    have h0 := hr 0 (by simp)
    simp only [Nat.add_zero] at h0
    have hrand : (random rng1 st1.2 st1.1.length).1 = (random rng2 st2.2 st2.1.length).1 := by
      rw [← h]
      unfold random
      simp only []
      by_cases hn : st1.1.length = 0
      · rw [if_pos hn, if_pos hn]
      · rw [if_neg hn, if_neg hn, h0]
    apply ih
    · simp only []
      rw [hrand, h]
    · intro m hm
      simp only [swap_length, random]
      have := hr (m + 1) (by simp only [List.length_cons]; omega)
      rw [show st1.2 + 1 + m = st1.2 + (m + 1) by omega,
        show st2.2 + 1 + m = st2.2 + (m + 1) by omega]
      exact this

/-- Every run of `shuffle(a)` is the run fixed by the results of its calls
of `random`, and these results form one of the index-choice sequences. -/
theorem shuffle_eq_shuffleWith (rng : Nat → Nat) (a : List Int) (draws : Nat) :
    (shuffle rng a draws).1 =
        shuffleWith ((List.range a.length).map fun i => rng (draws + i) % a.length) a ∧
      ((List.range a.length).map fun i => rng (draws + i) % a.length) ∈
        choiceSequences a.length a.length := by
  constructor
  · unfold shuffleWith shuffle
    apply shuffle_foldl_congr
    · rfl
    · intro m hm
      rw [List.length_range] at hm
      simp only [Nat.zero_add]
      rw [List.getD_eq_getElem?_getD, List.getElem?_map, List.getElem?_range hm]
      simp
  · rw [mem_choiceSequences]
    refine ⟨by simp, ?_⟩
    intro j hj
    obtain ⟨i, hi, rfl⟩ := List.mem_map.mp hj
    rw [List.mem_range] at hi
    exact Nat.mod_lt _ (by omega)

/-- C11 fails on the code: `shuffle` draws every index from the whole range
`0 .. n-1`, so an array of three distinct elements has 27 equally likely
runs; 4 of them leave the array in its original order and 5 of them leave
`[1, 3, 2]`.  The six permutations are not produced by the same number of
index-choice sequences. -/
theorem shuffle_counts_unequal :
    (choiceSequences 3 3).length = 27 ∧
    shuffleCount [1, 2, 3] [1, 2, 3] = 4 ∧
    shuffleCount [1, 2, 3] [1, 3, 2] = 5 ∧
    shuffleCount [1, 2, 3] [1, 2, 3] ≠ shuffleCount [1, 2, 3] [1, 3, 2] ∧
    shuffleWith [1, 1, 1] [1, 2, 3] = [2, 3, 1] := by
  decide

/-! ### The list of steps -/

theorem isDigit_bounds (c : Char) (h : c.isDigit = true) : 48 ≤ c.toNat ∧ c.toNat ≤ 57 := by
  simp only [Char.isDigit, Bool.and_eq_true, decide_eq_true_eq] at h
  exact ⟨h.1, h.2⟩

theorem isDigit_not_trimSpace (c : Char) (h : c.isDigit = true) : isTrimSpace c = false := by
  have := isDigit_bounds c h
  unfold isTrimSpace
  rw [decide_eq_false_iff_not]
  omega

theorem numberToString_chars (n : Int) :
    Value.numberToString n ≠ [] ∧
      ∀ c ∈ Value.numberToString n, c.isDigit = true ∨ c = '-' := by
  unfold Value.numberToString
  split
  · refine ⟨by simp, ?_⟩
    intro c hc
    rcases List.mem_cons.mp hc with rfl | hc
    · exact Or.inr rfl
    · exact Or.inl ((toDigits_spec _).2.1 c hc)
  · exact ⟨(toDigits_spec _).1, fun c hc => Or.inl ((toDigits_spec _).2.1 c hc)⟩

theorem numberToString_solid (n : Int) :
    ∀ c ∈ Value.numberToString n, isTrimSpace c = false ∧ c ≠ '\n' := by
  intro c hc
  rcases (numberToString_chars n).2 c hc with h | rfl
  · refine ⟨isDigit_not_trimSpace c h, ?_⟩
    rintro rfl
    exact absurd h (by decide)
  · exact ⟨by decide, by decide⟩

theorem framed_of_ends (s t : List Char) (mid : List Char) (hs : s ≠ []) (ht : t ≠ [])
    (hsc : ∀ c ∈ s, isTrimSpace c = false) (htc : ∀ c ∈ t, isTrimSpace c = false) :
    Framed (s ++ mid ++ t) := by
  constructor
  · cases s with
    | nil => exact absurd rfl hs
    | cons a s2 => exact ⟨a, rfl, hsc a (List.mem_cons_self _ _)⟩
  · refine ⟨t.getLast ht, ?_, htc _ (List.getLast_mem ht)⟩
    rw [List.getLast?_append_of_ne_nil _ ht, List.getLast?_eq_getLast _ ht]

theorem framed_ne_nil (s : List Char) (h : Framed s) : s ≠ [] := by
  obtain ⟨⟨a, ha, -⟩, -⟩ := h
  rintro rfl
  simp at ha

theorem framed_append (s t mid : List Char) (hs : Framed s) (ht : Framed t) :
    Framed (s ++ mid ++ t) := by
  obtain ⟨⟨a, ha, hsa⟩, -⟩ := hs
  obtain ⟨-, ⟨z, hz, htz⟩⟩ := ht
  have htne : t ≠ [] := by rintro rfl; simp at hz
  constructor
  · refine ⟨a, ?_, hsa⟩
    cases s with
    | nil => simp at ha
    | cons b s2 => simpa using ha
  · exact ⟨z, by rw [List.getLast?_append_of_ne_nil _ htne, hz], htz⟩

theorem stepLine_framed (l r : Value) (o : Operator) (n : Int) :
    Framed (Value.numberToString l.number ++ [' ', o.symbol, ' '] ++
        Value.numberToString r.number ++ [' ', '=', ' '] ++ Value.numberToString n) ∧
      '\n' ∉ (Value.numberToString l.number ++ [' ', o.symbol, ' '] ++
        Value.numberToString r.number ++ [' ', '=', ' '] ++ Value.numberToString n) := by
  constructor
  · have h := framed_of_ends (Value.numberToString l.number) (Value.numberToString n)
      ([' ', o.symbol, ' '] ++ Value.numberToString r.number ++ [' ', '=', ' '])
      (numberToString_chars _).1 (numberToString_chars _).1
      (fun c hc => (numberToString_solid _ c hc).1) (fun c hc => (numberToString_solid _ c hc).1)
    simpa [List.append_assoc] using h
  · intro hmem
    simp only [List.mem_append, List.mem_cons, List.mem_singleton, List.mem_nil_iff,
      or_false] at hmem
    have hsym : '\n' ≠ o.symbol := by cases o <;> decide
    rcases hmem with (((h | h) | h) | h) | h
    · exact (numberToString_solid _ _ h).2 rfl
    · rcases h with h | h | h
      · exact absurd h (by decide)
      · exact hsym h
      · exact absurd h (by decide)
    · exact (numberToString_solid _ _ h).2 rfl
    · rcases h with h | h | h <;> exact absurd h (by decide)
    · exact (numberToString_solid _ _ h).2 rfl

theorem stepLines_framed (v : Value) :
    ∀ line ∈ v.stepLines, Framed line ∧ '\n' ∉ line := by
  induction v with
  | leaf n => intro line h; simp [Value.stepLines] at h
  | derived n l r o s ihl ihr =>
    intro line h
    simp only [Value.stepLines, List.mem_append, List.mem_singleton] at h
    rcases h with (h | h) | h
    · exact ihl line h
    · exact ihr line h
    · rw [h]; exact stepLine_framed l r o n

theorem stepsText_eq (v : Value) :
    v.stepsText = v.stepLines.flatMap (fun line => line ++ ['\n']) := by
  induction v with
  | leaf n => rfl
  | derived n l r o s ihl ihr =>
    simp only [Value.stepsText, Value.stepLines, ihl, ihr, List.flatMap_append,
      List.flatMap_cons, List.flatMap_nil, List.append_nil, List.append_assoc]

theorem joinLines_cons_cons (a b : List Char) (rest : List (List Char)) :
    joinLines (a :: b :: rest) = a ++ '\n' :: joinLines (b :: rest) := rfl

theorem flatMap_eq_joinLines (lines : List (List Char)) (h : lines ≠ []) :
    lines.flatMap (fun line => line ++ ['\n']) = joinLines lines ++ ['\n'] := by
  induction lines with
  | nil => exact absurd rfl h
  | cons a rest ih =>
    cases rest with
    | nil => simp [joinLines]
    | cons b rest =>
      rw [List.flatMap_cons, ih (by simp), joinLines_cons_cons]
      simp

theorem joinLines_framed (lines : List (List Char)) (h : lines ≠ [])
    (hl : ∀ line ∈ lines, Framed line) : Framed (joinLines lines) := by
  induction lines with
  | nil => exact absurd rfl h
  | cons a rest ih =>
    cases rest with
    | nil => exact hl a (List.mem_cons_self _ _)
    | cons b rest =>
      rw [joinLines_cons_cons]
      have h1 := framed_append a (joinLines (b :: rest)) ['\n']
        (hl a (List.mem_cons_self _ _))
        (ih (by simp) (fun line hline => hl line (List.mem_cons_of_mem _ hline)))
      simpa using h1

theorem trim_framed (s : List Char) (h : Framed s) : trim (s ++ ['\n']) = s := by
  obtain ⟨⟨a, ha, hsa⟩, ⟨z, hz, hsz⟩⟩ := h
  unfold trim
  cases s with
  | nil => simp at ha
  | cons b s2 =>
    simp only [List.head?_cons, Option.some.injEq] at ha
    subst ha
    rw [List.cons_append, List.dropWhile_cons_of_neg (by simp [hsa]), ← List.cons_append,
      List.reverse_append, List.reverse_singleton, List.singleton_append,
      List.dropWhile_cons_of_pos (by decide)]
    have hrev : (b :: s2).reverse.head? = some z := by rw [List.head?_reverse]; exact hz
    cases hr : (b :: s2).reverse with
    | nil => rw [hr] at hrev; simp at hrev
    | cons y ys =>
      rw [hr] at hrev
      simp only [List.head?_cons, Option.some.injEq] at hrev
      subst hrev
      rw [List.dropWhile_cons_of_neg (by simp [hsz]), ← hr, List.reverse_reverse]

theorem stepLines_length (v : Value) : v.stepLines.length = v.operatorNodes := by
  induction v with
  | leaf n => rfl
  | derived n l r o s ihl ihr =>
    simp only [Value.stepLines, Value.operatorNodes, List.length_append, List.length_cons,
      List.length_nil, ihl, ihr]

/-- C14: for a starting value `toListOfSteps()` is the single line
`n = n`; for a derived Value it is the lines of `lhs`, then the lines of
`rhs`, then the line `lhs.number operator rhs.number = number`, joined by
newlines with nothing after the last line; no line contains a newline; and
for a Value made by the constructor and `combine` there are exactly
`steps` lines. -/
theorem toListOfSteps_post_order :
    (∀ n : Int, (Value.leaf n).toListOfSteps =
      Value.numberToString n ++ [' ', '=', ' '] ++ Value.numberToString n) ∧
    (∀ (n : Int) (l r : Value) (o : Operator) (s : Nat),
      (Value.derived n l r o s).toListOfSteps =
          joinLines (Value.derived n l r o s).stepLines ∧
        (Value.derived n l r o s).stepLines =
          l.stepLines ++ r.stepLines ++
            [Value.numberToString l.number ++ [' ', o.symbol, ' '] ++
              Value.numberToString r.number ++ [' ', '=', ' '] ++ Value.numberToString n] ∧
        (Value.derived n l r o s).toListOfSteps.getLast? ≠ some '\n') ∧
    (∀ v : Value, ∀ line ∈ v.stepLines, line ≠ [] ∧ '\n' ∉ line) ∧
    (∀ v : Value, v.made → v.stepLines.length = v.steps) := by
  refine ⟨fun n => rfl, ?_, ?_, ?_⟩
  · intro n l r o s
    have hne : (Value.derived n l r o s).stepLines ≠ [] := by simp [Value.stepLines]
    have hfr := joinLines_framed _ hne (fun line h => (stepLines_framed _ line h).1)
    have heq : (Value.derived n l r o s).toListOfSteps =
        joinLines (Value.derived n l r o s).stepLines := by
      rw [Value.toListOfSteps, stepsText_eq, flatMap_eq_joinLines _ hne]
      exact trim_framed _ hfr
    refine ⟨heq, rfl, ?_⟩
    rw [heq]
    obtain ⟨-, ⟨z, hz, hsz⟩⟩ := hfr
    rw [hz]
    intro h
    simp only [Option.some.injEq] at h
    subst h
    exact absurd hsz (by decide)
  · intro v line h
    exact ⟨framed_ne_nil line (stepLines_framed v line h).1, (stepLines_framed v line h).2⟩
  · intro v hv
    rw [stepLines_length, made_steps v hv]

/-- Witness for C14: `(4 + 3) × 2` lists the two lines `4 + 3 = 7` and
`7 × 2 = 14`. -/
theorem toListOfSteps_post_order_witness :
    (Value.derived 14 (Value.derived 7 (Value.leaf 4) (Value.leaf 3) Operator.plus 1)
      (Value.leaf 2) Operator.times 2).made ∧
    (Value.derived 14 (Value.derived 7 (Value.leaf 4) (Value.leaf 3) Operator.plus 1)
      (Value.leaf 2) Operator.times 2).stepLines =
      [['4', ' ', '+', ' ', '3', ' ', '=', ' ', '7'],
        ['7', ' ', '×', ' ', '2', ' ', '=', ' ', '1', '4']] ∧
    (Value.derived 14 (Value.derived 7 (Value.leaf 4) (Value.leaf 3) Operator.plus 1)
      (Value.leaf 2) Operator.times 2).toListOfSteps =
      joinLines (Value.derived 14 (Value.derived 7 (Value.leaf 4) (Value.leaf 3)
        Operator.plus 1) (Value.leaf 2) Operator.times 2).stepLines ∧
    (Value.derived 14 (Value.derived 7 (Value.leaf 4) (Value.leaf 3) Operator.plus 1)
      (Value.leaf 2) Operator.times 2).stepLines.length =
      (Value.derived 14 (Value.derived 7 (Value.leaf 4) (Value.leaf 3) Operator.plus 1)
        (Value.leaf 2) Operator.times 2).steps :=
  ⟨⟨⟨trivial, trivial, rfl⟩, trivial, rfl⟩, by decide,
    (toListOfSteps_post_order.2.1 14
      (Value.derived 7 (Value.leaf 4) (Value.leaf 3) Operator.plus 1) (Value.leaf 2)
      Operator.times 2).1,
    toListOfSteps_post_order.2.2.2 _ ⟨⟨trivial, trivial, rfl⟩, trivial, rfl⟩⟩

/-! ### Soundness of the search: every number is used at most once -/

theorem map_eraseIdx {α β : Type} (f : α → β) (l : List α) (i : Nat) :
    (l.eraseIdx i).map f = (l.map f).eraseIdx i := by
  induction l generalizing i with
  | nil => rfl
  | cons x xs ih =>
    cases i with
    | zero => rfl
    | succ i => simp [List.eraseIdx_cons_succ, ih]

theorem perm_two_eraseIdx {α : Type} (l : List α) (i j : Nat) (hij : i < j) (a b : α)
    (hi : l[i]? = some a) (hj : l[j]? = some b) :
    (b :: a :: (l.eraseIdx j).eraseIdx i).Perm l := by
  have h1 : (b :: l.eraseIdx j).Perm l := perm_cons_eraseIdx l j b hj
  have h2 : (l.eraseIdx j)[i]? = some a := by
    rw [List.getElem?_eraseIdx_of_lt _ _ _ hij]; exact hi
  have h3 : (a :: (l.eraseIdx j).eraseIdx i).Perm (l.eraseIdx j) :=
    perm_cons_eraseIdx _ i a h2
  exact (List.Perm.cons b h3).trans h1

theorem poolSound_step (numbers : List Int) (placed : List (Value × List Nat))
    (h : PoolSound numbers placed) (i j : Nat) (hij : i < j) (vi vj : Value)
    (hi : (placed.map Prod.fst)[i]? = some vi) (hj : (placed.map Prod.fst)[j]? = some vj)
    (op : Operator) (result : Value)
    (hc : Value.combine (if vi.number < vj.number then vj else vi)
      (if vi.number < vj.number then vi else vj) op = some result) :
    ∃ ps, PoolSound numbers ((result, ps) :: (placed.eraseIdx j).eraseIdx i) := by
  obtain ⟨hall, hnodup, hvalid⟩ := h
  rw [List.getElem?_map] at hi hj
  cases hai : placed[i]? with
  | none => rw [hai] at hi; cases hi
  | some ai =>
  cases haj : placed[j]? with
  | none => rw [haj] at hj; cases hj
  | some aj =>
  rw [hai] at hi
  rw [haj] at hj
  simp only [Option.map_some', Option.some.injEq] at hi hj
  have hmi : ai ∈ placed := List.mem_iff_getElem?.mpr ⟨i, hai⟩
  have hmj : aj ∈ placed := List.mem_iff_getElem?.mpr ⟨j, haj⟩
  obtain ⟨hli, hoi⟩ := hall ai hmi
  obtain ⟨hlj, hoj⟩ := hall aj hmj
  rw [hi] at hli hoi
  rw [hj] at hlj hoj
  have hperm := perm_two_eraseIdx placed i j hij ai aj hai haj
  have hpermS : (aj.2 ++ (ai.2 ++ (((placed.eraseIdx j).eraseIdx i).map Prod.snd).flatten)).Perm
      (placed.map Prod.snd).flatten := by
    have := (hperm.map Prod.snd).flatten
    simpa using this
  have hrest : ∀ a ∈ (placed.eraseIdx j).eraseIdx i, a ∈ placed := fun a ha =>
    List.mem_of_mem_eraseIdx (List.mem_of_mem_eraseIdx ha)
  by_cases hlt : vi.number < vj.number
  · simp only [if_pos hlt] at hc
    obtain ⟨n, hres⟩ := combine_shape _ _ _ _ hc
    refine ⟨aj.2 ++ ai.2, ?_, ?_, ?_⟩
    · intro a ha
      rcases List.mem_cons.mp ha with rfl | ha
      · subst hres
        simp only [Value.leafNumbers, Value.lhsNotSmaller, List.map_append, hli, hlj]
        exact ⟨trivial, le_of_lt hlt, hoj, hoi⟩
      · exact hall a (hrest a ha)
    · have hp2 : ((((result, aj.2 ++ ai.2) :: (placed.eraseIdx j).eraseIdx i).map
          Prod.snd).flatten).Perm (placed.map Prod.snd).flatten := by
        simpa [List.append_assoc] using hpermS
      exact hp2.symm.nodup hnodup
    · intro p hp
      have hp2 : ((((result, aj.2 ++ ai.2) :: (placed.eraseIdx j).eraseIdx i).map
          Prod.snd).flatten).Perm (placed.map Prod.snd).flatten := by
        simpa [List.append_assoc] using hpermS
      exact hvalid p (hp2.mem_iff.mp hp)
  · simp only [if_neg hlt] at hc
    obtain ⟨n, hres⟩ := combine_shape _ _ _ _ hc
    have hp2 : ((((result, ai.2 ++ aj.2) :: (placed.eraseIdx j).eraseIdx i).map
        Prod.snd).flatten).Perm (placed.map Prod.snd).flatten := by
      refine List.Perm.trans ?_ hpermS
      simp only [List.map_cons, List.flatten_cons, List.append_assoc]
      rw [← List.append_assoc, ← List.append_assoc]
      exact List.Perm.append_right _ List.perm_append_comm
    refine ⟨ai.2 ++ aj.2, ?_, hp2.symm.nodup hnodup, fun p hp => hvalid p (hp2.mem_iff.mp hp)⟩
    intro a ha
    rcases List.mem_cons.mp ha with rfl | ha
    · subst hres
      simp only [Value.leafNumbers, Value.lhsNotSmaller, List.map_append, hli, hlj]
      exact ⟨trivial, not_lt.mp hlt, hoi, hoj⟩
    · exact hall a (hrest a ha)

theorem poolSound_member (numbers : List Int) (placed : List (Value × List Nat))
    (h : PoolSound numbers placed) (a : Value × List Nat) (ha : a ∈ placed) :
    a.2.Nodup ∧ (∀ p ∈ a.2, p < numbers.length) ∧
      a.2.map (fun p => numbers.getD p 0) = a.1.leafNumbers ∧ a.1.lhsNotSmaller := by
  obtain ⟨hall, hnodup, hvalid⟩ := h
  have hsub : a.2.Sublist (placed.map Prod.snd).flatten :=
    List.sublist_flatten_of_mem (List.mem_map_of_mem _ ha)
  exact ⟨hnodup.sublist hsub, fun p hp => hvalid p (hsub.subset hp), hall a ha⟩

theorem searchTrace_sound (numbers : List Int) (fuel : Nat) :
    ∀ placed : List (Value × List Nat), PoolSound numbers placed →
      ∀ v ∈ searchTrace fuel (placed.map Prod.fst),
        ∃ ps : List Nat, ps.Nodup ∧ (∀ p ∈ ps, p < numbers.length) ∧
          ps.map (fun p => numbers.getD p 0) = v.leafNumbers ∧ v.lhsNotSmaller := by
  induction fuel using Nat.strong_induction_on with
  | _ fuel ih =>
    intro placed hsound v hv
    rw [mem_searchTrace_iff] at hv
    obtain ⟨i, j, vi, vj, op, result, hij, hvi, hvj, hc, hv⟩ := hv
    obtain ⟨ps, hnew⟩ := poolSound_step numbers placed hsound i j hij vi vj hvi hvj op result hc
    rcases hv with hv | ⟨_, hfuel, hv⟩
    · rw [hv]
      exact ⟨ps, poolSound_member numbers _ hnew (result, ps) (List.mem_cons_self _ _)⟩
    · refine ih (fuel - 1) (by omega) ((result, ps) :: (placed.eraseIdx j).eraseIdx i) hnew v ?_
      rw [List.map_cons, map_eraseIdx, map_eraseIdx]
      exact hv

theorem poolSound_initial (numbers : List Int) :
    PoolSound numbers ((List.range numbers.length).map
      (fun p => (Value.leaf (numbers.getD p 0), [p]))) ∧
    ((List.range numbers.length).map
      (fun p => (Value.leaf (numbers.getD p 0), [p]))).map Prod.fst =
        numbers.map Value.leaf := by
  refine ⟨⟨?_, ?_, ?_⟩, ?_⟩
  · intro a ha
    obtain ⟨p, _, rfl⟩ := List.mem_map.mp ha
    exact ⟨rfl, trivial⟩
  · have : ((List.range numbers.length).map
        (fun p => (Value.leaf (numbers.getD p 0), [p]))).map Prod.snd =
        (List.range numbers.length).map (fun p => [p]) := by
      simp [List.map_map, Function.comp]
    rw [this]
    have h2 : ((List.range numbers.length).map (fun p => [p])).flatten =
        List.range numbers.length := by
      generalize List.range numbers.length = l
      induction l with
      | nil => rfl
      | cons x xs ih => simp [ih]
    rw [h2]
    exact List.nodup_range _
  · intro p hp
    simp only [List.map_map, List.mem_flatten, List.mem_map, List.mem_range,
      Function.comp] at hp
    obtain ⟨l, ⟨q, hq, rfl⟩, hp⟩ := hp
    simp only [List.mem_singleton] at hp
    omega
  · apply List.ext_getElem
    · simp
    · intro n h1 h2
      simp only [List.length_map, List.length_range] at h1
      simp [List.getD_eq_getElem?_getD, List.getElem?_eq_getElem h1]

theorem considered_sound (numbers : List Int) :
    ∀ v ∈ considered numbers,
      ∃ ps : List Nat, ps.Nodup ∧ (∀ p ∈ ps, p < numbers.length) ∧
        ps.map (fun p => numbers.getD p 0) = v.leafNumbers ∧ v.lhsNotSmaller := by
  intro v hv
  obtain ⟨hinit, hmap⟩ := poolSound_initial numbers
  unfold considered at hv
  rcases List.mem_append.mp hv with h | h
  · rw [← hmap] at h
    obtain ⟨a, ha, rfl⟩ := List.mem_map.mp h
    exact ⟨a.2, poolSound_member numbers _ hinit a ha⟩
  · rw [← hmap] at h
    exact searchTrace_sound numbers _ _ hinit v h

/-- C20: every Value that `solve()` considers — in particular `best` and
every element of `all` — has its leaves at pairwise distinct positions of
the puzzle's values (so the multiset of its leaf numbers is a sub-multiset
of the values), and every internal node of its derivation tree has
`lhs.number ≥ rhs.number`. -/
theorem search_uses_each_value_once (target : Int) (numbers : List Int) :
    (∀ v ∈ considered numbers,
      (∃ positions : List Nat, positions.Nodup ∧ (∀ p ∈ positions, p < numbers.length) ∧
        positions.map (fun p => numbers.getD p 0) = v.leafNumbers) ∧
      ((v.leafNumbers : List Int) : Multiset Int) ≤ (numbers : Multiset Int) ∧
      v.lhsNotSmaller) ∧
    (∃ r, NumberPuzzle.solve ⟨target, numbers.map some⟩ = some r ∧
      (∀ b, r.best = some b → b ∈ considered numbers) ∧
      (∀ v ∈ r.all, v ∈ considered numbers)) := by
  constructor
  · intro v hv
    obtain ⟨ps, h1, h2, h3, h4⟩ := considered_sound numbers v hv
    refine ⟨⟨ps, h1, h2, h3⟩, ?_, h4⟩
    rw [← h3]
    exact positions_le numbers ps h1 h2
  · cases numbers with
    | nil =>
      refine ⟨_, rfl, ?_, ?_⟩
      · intro b hb; cases hb
      · intro v hv; cases hv
    | cons n rest =>
      refine ⟨_, solve_cons target n rest, ?_, ?_⟩
      · intro b hb
        cases hb
        exact solve_best_mem target n rest
      · intro v hv
        rw [mem_sortByRank, List.mem_filter] at hv
        exact hv.1

/-- Witness for C20: `4 + 3` is considered for the values `[3, 4]`; its
leaves are the values at positions 1 and 0. -/
theorem search_uses_each_value_once_witness :
    Value.derived 7 (Value.leaf 4) (Value.leaf 3) Operator.plus 1 ∈ considered [3, 4] ∧
    ((∃ positions : List Nat, positions.Nodup ∧
        (∀ p ∈ positions, p < ([3, 4] : List Int).length) ∧
        positions.map (fun p => ([3, 4] : List Int).getD p 0) =
          (Value.derived 7 (Value.leaf 4) (Value.leaf 3) Operator.plus 1).leafNumbers) ∧
      (((Value.derived 7 (Value.leaf 4) (Value.leaf 3) Operator.plus 1).leafNumbers :
          List Int) : Multiset Int) ≤ (([3, 4] : List Int) : Multiset Int) ∧
      (Value.derived 7 (Value.leaf 4) (Value.leaf 3) Operator.plus 1).lhsNotSmaller) :=
  ⟨by decide, (search_uses_each_value_once 7 [3, 4]).1 _ (by decide)⟩

/-! ## The letters round -/

namespace TernarySearchTree

/-! ### The ternary search tree: `has` and `add` along the characters of a word -/

theorem numLt_some (x y : Nat) : numLt (some x) (some y) = decide (x < y) := rfl

theorem numLt_none_left (b : Option Nat) : numLt none b = false := rfl

theorem numLt_none_right (a : Option Nat) : numLt a none = false := by
  cases a <;> rfl

theorem hasNode_nil (node : Node) : ∀ i, hasNode node [] i = false := by
  induction node with
  | null => intro i; rfl
  | node char lt eq gt eow _ ihe _ =>
    intro i
    simp only [hasNode, List.getElem?_nil, numLt_none_left, numLt_none_right, List.length_nil]
    simp only [Bool.false_eq_true, if_false]
    rw [if_neg (by omega)]
    exact ihe (i + 1)

theorem hasNode_eq_hasFrom (node : Node) :
    ∀ (word : List Nat) (i : Nat) (h : i < word.length),
      hasNode node word i = hasFrom node (word.get ⟨i, h⟩) (word.drop (i + 1)) := by
  induction node with
  | null => intro word i h; rfl
  | node char lt eq gt eow ihl ihe ihg =>
    intro word i h
    simp only [hasNode, hasFrom, List.getElem?_eq_getElem h, List.get_eq_getElem]
    by_cases h1 : numLt (some word[i]) char = true
    · simp only [h1, if_true]
      exact ihl word i h
    · simp only [h1]
      by_cases h2 : numLt char (some word[i]) = true
      · simp only [h2, if_true, Bool.false_eq_true, if_false]
        exact ihg word i h
      · simp only [h2, Bool.false_eq_true, if_false]
        by_cases h3 : i + 1 = word.length
        · rw [if_pos h3, List.drop_eq_nil_of_le (by omega)]
        · rw [if_neg h3]
          have h4 : i + 1 < word.length := by omega
          rw [List.drop_eq_getElem_cons h4]
          exact ihe word (i + 1) h4

theorem has_nil (root : Node) : has root [] = false := hasNode_nil root 0

theorem has_cons (root : Node) (c : Nat) (rest : List Nat) :
    has root (c :: rest) = hasFrom root c rest := by
  unfold has
  rw [hasNode_eq_hasFrom root (c :: rest) 0 (by simp)]
  rfl

theorem addNode_nil (fuel : Nat) : ∀ (node : Node) (i : Nat), addNode fuel node [] i = none := by
  induction fuel with
  | zero => intro node i; rfl
  | succ fuel ih =>
    intro node i
    cases node with
    | null =>
      simp only [addNode, List.getElem?_nil, numLt_none_left, List.length_nil]
      simp only [Bool.false_eq_true, if_false]
      rw [if_neg (by omega), ih]
      rfl
    | node char lt eq gt eow =>
      simp only [addNode, List.getElem?_nil, numLt_none_left, numLt_none_right,
        List.length_nil]
      simp only [Bool.false_eq_true, if_false]
      rw [if_neg (by omega), ih]
      rfl

theorem numLt_irrefl (a : Option Nat) : numLt a a = false := by
  cases a with
  | none => rfl
  | some x => simp [numLt]

theorem addNode_eq_insert (fuel : Nat) :
    ∀ (node : Node) (word : List Nat) (i : Nat) (h : i < word.length),
      node.height + (word.length - i) ≤ fuel →
      addNode fuel node word i = some (insert node (word.get ⟨i, h⟩) (word.drop (i + 1))) := by
  induction fuel with
  | zero => intro node word i h hf; omega
  | succ fuel ih =>
    intro node word i h hf
    cases node with
    | null =>
      simp only [addNode, List.getElem?_eq_getElem h, numLt_irrefl, List.get_eq_getElem,
        insert]
      simp only [Bool.false_eq_true, if_false]
      by_cases h3 : i + 1 = word.length
      · rw [if_pos h3, List.drop_eq_nil_of_le (by omega)]
        rfl
      · rw [if_neg h3]
        have h4 : i + 1 < word.length := by omega
        rw [ih Node.null word (i + 1) h4 (by simp only [Node.height]; omega),
          List.drop_eq_getElem_cons h4]
        rfl
    | node char lt eq gt eow =>
      simp only [Node.height] at hf
      simp only [addNode, List.getElem?_eq_getElem h, List.get_eq_getElem, insert]
      by_cases h1 : numLt (some word[i]) char = true
      · simp only [h1, if_true]
        rw [ih lt word i h (by omega)]
        rfl
      · simp only [h1]
        by_cases h2 : numLt char (some word[i]) = true
        · simp only [h2, if_true, Bool.false_eq_true, if_false]
          rw [ih gt word i h (by omega)]
          rfl
        · simp only [h2, Bool.false_eq_true, if_false]
          by_cases h3 : i + 1 = word.length
          · rw [if_pos h3, List.drop_eq_nil_of_le (by omega)]
          · rw [if_neg h3]
            have h4 : i + 1 < word.length := by omega
            rw [ih eq word (i + 1) h4 (by omega), List.drop_eq_getElem_cons h4]
            rfl

theorem add_nil (root : Node) : add root [] = none := addNode_nil _ root 0

theorem add_cons (root : Node) (c : Nat) (rest : List Nat) :
    add root (c :: rest) = some (insert root c rest) := by
  unfold add
  rw [addNode_eq_insert _ root (c :: rest) 0 (by simp) (by omega)]
  rfl

theorem add_some (root : Node) (word : List Nat) (root2 : Node) (h : add root word = some root2) :
    ∃ c rest, word = c :: rest ∧ root2 = insert root c rest := by
  cases word with
  | nil => rw [add_nil] at h; cases h
  | cons c rest =>
    rw [add_cons] at h
    cases h
    exact ⟨c, rest, rfl, rfl⟩

/-- The bound on the depth of the recursion does not matter once it is
large enough for the call to return. -/
theorem addNode_fuel_irrelevant (fuel : Nat) (root : Node) (word : List Nat)
    (hf : root.height + word.length ≤ fuel) : addNode fuel root word 0 = add root word := by
  cases word with
  | nil => rw [addNode_nil, add_nil]
  | cons c rest =>
    rw [add_cons, addNode_eq_insert fuel root (c :: rest) 0 (by simp) (by simpa using hf)]
    rfl

/-! ### The search-tree order is kept by `add` -/

theorem numLt_asymm (a b : Option Nat) (h : numLt a b = true) : numLt b a = false := by
  cases a with
  | none => cases h
  | some x =>
    cases b with
    | none => cases h
    | some y =>
      simp only [numLt_some, decide_eq_true_eq, decide_eq_false_iff_not] at h ⊢
      omega

theorem numLt_total (x y : Nat) (h1 : numLt (some x) (some y) = false)
    (h2 : numLt (some y) (some x) = false) : x = y := by
  simp only [numLt_some, decide_eq_false_iff_not] at h1 h2
  omega

theorem hasFrom_chain (c : Nat) (rest : List Nat) :
    ∀ (d : Nat) (rest2 : List Nat),
      hasFrom (chain c rest) d rest2 = decide (d = c ∧ rest2 = rest) := by
  induction rest generalizing c with
  | nil =>
    intro d rest2
    simp only [chain, hasFrom, numLt_some]
    by_cases h1 : d < c
    · simp [h1]; omega
    · by_cases h2 : c < d
      · simp [h1, h2]; omega
      · have : d = c := by omega
        subst this
        cases rest2 <;> simp [hasFrom]
  | cons e rest ih =>
    intro d rest2
    simp only [chain, hasFrom, numLt_some]
    by_cases h1 : d < c
    · simp [h1]; omega
    · by_cases h2 : c < d
      · simp [h1, h2]; omega
      · have : d = c := by omega
        subst this
        cases rest2 with
        | nil => simp
        | cons f rest3 => simp [ih]

theorem level_chain (c : Nat) (rest : List Nat) : level (chain c rest) = [some c] := by
  cases rest <;> rfl

theorem ordered_chain (c : Nat) (rest : List Nat) : Ordered (chain c rest) := by
  induction rest generalizing c with
  | nil => exact ⟨⟨c, rfl, by simp [level], by simp [level]⟩, trivial, trivial, trivial⟩
  | cons d rest ih =>
    exact ⟨⟨c, rfl, by simp [level], by simp [level]⟩, trivial, ih d, trivial⟩

theorem level_insert (node : Node) (c : Nat) (rest : List Nat) :
    ∀ x ∈ level (insert node c rest), x = some c ∨ x ∈ level node := by
  induction node generalizing c rest with
  | null =>
    intro x hx
    rw [insert, level_chain] at hx
    left
    simpa using hx
  | node char lt eq gt eow ihl _ ihg =>
    intro x hx
    simp only [insert] at hx
    by_cases h1 : numLt (some c) char = true
    · simp only [h1, if_true, level, List.mem_append, List.mem_cons] at hx ⊢
      rcases hx with hx | hx | hx
      · rcases ihl c rest x hx with h | h
        · exact Or.inl h
        · exact Or.inr (Or.inl h)
      · exact Or.inr (Or.inr (Or.inl hx))
      · exact Or.inr (Or.inr (Or.inr hx))
    · simp only [h1] at hx
      by_cases h2 : numLt char (some c) = true
      · simp only [h2, if_true, Bool.false_eq_true, if_false, level, List.mem_append,
          List.mem_cons] at hx ⊢
        rcases hx with hx | hx | hx
        · exact Or.inr (Or.inl hx)
        · exact Or.inr (Or.inr (Or.inl hx))
        · rcases ihg c rest x hx with h | h
          · exact Or.inl h
          · exact Or.inr (Or.inr (Or.inr h))
      · simp only [h2, Bool.false_eq_true, if_false] at hx
        right
        cases rest with
        | nil => exact hx
        | cons d rest2 => exact hx

theorem ordered_insert (node : Node) (h : Ordered node) :
    ∀ (c : Nat) (rest : List Nat), Ordered (insert node c rest) := by
  induction node with
  | null => intro c rest; exact ordered_chain c rest
  | node char lt eq gt eow ihl ihe ihg =>
    intro c rest
    obtain ⟨⟨k, hk, hlt, hgt⟩, hol, hoe, hog⟩ := h
    subst hk
    simp only [insert]
    by_cases h1 : numLt (some c) (some k) = true
    · simp only [h1, if_true]
      refine ⟨⟨k, rfl, ?_, hgt⟩, ihl hol c rest, hoe, hog⟩
      intro x hx
      rcases level_insert lt c rest x hx with rfl | hx
      · exact h1
      · exact hlt x hx
    · simp only [h1]
      by_cases h2 : numLt (some k) (some c) = true
      · simp only [h2, if_true, Bool.false_eq_true, if_false]
        refine ⟨⟨k, rfl, hlt, ?_⟩, hol, hoe, ihg hog c rest⟩
        intro x hx
        rcases level_insert gt c rest x hx with rfl | hx
        · exact h2
        · exact hgt x hx
      · simp only [h2, Bool.false_eq_true, if_false]
        cases rest with
        | nil => exact ⟨⟨k, rfl, hlt, hgt⟩, hol, hoe, hog⟩
        | cons d rest2 => exact ⟨⟨k, rfl, hlt, hgt⟩, hol, ihe hoe d rest2, hog⟩

theorem hasFrom_insert (node : Node) (h : Ordered node) :
    ∀ (c : Nat) (rest : List Nat) (d : Nat) (rest2 : List Nat),
      hasFrom (insert node c rest) d rest2 =
        (decide (d = c ∧ rest2 = rest) || hasFrom node d rest2) := by
  induction node with
  | null =>
    intro c rest d rest2
    rw [insert, hasFrom_chain]
    simp [hasFrom]
  | node char lt eq gt eow ihl ihe ihg =>
    intro c rest d rest2
    obtain ⟨⟨k, hk, -, -⟩, hol, hoe, hog⟩ := h
    subst hk
    simp only [insert, numLt_some]
    by_cases h1 : c < k
    · simp only [h1, decide_True, if_true, hasFrom, numLt_some]
      by_cases g1 : d < k
      · simp only [g1, decide_True, if_true]
        exact ihl hol c rest d rest2
      · have hne : ¬ (d = c ∧ rest2 = rest) := by rintro ⟨rfl, -⟩; exact g1 h1
        simp [g1, hne]
    · by_cases h2 : k < c
      · simp only [h1, h2, decide_True, decide_False, if_true, Bool.false_eq_true, if_false,
          hasFrom, numLt_some]
        by_cases g1 : d < k
        · have hne : ¬ (d = c ∧ rest2 = rest) := by rintro ⟨rfl, -⟩; omega
          simp [g1, hne]
        · by_cases g2 : k < d
          · simp only [g1, g2, decide_True, decide_False, if_true, Bool.false_eq_true,
              if_false]
            exact ihg hog c rest d rest2
          · have hne : ¬ (d = c ∧ rest2 = rest) := by rintro ⟨rfl, -⟩; omega
            simp [g1, g2, hne]
      · have hck : c = k := by omega
        subst hck
        simp only [h1, decide_False, Bool.false_eq_true, if_false]
        cases rest with
        | nil =>
          simp only [hasFrom, numLt_some]
          by_cases g1 : d < c
          · have hne : ¬ (d = c ∧ rest2 = []) := by rintro ⟨rfl, -⟩; omega
            simp [g1, hne]
          · by_cases g2 : c < d
            · have hne : ¬ (d = c ∧ rest2 = []) := by rintro ⟨rfl, -⟩; omega
              simp [g1, g2, hne]
            · have hdc : d = c := by omega
              subst hdc
              cases rest2 <;> simp
        | cons e rest3 =>
          simp only [hasFrom, numLt_some]
          by_cases g1 : d < c
          · have hne : ¬ (d = c ∧ rest2 = e :: rest3) := by rintro ⟨rfl, -⟩; omega
            simp [g1, hne]
          · by_cases g2 : c < d
            · have hne : ¬ (d = c ∧ rest2 = e :: rest3) := by rintro ⟨rfl, -⟩; omega
              simp [g1, g2, hne]
            · have hdc : d = c := by omega
              subst hdc
              cases rest2 with
              | nil => simp
              | cons f rest4 =>
                simp only [g1, decide_False, Bool.false_eq_true, if_false, true_and,
                  List.cons.injEq]
                rw [ihe hoe e rest3 f rest4]

/-- After `add(word)` exactly `word` has been added to the strings that
`has` reports. -/
theorem has_add (root : Node) (h : Ordered root) (word : List Nat) (root2 : Node)
    (hadd : add root word = some root2) :
    Ordered root2 ∧ word ≠ [] ∧ ∀ u, has root2 u = (decide (u = word) || has root u) := by
  obtain ⟨c, rest, rfl, rfl⟩ := add_some root word root2 hadd
  refine ⟨ordered_insert root h c rest, by simp, ?_⟩
  intro u
  cases u with
  | nil => simp [has_nil]
  | cons d rest2 =>
    rw [has_cons, has_cons, hasFrom_insert root h]
    simp

theorem insert_stored (node : Node) :
    ∀ (c : Nat) (rest : List Nat), hasFrom node c rest = true → insert node c rest = node := by
  induction node with
  | null => intro c rest h; cases h
  | node char lt eq gt eow ihl ihe ihg =>
    intro c rest h
    simp only [hasFrom] at h
    simp only [insert]
    by_cases h1 : numLt (some c) char = true
    · simp only [h1, if_true] at h ⊢
      rw [ihl c rest h]
    · simp only [h1] at h ⊢
      by_cases h2 : numLt char (some c) = true
      · simp only [h2, if_true, Bool.false_eq_true, if_false] at h ⊢
        rw [ihg c rest h]
      · simp only [h2, Bool.false_eq_true, if_false] at h ⊢
        cases rest with
        | nil =>
          simp only [] at h ⊢
          rw [h]
        | cons d rest2 =>
          simp only [] at h ⊢
          rw [ihe d rest2 h]

/-- Adding a string that is already in the tree returns the tree as it
was. -/
theorem add_stored (root : Node) (word : List Nat) (h : has root word = true) :
    add root word = some root := by
  cases word with
  | nil => rw [has_nil] at h; cases h
  | cons c rest =>
    rw [has_cons] at h
    rw [add_cons, insert_stored root c rest h]

/-! ### The traversal -/

theorem visitWords_eq {σ : Type} (f : σ → List (Option Nat) → σ) (node : Node) :
    ∀ (path : List (Option Nat)) (s : σ),
      visitWords f node (path, s) =
        (path, (paths node).foldl (fun s w => f s (path ++ w)) s) := by
  induction node with
  | null => intro path s; rfl
  | node char lt eq gt eow ihl ihe ihg =>
    intro path s
    simp only [visitWords, paths, ihl, List.foldl_append]
    cases eow with
    | true =>
      simp only [if_true, ihe, List.dropLast_concat, ihg, List.foldl_cons, List.foldl_nil,
        List.foldl_map, List.append_assoc, List.singleton_append]
    | false =>
      simp only [Bool.false_eq_true, if_false, ihe, List.dropLast_concat, ihg, List.foldl_nil,
        List.foldl_map, List.append_assoc, List.singleton_append]

theorem foldl_record {α β : Type} (g : α → β) (l : List α) (acc : List β) :
    l.foldl (fun calls w => calls ++ [g w]) acc = acc ++ l.map g := by
  induction l generalizing acc with
  | nil => simp
  | cons x xs ih => simp [ih]

theorem foldl_tally {α : Type} (l : List α) (n : Nat) :
    l.foldl (fun wordCount _ => wordCount + 1) n = n + l.length := by
  induction l generalizing n with
  | nil => simp
  | cons x xs ih => simp [ih]; omega

theorem fromCharCode_cons (c : Option Nat) (w : List (Option Nat)) :
    fromCharCode (c :: w) = c.getD 0 :: fromCharCode w := rfl

theorem paths_words (node : Node) : (paths node).map fromCharCode = words node := by
  induction node with
  | null => rfl
  | node char lt eq gt eow ihl ihe ihg =>
    simp only [paths, words, List.map_append, ihl, ihg, List.map_map]
    congr 2
    rw [← ihe, List.map_map]
    cases eow <;> rfl

theorem forEach_eq (root : Node) : forEach root = words root := by
  unfold forEach
  rw [visitWords_eq]
  simp only [List.nil_append]
  rw [foldl_record fromCharCode, List.nil_append, paths_words]

theorem size_eq (root : Node) : size root = (words root).length := by
  unfold size
  rw [visitWords_eq]
  simp only []
  rw [foldl_tally, Nat.zero_add, ← paths_words, List.length_map]

/-! ### The stored strings of an ordered tree -/

theorem words_head (node : Node) (h : Ordered node) :
    ∀ w ∈ words node, ∃ c rest, w = c :: rest ∧ some c ∈ level node := by
  induction node with
  | null => intro w hw; simp [words] at hw
  | node char lt eq gt eow ihl _ ihg =>
    intro w hw
    obtain ⟨⟨k, hk, -, -⟩, hol, -, hog⟩ := h
    subst hk
    simp only [words, List.mem_append, List.mem_map, Option.getD_some] at hw
    simp only [level, List.mem_append, List.mem_cons]
    rcases hw with (hw | hw | hw) | hw
    · obtain ⟨c, rest, rfl, hc⟩ := ihl hol w hw
      exact ⟨c, rest, rfl, Or.inl hc⟩
    · cases eow with
      | true =>
        simp only [if_true, List.mem_singleton] at hw
        exact ⟨k, [], hw, Or.inr (Or.inl rfl)⟩
      | false => simp at hw
    · obtain ⟨v, -, rfl⟩ := hw
      exact ⟨k, v, rfl, Or.inr (Or.inl rfl)⟩
    · obtain ⟨c, rest, rfl, hc⟩ := ihg hog w hw
      exact ⟨c, rest, rfl, Or.inr (Or.inr hc)⟩

theorem mem_words (node : Node) (h : Ordered node) :
    ∀ (c : Nat) (rest : List Nat), (c :: rest) ∈ words node ↔ hasFrom node c rest = true := by
  induction node with
  | null => intro c rest; simp [words, hasFrom]
  | node char lt eq gt eow ihl ihe ihg =>
    intro c rest
    have hfull := h
    obtain ⟨⟨k, hk, hlt, hgt⟩, hol, hoe, hog⟩ := h
    subst hk
    have hnl : ∀ d r, d :: r ∈ words lt → d < k := by
      intro d r hd
      obtain ⟨d2, r2, he, hmem⟩ := words_head lt hol _ hd
      cases he
      simpa [numLt_some] using hlt _ hmem
    have hng : ∀ d r, d :: r ∈ words gt → k < d := by
      intro d r hd
      obtain ⟨d2, r2, he, hmem⟩ := words_head gt hog _ hd
      cases he
      simpa [numLt_some] using hgt _ hmem
    simp only [words, List.mem_append, List.mem_map, Option.getD_some, hasFrom, numLt_some]
    by_cases h1 : c < k
    · simp only [h1, decide_True, if_true, ← ihl hol c rest]
      constructor
      · rintro ((hw | hw | hw) | hw)
        · exact hw
        · cases eow with
          | true =>
            simp only [if_true, List.mem_singleton, List.cons.injEq] at hw
            omega
          | false => simp at hw
        · obtain ⟨v, -, hv⟩ := hw
          simp only [List.cons.injEq] at hv
          omega
        · have := hng c rest hw
          omega
      · intro hw
        exact Or.inl (Or.inl hw)
    · by_cases h2 : k < c
      · simp only [h1, h2, decide_True, decide_False, if_true, Bool.false_eq_true, if_false,
          ← ihg hog c rest]
        constructor
        · rintro ((hw | hw | hw) | hw)
          · have := hnl c rest hw
            omega
          · cases eow with
            | true =>
              simp only [if_true, List.mem_singleton, List.cons.injEq] at hw
              omega
            | false => simp at hw
          · obtain ⟨v, -, hv⟩ := hw
            simp only [List.cons.injEq] at hv
            omega
          · exact hw
        · intro hw
          exact Or.inr hw
      · have hck : c = k := by omega
        subst hck
        simp only [h1, decide_False, Bool.false_eq_true, if_false]
        cases rest with
        | nil =>
          simp only []
          constructor
          · rintro ((hw | hw | hw) | hw)
            · have := hnl c [] hw
              omega
            · cases eow with
              | true => rfl
              | false => simp at hw
            · obtain ⟨v, hv, he⟩ := hw
              simp only [List.cons.injEq, true_and] at he
              subst he
              obtain ⟨_, _, hnil, -⟩ := words_head eq hoe _ hv
              cases hnil
            · have := hng c [] hw
              omega
          · intro hw
            rw [hw]
            exact Or.inl (Or.inr (Or.inl (by simp)))
        | cons d rest2 =>
          simp only [← ihe hoe d rest2]
          constructor
          · rintro ((hw | hw | hw) | hw)
            · have := hnl c _ hw
              omega
            · cases eow with
              | true => simp at hw
              | false => simp at hw
            · obtain ⟨v, hv, he⟩ := hw
              simp only [List.cons.injEq, true_and] at he
              subst he
              exact hv
            · have := hng c _ hw
              omega
          · intro hw
            exact Or.inl (Or.inr (Or.inr ⟨_, hw, rfl⟩))

theorem mem_words_iff_has (root : Node) (h : Ordered root) (u : List Nat) :
    u ∈ words root ↔ has root u = true := by
  cases u with
  | nil =>
    rw [has_nil]
    constructor
    · intro hu
      obtain ⟨_, _, hnil, -⟩ := words_head root h _ hu
      cases hnil
    · intro hu; cases hu
  | cons c rest => rw [has_cons, mem_words root h]

theorem words_sorted (node : Node) (h : Ordered node) :
    (words node).Pairwise (List.Lex (· < ·)) := by
  induction node with
  | null => exact List.Pairwise.nil
  | node char lt eq gt eow ihl ihe ihg =>
    obtain ⟨⟨k, hk, hlt, hgt⟩, hol, hoe, hog⟩ := h
    subst hk
    have hnl : ∀ w ∈ words lt, ∃ d r, w = d :: r ∧ d < k := by
      intro w hw
      obtain ⟨d, r, he, hmem⟩ := words_head lt hol _ hw
      exact ⟨d, r, he, by simpa [numLt_some] using hlt _ hmem⟩
    have hng : ∀ w ∈ words gt, ∃ d r, w = d :: r ∧ k < d := by
      intro w hw
      obtain ⟨d, r, he, hmem⟩ := words_head gt hog _ hw
      exact ⟨d, r, he, by simpa [numLt_some] using hgt _ hmem⟩
    have hmid : ∀ w ∈ (if eow then [[k]] else []) ++ (words eq).map (fun w => k :: w),
        ∃ r, w = k :: r := by
      intro w hw
      rcases List.mem_append.mp hw with hw | hw
      · cases eow with
        | true =>
          simp only [if_true, List.mem_singleton] at hw
          exact ⟨[], hw⟩
        | false => simp at hw
      · obtain ⟨v, -, rfl⟩ := List.mem_map.mp hw
        exact ⟨v, rfl⟩
    simp only [words, Option.getD_some]
    rw [List.pairwise_append, List.pairwise_append, List.pairwise_append]
    refine ⟨⟨ihl hol, ⟨?_, ?_, ?_⟩, ?_⟩, ihg hog, ?_⟩
    · cases eow with
      | true => simp
      | false => simp
    · rw [List.pairwise_map]
      exact (ihe hoe).imp (fun hab => List.Lex.cons hab)
    · intro a ha b hb
      cases eow with
      | true =>
        simp only [if_true, List.mem_singleton] at ha
        subst ha
        obtain ⟨v, hv, rfl⟩ := List.mem_map.mp hb
        obtain ⟨d, r, rfl, -⟩ := words_head eq hoe _ hv
        exact List.Lex.cons List.Lex.nil
      | false => simp at ha
    · intro a ha b hb
      obtain ⟨d, r, rfl, hd⟩ := hnl a ha
      obtain ⟨r2, rfl⟩ := hmid b hb
      exact List.Lex.rel hd
    · intro a ha b hb
      obtain ⟨d2, r2, rfl, hd2⟩ := hng b hb
      rcases List.mem_append.mp ha with ha | ha
      · obtain ⟨d, r, rfl, hd⟩ := hnl a ha
        exact List.Lex.rel (by omega)
      · obtain ⟨r, rfl⟩ := hmid a ha
        exact List.Lex.rel hd2

theorem lex_irrefl (w : List Nat) : ¬ List.Lex (· < ·) w w := by
  induction w with
  | nil => intro h; cases h
  | cons a w ih =>
    intro h
    cases h with
    | cons h => exact ih h
    | rel h => exact absurd h (lt_irrefl a)

theorem words_nodup (node : Node) (h : Ordered node) : (words node).Nodup := by
  have hs := words_sorted node h
  unfold List.Nodup
  exact hs.imp (fun hab heq => by subst heq; exact lex_irrefl _ hab)

/-! ### The strings that can be spelled -/

theorem canSpell_iff (charMap : Nat → Nat) (word : List Nat) :
    canSpell charMap word = true ↔ Spellable charMap word := by
  unfold canSpell Spellable
  rw [List.all_eq_true]
  constructor
  · intro h c
    by_cases hc : c ∈ word
    · simpa using h c hc
    · rw [List.count_eq_zero_of_not_mem hc]
      exact Nat.zero_le _
  · intro h c _
    simpa using h c

theorem spellable_cons (charMap : Nat → Nat) (c : Nat) (w : List Nat) (hc : charMap c > 0) :
    Spellable charMap (c :: w) ↔ Spellable (Function.update charMap c (charMap c - 1)) w := by
  unfold Spellable
  constructor
  · intro h x
    have hx := h x
    by_cases hxc : x = c
    · subst hxc
      simp only [List.count_cons_self, Function.update_same] at hx ⊢
      omega
    · rw [Function.update_noteq hxc]
      rw [List.count_cons_of_ne hxc] at hx
      exact hx
  · intro h x
    have hx := h x
    by_cases hxc : x = c
    · subst hxc
      simp only [List.count_cons_self, Function.update_same] at hx ⊢
      omega
    · rw [Function.update_noteq hxc] at hx
      rw [List.count_cons_of_ne hxc]
      exact hx

theorem not_spellable_cons (charMap : Nat → Nat) (c : Nat) (w : List Nat)
    (hc : ¬ charMap c > 0) : ¬ Spellable charMap (c :: w) := by
  intro h
  have := h c
  simp only [List.count_cons_self] at this
  omega

theorem canSpell_cons (charMap : Nat → Nat) (c : Nat) (w : List Nat) (hc : charMap c > 0) :
    canSpell charMap (c :: w) = canSpell (Function.update charMap c (charMap c - 1)) w := by
  rw [Bool.eq_iff_iff, canSpell_iff, canSpell_iff]
  exact spellable_cons charMap c w hc

theorem canSpell_cons_zero (charMap : Nat → Nat) (c : Nat) (w : List Nat)
    (hc : ¬ charMap c > 0) : canSpell charMap (c :: w) = false := by
  rw [Bool.eq_false_iff]
  intro h
  exact not_spellable_cons charMap c w hc ((canSpell_iff _ _).mp h)

theorem update_restore (charMap : Nat → Nat) (c : Nat) (hc : charMap c > 0) :
    Function.update (Function.update charMap c (charMap c - 1)) c
      (Function.update charMap c (charMap c - 1) c + 1) = charMap := by
  funext x
  by_cases hx : x = c
  · subst hx
    simp only [Function.update_same]
    omega
  · simp only [Function.update_noteq hx]

theorem fromCharCode_append (p q : List (Option Nat)) :
    fromCharCode (p ++ q) = fromCharCode p ++ fromCharCode q := by
  simp [fromCharCode]

theorem arrangementsNode_eq (node : Node) (h : Ordered node) :
    ∀ st : ArrangeState,
      arrangementsNode node st =
        { st with
          words := st.words ++
            ((words node).filter (canSpell st.charMap)).map
              (fun w => fromCharCode st.treePath ++ w) } := by
  induction node with
  | null => intro st; simp [arrangementsNode, words]
  | node char lt eq gt eow ihl ihe ihg =>
    intro st
    obtain ⟨⟨k, hk, -, -⟩, hol, hoe, hog⟩ := h
    subst hk
    simp only [arrangementsNode, ihl hol, words, Option.getD_some, List.filter_append,
      List.map_append]
    have hcomp : ∀ w : List Nat,
        fromCharCode (st.treePath ++ [some k]) ++ w = fromCharCode st.treePath ++ k :: w := by
      intro w
      simp [fromCharCode]
    by_cases hc : st.charMap k > 0
    · have hone : canSpell st.charMap [k] = true := by
        rw [canSpell_iff]
        intro x
        by_cases hx : x = k
        · subst hx; simp; omega
        · rw [List.count_cons_of_ne hx]; simp
      have hfilter : (words eq).filter (canSpell st.charMap ∘ fun w => k :: w) =
          (words eq).filter (canSpell (Function.update st.charMap k (st.charMap k - 1))) := by
        apply List.filter_congr
        intro w _
        exact canSpell_cons st.charMap k w hc
      cases eow with
      | true =>
        simp only [hc, if_true, ihe hoe, ihg hog, List.dropLast_concat]
        rw [update_restore st.charMap k hc]
        simp only [List.filter_map, List.map_map, List.append_assoc, hfilter,
          List.filter_cons, hone, if_true, List.filter_nil, List.map_cons, List.map_nil,
          Function.comp, hcomp, List.singleton_append, List.cons_append, List.nil_append]
        simp [fromCharCode]
      | false =>
        simp only [hc, if_true, Bool.false_eq_true, if_false, ihe hoe, ihg hog,
          List.dropLast_concat]
        rw [update_restore st.charMap k hc]
        simp only [List.filter_map, List.map_map, List.append_assoc, hfilter,
          List.filter_nil, List.map_nil, Function.comp, hcomp, List.nil_append]
        rfl
    · simp only [hc, if_false, ihg hog]
      have hone : canSpell st.charMap [k] = false := canSpell_cons_zero st.charMap k [] hc
      have hfilter : ((words eq).map (fun w => k :: w)).filter (canSpell st.charMap) = [] := by
        rw [List.filter_eq_nil_iff]
        intro w hw
        obtain ⟨v, -, rfl⟩ := List.mem_map.mp hw
        rw [canSpell_cons_zero st.charMap k v hc]
        simp
      rw [hfilter]
      cases eow with
      | true => simp [List.filter_cons, hone]
      | false => simp

theorem countLetters_eq (letters : List Nat) (c : Nat) :
    countLetters letters c = letters.count c := by
  unfold countLetters
  have h : ∀ (m : Nat → Nat),
      letters.foldl
        (fun charMap char =>
          Function.update charMap char (if charMap char ≠ 0 then charMap char + 1 else 1))
        m c = m c + letters.count c := by
    induction letters with
    | nil => intro m; simp
    | cons x xs ih =>
      intro m
      rw [List.foldl_cons, ih]
      by_cases hx : c = x
      · subst hx
        simp only [Function.update_same, List.count_cons_self]
        split <;> omega
      · rw [Function.update_noteq hx, List.count_cons_of_ne hx]
  rw [h]
  simp

theorem arrangements_eq (root : Node) (h : Ordered root) (letters : List Nat) :
    arrangements root letters = (words root).filter (canSpell (countLetters letters)) := by
  unfold arrangements
  rw [arrangementsNode_eq root h]
  simp [fromCharCode]

/-! ### `addAll` -/

theorem addAllRange_some (fuel : Nat) :
    ∀ (root : Node) (words : List (List Nat)) (start endIndex : Int) (root2 : Node),
      Ordered root → 0 ≤ start →
      addAllRange fuel root words start endIndex = some root2 →
      Ordered root2 ∧
        ∀ u, has root2 u = true ↔
          (has root u = true ∨
            ∃ k : Nat, start ≤ (k : Int) ∧ (k : Int) ≤ endIndex ∧ words[k]? = some u) := by
  induction fuel with
  | zero => intro root words start endIndex root2 _ _ h; cases h
  | succ fuel ih =>
    intro root words start endIndex root2 ho hs h
    rw [addAllRange] at h
    by_cases hlt : endIndex < start
    · rw [if_pos hlt] at h
      cases h
      refine ⟨ho, fun u => ⟨fun hu => Or.inl hu, ?_⟩⟩
      rintro (hu | ⟨k, h1, h2, -⟩)
      · exact hu
      · omega
    · rw [if_neg hlt] at h
      simp only [] at h
      have hmid0 : ¬ (start + (endIndex - start) / 2 < 0) := by omega
      rw [if_neg hmid0] at h
      cases hw : words[(start + (endIndex - start) / 2).toNat]? with
      | none => rw [hw] at h; cases h
      | some word =>
        rw [hw] at h
        simp only [] at h
        cases ha : add root word with
        | none => rw [ha] at h; cases h
        | some r1 =>
          rw [ha] at h
          simp only [] at h
          obtain ⟨ho1, -, hh1⟩ := has_add root ho word r1 ha
          cases hl : addAllRange fuel r1 words start (start + (endIndex - start) / 2 - 1) with
          | none => rw [hl] at h; cases h
          | some r2 =>
            rw [hl] at h
            simp only [] at h
            obtain ⟨ho2, hh2⟩ := ih r1 words start _ r2 ho1 hs hl
            obtain ⟨ho3, hh3⟩ := ih r2 words _ endIndex root2 ho2 (by omega) h
            refine ⟨ho3, ?_⟩
            intro u
            rw [hh3, hh2, hh1]
            simp only [Bool.or_eq_true, decide_eq_true_eq]
            constructor
            · rintro (((rfl | hu) | ⟨k, h1, h2, h3⟩) | ⟨k, h1, h2, h3⟩)
              · right
                exact ⟨(start + (endIndex - start) / 2).toNat, by omega, by omega, hw⟩
              · exact Or.inl hu
              · exact Or.inr ⟨k, h1, by omega, h3⟩
              · exact Or.inr ⟨k, by omega, h2, h3⟩
            · rintro (hu | ⟨k, h1, h2, h3⟩)
              · exact Or.inl (Or.inl (Or.inr hu))
              · rcases lt_trichotomy (k : Int) (start + (endIndex - start) / 2) with hk | hk | hk
                · exact Or.inl (Or.inr ⟨k, h1, by omega, h3⟩)
                · left; left; left
                  have : (start + (endIndex - start) / 2).toNat = k := by omega
                  rw [this, h3] at hw
                  cases hw
                  rfl
                · exact Or.inr ⟨k, by omega, h2, h3⟩

theorem addAllRange_total (fuel : Nat) :
    ∀ (root : Node) (words : List (List Nat)) (start endIndex : Int),
      0 ≤ start → start ≤ endIndex + 1 → endIndex < words.length →
      endIndex + 1 - start < fuel → (∀ w ∈ words, w ≠ []) →
      ∃ root2, addAllRange fuel root words start endIndex = some root2 := by
  induction fuel with
  | zero => intro root words start endIndex hs hse he hf; omega
  | succ fuel ih =>
    intro root words start endIndex hs hse he hf hne
    rw [addAllRange]
    by_cases hlt : endIndex < start
    · rw [if_pos hlt]; exact ⟨root, rfl⟩
    · rw [if_neg hlt]
      simp only []
      have hmid0 : ¬ (start + (endIndex - start) / 2 < 0) := by omega
      rw [if_neg hmid0]
      have hin : (start + (endIndex - start) / 2).toNat < words.length := by omega
      rw [List.getElem?_eq_getElem hin]
      simp only []
      have hword := hne _ (List.getElem_mem hin)
      cases hw : words[(start + (endIndex - start) / 2).toNat] with
      | nil => exact absurd hw hword
      | cons c rest =>
        rw [add_cons]
        simp only []
        obtain ⟨r2, hr2⟩ := ih (insert root c rest) words start
          (start + (endIndex - start) / 2 - 1) hs (by omega) (by omega) (by omega) hne
        rw [hr2]
        simp only []
        exact ih r2 words _ endIndex (by omega) (by omega) he (by omega) hne

theorem addAll_some (root : Node) (words : List (List Nat)) (root2 : Node) (ho : Ordered root)
    (h : addAll root words = some root2) :
    Ordered root2 ∧ ∀ u, has root2 u = true ↔ (has root u = true ∨ u ∈ words) := by
  obtain ⟨ho2, hh⟩ := addAllRange_some _ root words 0 _ root2 ho (le_refl _) h
  refine ⟨ho2, fun u => ?_⟩
  rw [hh, List.mem_iff_getElem?]
  constructor
  · rintro (hu | ⟨k, -, -, hk⟩)
    · exact Or.inl hu
    · exact Or.inr ⟨k, hk⟩
  · rintro (hu | ⟨k, hk⟩)
    · exact Or.inl hu
    · have := (List.getElem?_eq_some_iff.mp hk).1
      exact Or.inr ⟨k, by omega, by omega, hk⟩

theorem addAll_total (root : Node) (words : List (List Nat)) (hne : ∀ w ∈ words, w ≠ []) :
    ∃ root2, addAll root words = some root2 :=
  addAllRange_total _ root words 0 _ (le_refl _) (by omega) (by omega) (by omega) hne

/-! ### The trees built by `add` and `addAll` -/

theorem built_ordered (added : List (List Nat)) (root : Node) (h : Built added root) :
    Ordered root ∧ ∀ u, has root u = true ↔ u ∈ added := by
  induction h with
  | empty => exact ⟨trivial, fun u => by simp [has, hasNode]⟩
  | add added root word root2 _ hadd ih =>
    obtain ⟨ho, hh⟩ := ih
    obtain ⟨ho2, -, hh2⟩ := has_add root ho word root2 hadd
    refine ⟨ho2, fun u => ?_⟩
    rw [hh2]
    simp only [Bool.or_eq_true, decide_eq_true_eq, List.mem_cons, hh]
  | addAll added root words root2 _ hadd ih =>
    obtain ⟨ho, hh⟩ := ih
    obtain ⟨ho2, hh2⟩ := addAll_some root words root2 ho hadd
    refine ⟨ho2, fun u => ?_⟩
    rw [hh2, hh, List.mem_append]
    exact Or.comm

theorem lex_asymm (a b : List Nat) (h1 : List.Lex (· < ·) a b) (h2 : List.Lex (· < ·) b a) :
    False := by
  induction a generalizing b with
  | nil => cases h2
  | cons x xs ih =>
    cases h1 with
    | cons h =>
      cases h2 with
      | cons g => exact ih _ h g
      | rel g => exact lt_irrefl _ g
    | rel h =>
      cases h2 with
      | cons g => exact lt_irrefl _ h
      | rel g => exact lt_asymm h g

theorem sorted_unique (l1 l2 : List (List Nat)) (h1 : l1.Pairwise (List.Lex (· < ·)))
    (h2 : l2.Pairwise (List.Lex (· < ·))) (hmem : ∀ u, u ∈ l1 ↔ u ∈ l2) : l1 = l2 := by
  have hn1 : l1.Nodup := h1.imp (fun hab heq => by subst heq; exact lex_irrefl _ hab)
  have hn2 : l2.Nodup := h2.imp (fun hab heq => by subst heq; exact lex_irrefl _ hab)
  have hperm : l1.Perm l2 := (List.perm_ext_iff_of_nodup hn1 hn2).mpr hmem
  haveI : IsAntisymm (List Nat) (List.Lex (· < ·)) :=
    ⟨fun a b hab hba => (lex_asymm a b hab hba).elim⟩
  exact List.eq_of_perm_of_sorted hperm h1 h2

theorem size_dedup (root : Node) (h : Ordered root) (added : List (List Nat))
    (hmem : ∀ u, has root u = true ↔ u ∈ added) : size root = added.dedup.length := by
  rw [size_eq]
  apply List.Perm.length_eq
  rw [List.perm_ext_iff_of_nodup (words_nodup root h) (List.nodup_dedup added)]
  intro u
  rw [mem_words_iff_has root h, hmem, List.mem_dedup]

end TernarySearchTree

/-- C16: on a tree built by `add` / `addAll`, `arrangements(letters)`
returns exactly the strings `w` with `has(w)` in which no character occurs
more often than in `letters`, each once, in ascending code-unit
lexicographic order; the call only reads the nodes, and it leaves its
working arrays `charMap` and `treePath` as they were. -/
theorem arrangements_spelled_sorted (added : List (List Nat)) (root : Node)
    (letters : List Nat) (h : TernarySearchTree.Built added root) :
    (∀ w, w ∈ TernarySearchTree.arrangements root letters ↔
      (TernarySearchTree.has root w = true ∧ ∀ c, w.count c ≤ letters.count c)) ∧
    (TernarySearchTree.arrangements root letters).Nodup ∧
    (TernarySearchTree.arrangements root letters).Pairwise (List.Lex (· < ·)) ∧
    (∀ st : TernarySearchTree.ArrangeState,
      (TernarySearchTree.arrangementsNode root st).charMap = st.charMap ∧
        (TernarySearchTree.arrangementsNode root st).treePath = st.treePath) := by
  obtain ⟨ho, -⟩ := TernarySearchTree.built_ordered added root h
  have hs : (TernarySearchTree.arrangements root letters).Pairwise (List.Lex (· < ·)) := by
    rw [TernarySearchTree.arrangements_eq root ho]
    exact (TernarySearchTree.words_sorted root ho).sublist (List.filter_sublist _)
  refine ⟨?_, ?_, hs, ?_⟩
  · intro w
    rw [TernarySearchTree.arrangements_eq root ho, List.mem_filter,
      TernarySearchTree.mem_words_iff_has root ho, TernarySearchTree.canSpell_iff]
    unfold TernarySearchTree.Spellable
    simp only [TernarySearchTree.countLetters_eq]
  · exact hs.imp (fun hab heq => by subst heq; exact TernarySearchTree.lex_irrefl _ hab)
  · intro st
    rw [TernarySearchTree.arrangementsNode_eq root ho]
    exact ⟨rfl, rfl⟩

/-- Witness for C16: the tree holding `"cat"` and the letters `"taco"`. -/
theorem arrangements_spelled_sorted_witness :
    TernarySearchTree.Built [[99, 97, 116]] (TernarySearchTree.chain 99 [97, 116]) ∧
    ((∀ w, w ∈ TernarySearchTree.arrangements (TernarySearchTree.chain 99 [97, 116])
          [116, 97, 99, 111] ↔
      (TernarySearchTree.has (TernarySearchTree.chain 99 [97, 116]) w = true ∧
        ∀ c, w.count c ≤ ([116, 97, 99, 111] : List Nat).count c)) ∧
    (TernarySearchTree.arrangements (TernarySearchTree.chain 99 [97, 116])
      [116, 97, 99, 111]).Nodup ∧
    (TernarySearchTree.arrangements (TernarySearchTree.chain 99 [97, 116])
      [116, 97, 99, 111]).Pairwise (List.Lex (· < ·)) ∧
    (∀ st : TernarySearchTree.ArrangeState,
      (TernarySearchTree.arrangementsNode (TernarySearchTree.chain 99 [97, 116])
          st).charMap = st.charMap ∧
        (TernarySearchTree.arrangementsNode (TernarySearchTree.chain 99 [97, 116])
          st).treePath = st.treePath)) :=
  ⟨TernarySearchTree.Built.add [] Node.null [99, 97, 116]
      (TernarySearchTree.chain 99 [97, 116]) TernarySearchTree.Built.empty (by decide),
   arrangements_spelled_sorted [[99, 97, 116]] (TernarySearchTree.chain 99 [97, 116])
     [116, 97, 99, 111]
     (TernarySearchTree.Built.add [] Node.null [99, 97, 116]
       (TernarySearchTree.chain 99 [97, 116]) TernarySearchTree.Built.empty (by decide))⟩

/-- C17 fails on the code for the empty string, a non-null string:
`charCodeAt` returns `NaN` at every index, `#add` takes the equal branch
with `i` already past `word.length`, and recurses on `eq` without end.  No
bound on the depth of the recursion lets `add("")` return, so neither does
`addAll([""])`; and `has("")` is false on every tree. -/
theorem add_empty_string_never_returns :
    (∀ (fuel : Nat) (node : Node) (i : Nat),
      TernarySearchTree.addNode fuel node [] i = none) ∧
    (∀ root : Node, TernarySearchTree.add root [] = none) ∧
    (∀ fuel : Nat, TernarySearchTree.addAllRange fuel Node.null [[]] 0 0 = none) ∧
    TernarySearchTree.addAll Node.null [[]] = none ∧
    (∀ root : Node, TernarySearchTree.has root [] = false) := by
  refine ⟨TernarySearchTree.addNode_nil, TernarySearchTree.add_nil, ?_, by decide,
    TernarySearchTree.has_nil⟩
  intro fuel
  cases fuel with
  | zero => rfl
  | succ fuel =>
    rw [TernarySearchTree.addAllRange]
    simp [TernarySearchTree.add_nil]

/-- C18: on a tree built by `add` / `addAll`, `forEach` calls its function
exactly once for each string for which `has` is true — the strings that
were added — and for no other, in strictly ascending code-unit
lexicographic order; `size` is the number of calls, the number of distinct
strings added; the enumeration equals any strictly ascending list of the
added strings, and `addAll` of such a list of non-empty strings to the
empty tree returns a tree that enumerates the list itself. -/
theorem forEach_ascending_once (added : List (List Nat)) (root : Node)
    (h : TernarySearchTree.Built added root) :
    (∀ u, u ∈ TernarySearchTree.forEach root ↔ TernarySearchTree.has root u = true) ∧
    (∀ u, TernarySearchTree.has root u = true ↔ u ∈ added) ∧
    (TernarySearchTree.forEach root).Nodup ∧
    (TernarySearchTree.forEach root).Pairwise (List.Lex (· < ·)) ∧
    TernarySearchTree.size root = (TernarySearchTree.forEach root).length ∧
    TernarySearchTree.size root = added.dedup.length ∧
    (∀ words : List (List Nat), words.Pairwise (List.Lex (· < ·)) →
      (∀ u, u ∈ words ↔ u ∈ added) → TernarySearchTree.forEach root = words) ∧
    (∀ words : List (List Nat), (∀ w ∈ words, w ≠ []) →
      words.Pairwise (List.Lex (· < ·)) →
      ∃ root2, TernarySearchTree.addAll Node.null words = some root2 ∧
        TernarySearchTree.forEach root2 = words ∧
        TernarySearchTree.size root2 = words.length) := by
  obtain ⟨ho, hh⟩ := TernarySearchTree.built_ordered added root h
  have hs := TernarySearchTree.words_sorted root ho
  refine ⟨?_, hh, ?_, ?_, ?_, TernarySearchTree.size_dedup root ho added hh, ?_, ?_⟩
  · intro u
    rw [TernarySearchTree.forEach_eq, TernarySearchTree.mem_words_iff_has root ho]
  · rw [TernarySearchTree.forEach_eq]
    exact TernarySearchTree.words_nodup root ho
  · rw [TernarySearchTree.forEach_eq]
    exact hs
  · rw [TernarySearchTree.forEach_eq, TernarySearchTree.size_eq]
  · intro words hw hmem
    rw [TernarySearchTree.forEach_eq]
    apply TernarySearchTree.sorted_unique _ _ hs hw
    intro u
    rw [TernarySearchTree.mem_words_iff_has root ho, hh, hmem]
  · intro words hne hw
    obtain ⟨root2, hr⟩ := TernarySearchTree.addAll_total Node.null words hne
    obtain ⟨ho2, hh2⟩ := TernarySearchTree.addAll_some Node.null words root2 trivial hr
    have hfe : TernarySearchTree.forEach root2 = words := by
      rw [TernarySearchTree.forEach_eq]
      apply TernarySearchTree.sorted_unique _ _ (TernarySearchTree.words_sorted root2 ho2) hw
      intro u
      rw [TernarySearchTree.mem_words_iff_has root2 ho2, hh2]
      simp [TernarySearchTree.has, TernarySearchTree.hasNode]
    refine ⟨root2, hr, hfe, ?_⟩
    rw [TernarySearchTree.size_eq, ← TernarySearchTree.forEach_eq, hfe]

/-- Witness for C18: the tree built by `addAll(["a", "ba", "c"])`. -/
theorem forEach_ascending_once_witness :
    TernarySearchTree.Built ([[97], [98, 97], [99]] ++ [])
      (Node.node (some 98) (TernarySearchTree.chain 97 [])
        (TernarySearchTree.chain 97 []) (TernarySearchTree.chain 99 []) false) ∧
    TernarySearchTree.forEach
      (Node.node (some 98) (TernarySearchTree.chain 97 [])
        (TernarySearchTree.chain 97 []) (TernarySearchTree.chain 99 []) false) =
      [[97], [98, 97], [99]] ∧
    TernarySearchTree.size
      (Node.node (some 98) (TernarySearchTree.chain 97 [])
        (TernarySearchTree.chain 97 []) (TernarySearchTree.chain 99 []) false) =
      ([[97], [98, 97], [99]] ++ [] : List (List Nat)).dedup.length :=
  ⟨TernarySearchTree.Built.addAll [] Node.null [[97], [98, 97], [99]] _
      TernarySearchTree.Built.empty (by decide),
   by decide,
   (forEach_ascending_once ([[97], [98, 97], [99]] ++ []) _
     (TernarySearchTree.Built.addAll [] Node.null [[97], [98, 97], [99]] _
       TernarySearchTree.Built.empty (by decide))).2.2.2.2.2.1⟩

/-! ## The word-list converter -/

/-! ### One word -/

theorem prefixScan_spec (word prevWord : List Nat) (remaining : Nat) :
    ∀ p, p ≤ prefixScan word prevWord remaining p ∧
      prefixScan word prevWord remaining p ≤ p + remaining ∧
      ∀ j, p ≤ j → j < prefixScan word prevWord remaining p → word[j]? = prevWord[j]? := by
  induction remaining with
  | zero =>
    intro p
    simp only [prefixScan]
    exact ⟨le_refl _, by omega, fun j h1 h2 => by omega⟩
  | succ remaining ih =>
    intro p
    simp only [prefixScan]
    by_cases h : word[p]? ≠ prevWord[p]?
    · rw [if_pos h]
      exact ⟨le_refl _, by omega, fun j h1 h2 => by omega⟩
    · rw [if_neg h]
      obtain ⟨h1, h2, h3⟩ := ih (p + 1)
      refine ⟨by omega, by omega, ?_⟩
      intro j hj1 hj2
      by_cases hjp : j = p
      · subst hjp
        exact not_not.mp h
      · exact h3 j (by omega) hj2

theorem prefixLength_spec (word prevWord : List Nat) :
    prefixLength word prevWord ≤ 9 ∧
      word.take (prefixLength word prevWord) = prevWord.take (prefixLength word prevWord) := by
  obtain ⟨-, h2, h3⟩ := prefixScan_spec word prevWord 9 0
  refine ⟨by unfold prefixLength; omega, ?_⟩
  apply List.ext_getElem?
  intro j
  rw [List.getElem?_take, List.getElem?_take]
  by_cases hj : j < prefixLength word prevWord
  · rw [if_pos hj, if_pos hj]
    exact h3 j (Nat.zero_le _) hj
  · rw [if_neg hj, if_neg hj]

theorem digit_units (p : Nat) (h : p ≤ 9) : codeUnits (toString p) = [48 + p] := by
  interval_cases p <;> rfl

/-- Decoding a compressed word against the same previous word gives the
word back, unless the word begins with one of the digits 1 to 9. -/
theorem expandWord_compressWord (prevWord word : List Nat) (h : beginsWithDigit word = false) :
    expandWord prevWord (compressWord prevWord word) = word := by
  obtain ⟨h9, htake⟩ := prefixLength_spec word prevWord
  unfold compressWord
  simp only []
  by_cases hp : prefixLength word prevWord ≥ 2
  · rw [if_pos hp, digit_units _ h9]
    have hnum : unitToNumber (48 + prefixLength word prevWord) =
        some (prefixLength word prevWord) := by
      unfold unitToNumber
      rw [if_pos (by omega)]
      congr 1
      omega
    simp only [expandWord, List.singleton_append, List.head?_cons, hnum, List.drop_succ_cons,
      List.drop_zero]
    rw [if_pos ⟨by omega, h9⟩, ← htake, List.take_append_drop]
  · rw [if_neg hp]
    unfold expandWord
    cases hw : word.head? with
    | none => rfl
    | some c =>
      simp only []
      unfold beginsWithDigit at h
      rw [hw] at h
      simp only [decide_eq_false_iff_not] at h
      unfold unitToNumber
      by_cases hd : 48 ≤ c ∧ c ≤ 57
      · rw [if_pos hd]
        simp only []
        rw [if_neg (by omega)]
      · rw [if_neg hd]
        by_cases hs : isSpaceUnit c = true
        · rw [if_pos hs]
          simp
        · rw [if_neg hs]

/-! ### The two loops -/

theorem compressList_steps (wordList : List (List Nat)) (k : Nat) (hk : k + 1 ≤ wordList.length) :
    ((List.range' 1 k).foldl
        (fun (st : List (List Nat) × List Nat) i =>
          ((st.1.set i (compressWord st.2 (st.1.getD i [])), st.1.getD i []) :
            List (List Nat) × List Nat))
        (wordList, wordList.getD 0 [])).2 = wordList.getD k [] ∧
    ∀ j, ((List.range' 1 k).foldl
        (fun (st : List (List Nat) × List Nat) i =>
          ((st.1.set i (compressWord st.2 (st.1.getD i [])), st.1.getD i []) :
            List (List Nat) × List Nat))
        (wordList, wordList.getD 0 [])).1[j]? =
      if 1 ≤ j ∧ j ≤ k then (wordList[j]?).map (compressWord (wordList.getD (j - 1) []))
      else wordList[j]? := by
  induction k with
  | zero =>
    refine ⟨rfl, fun j => ?_⟩
    rw [if_neg (by omega)]
    rfl
  | succ k ih =>
    obtain ⟨ih2, ih1⟩ := ih (by omega)
    rw [List.range'_concat, List.foldl_append]
    simp only [List.foldl_cons, List.foldl_nil, Nat.one_mul]
    have hget : ∀ st : List (List Nat) × List Nat,
        (∀ j, st.1[j]? = if 1 ≤ j ∧ j ≤ k then
          (wordList[j]?).map (compressWord (wordList.getD (j - 1) [])) else wordList[j]?) →
        st.1.getD (1 + k) [] = wordList.getD (1 + k) [] := by
      intro st hst
      rw [List.getD_eq_getElem?_getD, List.getD_eq_getElem?_getD, hst, if_neg (by omega)]
    rw [hget _ ih1, ih2]
    refine ⟨by rw [Nat.add_comm 1 k], fun j => ?_⟩
    rw [List.getElem?_set]
    have hlen : ∀ st : List (List Nat) × List Nat,
        (∀ j, st.1[j]? = if 1 ≤ j ∧ j ≤ k then
          (wordList[j]?).map (compressWord (wordList.getD (j - 1) [])) else wordList[j]?) →
        1 + k < st.1.length := by
      intro st hst
      have h1 := hst (1 + k)
      rw [if_neg (by omega), List.getElem?_eq_getElem (show 1 + k < wordList.length by omega)]
        at h1
      exact (List.getElem?_eq_some_iff.mp h1).1
    by_cases hj : 1 + k = j
    · subst hj
      rw [if_pos rfl, if_pos (hlen _ ih1), if_pos ⟨by omega, by omega⟩,
        List.getElem?_eq_getElem (show 1 + k < wordList.length by omega)]
      simp only [Option.map_some', Nat.add_sub_cancel_left]
      rw [List.getD_eq_getElem?_getD (l := wordList) (n := 1 + k),
        List.getElem?_eq_getElem (show 1 + k < wordList.length by omega)]
      rfl
    · rw [if_neg hj, ih1]
      by_cases h1 : 1 ≤ j ∧ j ≤ k
      · rw [if_pos h1, if_pos ⟨h1.1, by omega⟩]
      · rw [if_neg h1, if_neg (by omega)]

theorem compressList_getElem? (wordList : List (List Nat)) (j : Nat) :
    (compressList wordList)[j]? =
      if 1 ≤ j then (wordList[j]?).map (compressWord (wordList.getD (j - 1) []))
      else wordList[j]? := by
  unfold compressList
  cases wordList with
  | nil => simp
  | cons w rest =>
    have h := (compressList_steps (w :: rest) rest.length (by simp)).2 j
    simp only [List.length_cons, Nat.add_sub_cancel]
    rw [h]
    by_cases h1 : 1 ≤ j
    · by_cases h2 : j ≤ rest.length
      · rw [if_pos ⟨h1, h2⟩, if_pos h1]
      · rw [if_neg (fun h => h2 h.2), if_pos h1,
          List.getElem?_eq_none (by simp only [List.length_cons]; omega)]
        rfl
    · rw [if_neg (fun h => h1 h.1), if_neg h1]

theorem compressList_length (wordList : List (List Nat)) :
    (compressList wordList).length = wordList.length := by
  apply le_antisymm
  · by_contra h
    have h1 := compressList_getElem? wordList wordList.length
    rw [List.getElem?_eq_getElem (by omega), List.getElem?_eq_none (le_refl _)] at h1
    split at h1 <;> simp at h1
  · by_contra h
    have h1 := compressList_getElem? wordList (compressList wordList).length
    rw [List.getElem?_eq_none (le_refl _), List.getElem?_eq_getElem (by omega)] at h1
    split at h1 <;> simp at h1

theorem expandList_steps (original : List (List Nat))
    (hdigit : ∀ w ∈ original, beginsWithDigit w = false) (k : Nat)
    (hk : k + 1 ≤ original.length) :
    ∀ j, ((List.range' 1 k).foldl
        (fun wl i => wl.set i (expandWord (wl.getD (i - 1) []) (wl.getD i [])))
        (compressList original))[j]? =
      if j ≤ k then original[j]? else (compressList original)[j]? := by
  induction k with
  | zero =>
    intro j
    simp only [List.range'_zero, List.foldl_nil]
    by_cases hj : j ≤ 0
    · rw [if_pos hj]
      have : j = 0 := by omega
      subst this
      rw [compressList_getElem?, if_neg (by omega)]
    · rw [if_neg hj]
  | succ k ih =>
    have ih1 := ih (by omega)
    intro j
    rw [List.range'_concat, List.foldl_append]
    simp only [List.foldl_cons, List.foldl_nil, Nat.one_mul]
    have hk1 : 1 + k < original.length := by omega
    have hprev : ((List.range' 1 k).foldl
        (fun wl i => wl.set i (expandWord (wl.getD (i - 1) []) (wl.getD i [])))
        (compressList original)).getD (1 + k - 1) [] = original.getD k [] := by
      rw [List.getD_eq_getElem?_getD, ih1, if_pos (by omega), Nat.add_sub_cancel_left,
        List.getD_eq_getElem?_getD]
    have hcur : ((List.range' 1 k).foldl
        (fun wl i => wl.set i (expandWord (wl.getD (i - 1) []) (wl.getD i [])))
        (compressList original)).getD (1 + k) [] =
          compressWord (original.getD k []) original[1 + k] := by
      rw [List.getD_eq_getElem?_getD, ih1, if_neg (by omega), compressList_getElem?,
        if_pos (by omega), List.getElem?_eq_getElem hk1, Nat.add_sub_cancel_left]
      rfl
    have hlen : 1 + k < ((List.range' 1 k).foldl
        (fun wl i => wl.set i (expandWord (wl.getD (i - 1) []) (wl.getD i [])))
        (compressList original)).length := by
      have h1 := ih1 (1 + k)
      rw [if_neg (by omega), List.getElem?_eq_getElem
        (show 1 + k < (compressList original).length by rw [compressList_length]; exact hk1)]
        at h1
      exact (List.getElem?_eq_some_iff.mp h1).1
    rw [hprev, hcur, expandWord_compressWord _ _ (hdigit _ (List.getElem_mem hk1)),
      List.getElem?_set]
    by_cases hj : 1 + k = j
    · subst hj
      rw [if_pos rfl, if_pos hlen, if_pos (by omega), List.getElem?_eq_getElem hk1]
    · rw [if_neg hj, ih1]
      by_cases h1 : j ≤ k
      · rw [if_pos h1, if_pos (by omega)]
      · rw [if_neg h1, if_neg (by omega)]

/-- The decoding loop undoes the encoding loop on every list of words none
of which begins with one of the digits 1 to 9. -/
theorem expandList_compressList (original : List (List Nat))
    (hdigit : ∀ w ∈ original, beginsWithDigit w = false) :
    expandList (compressList original) = original := by
  cases horig : original with
  | nil => rfl
  | cons w rest =>
    rw [← horig]
    have hlen : rest.length + 1 ≤ original.length := by rw [horig]; simp
    have h := expandList_steps original hdigit rest.length hlen
    unfold expandList
    rw [compressList_length]
    have hl : original.length - 1 = rest.length := by rw [horig]; simp
    rw [hl]
    apply List.ext_getElem?
    intro j
    rw [h j]
    by_cases hj : j ≤ rest.length
    · rw [if_pos hj]
    · rw [if_neg hj, List.getElem?_eq_none (by rw [compressList_length, horig]; simp; omega),
        List.getElem?_eq_none (by rw [horig]; simp; omega)]

/-! ### The text written by `JSON.stringify` -/

theorem hexDigit_range (n : Nat) (h : n < 16) :
    (48 ≤ hexDigit n ∧ hexDigit n ≤ 57) ∨ (97 ≤ hexDigit n ∧ hexDigit n ≤ 102) := by
  unfold hexDigit
  split <;> omega

theorem unicodeEscape_spec (c : Nat) :
    (∃ tail, unicodeEscape c = 92 :: tail) ∧
      ∀ x ∈ unicodeEscape c,
        x = 92 ∨ (48 ≤ x ∧ x ≤ 57) ∨ (97 ≤ x ∧ x ≤ 117) := by
  refine ⟨⟨_, rfl⟩, ?_⟩
  intro x hx
  simp only [unicodeEscape, List.mem_cons, List.mem_singleton, List.mem_nil_iff,
    or_false] at hx
  have h1 := hexDigit_range (c / 4096 % 16) (Nat.mod_lt _ (by omega))
  have h2 := hexDigit_range (c / 256 % 16) (Nat.mod_lt _ (by omega))
  have h3 := hexDigit_range (c / 16 % 16) (Nat.mod_lt _ (by omega))
  have h4 := hexDigit_range (c % 16) (Nat.mod_lt _ (by omega))
  rcases hx with rfl | rfl | rfl | rfl | rfl | rfl <;> omega

theorem escapeUnit_spec (c : Nat) :
    escapeUnit c = [c] ∨
      ((∃ tail, escapeUnit c = 92 :: tail) ∧
        ∀ x ∈ escapeUnit c,
          x = 92 ∨ x = 34 ∨ (48 ≤ x ∧ x ≤ 57) ∨ (97 ≤ x ∧ x ≤ 117)) := by
  unfold escapeUnit
  split
  · right; exact ⟨⟨_, rfl⟩, by simp⟩
  split
  · right; exact ⟨⟨_, rfl⟩, by simp⟩
  split
  · right; exact ⟨⟨_, rfl⟩, by simp⟩
  split
  · right; exact ⟨⟨_, rfl⟩, by simp⟩
  split
  · right; exact ⟨⟨_, rfl⟩, by simp⟩
  split
  · right; exact ⟨⟨_, rfl⟩, by simp⟩
  split
  · right; exact ⟨⟨_, rfl⟩, by simp⟩
  split
  · right
    obtain ⟨h1, h2⟩ := unicodeEscape_spec c
    refine ⟨h1, fun x hx => ?_⟩
    rcases h2 x hx with h | h | h
    · exact Or.inl h
    · exact Or.inr (Or.inr (Or.inl h))
    · exact Or.inr (Or.inr (Or.inr h))
  · left; rfl


theorem quoteToken_spec (afterHigh : Bool) (c : Nat) (rest : List Nat) :
    quoteToken afterHigh c rest = [c] ∨
      ((∃ tail, quoteToken afterHigh c rest = 92 :: tail) ∧
        ∀ x ∈ quoteToken afterHigh c rest,
          x = 92 ∨ x = 34 ∨ (48 ≤ x ∧ x ≤ 57) ∨ (97 ≤ x ∧ x ≤ 117)) := by
  have hu : (∃ tail, unicodeEscape c = 92 :: tail) ∧
      ∀ x ∈ unicodeEscape c, x = 92 ∨ x = 34 ∨ (48 ≤ x ∧ x ≤ 57) ∨ (97 ≤ x ∧ x ≤ 117) := by
    obtain ⟨h1, h2⟩ := unicodeEscape_spec c
    refine ⟨h1, fun x hx => ?_⟩
    rcases h2 x hx with h | h | h
    · exact Or.inl h
    · exact Or.inr (Or.inr (Or.inl h))
    · exact Or.inr (Or.inr (Or.inr h))
  unfold quoteToken
  split
  · cases rest.head? with
    | none => exact Or.inr hu
    | some d =>
      simp only []
      split
      · exact Or.inl rfl
      · exact Or.inr hu
  · split
    · split
      · exact Or.inl rfl
      · exact Or.inr hu
    · exact escapeUnit_spec c

theorem mem_quoteUnits (s : List Nat) :
    ∀ (afterHigh : Bool), ∀ x ∈ quoteUnits afterHigh s,
      x ∈ s ∨ x = 92 ∨ x = 34 ∨ (48 ≤ x ∧ x ≤ 57) ∨ (97 ≤ x ∧ x ≤ 117) := by
  induction s with
  | nil => intro f x hx; simp [quoteUnits] at hx
  | cons c rest ih =>
    intro f x hx
    simp only [quoteUnits, List.mem_append] at hx
    rcases hx with hx | hx
    · rcases quoteToken_spec f c rest with h | ⟨-, h⟩
      · rw [h, List.mem_singleton] at hx
        left; rw [hx]; exact List.mem_cons_self _ _
      · exact Or.inr (h x hx)
    · rcases ih _ x hx with h | h
      · exact Or.inl (List.mem_cons_of_mem _ h)
      · exact Or.inr h

theorem mem_quoteJSONString (w : List Nat) :
    ∀ x ∈ quoteJSONString w,
      x ∈ w ∨ x = 92 ∨ x = 34 ∨ x = 44 ∨ (48 ≤ x ∧ x ≤ 57) ∨ (97 ≤ x ∧ x ≤ 117) := by
  intro x hx
  simp only [quoteJSONString, List.mem_cons, List.mem_append, List.mem_singleton,
    List.mem_nil_iff, or_false] at hx
  rcases hx with (rfl | hx) | rfl
  · exact Or.inr (Or.inr (Or.inl rfl))
  · rcases mem_quoteUnits w false x hx with h | h | h | h | h
    · exact Or.inl h
    · exact Or.inr (Or.inl h)
    · exact Or.inr (Or.inr (Or.inl h))
    · exact Or.inr (Or.inr (Or.inr (Or.inr (Or.inl h))))
    · exact Or.inr (Or.inr (Or.inr (Or.inr (Or.inr h))))
  · exact Or.inr (Or.inr (Or.inl rfl))

theorem joinQuoted_cons_cons (w w2 : List Nat) (rest : List (List Nat)) :
    joinQuoted (w :: w2 :: rest) = quoteJSONString w ++ 44 :: joinQuoted (w2 :: rest) := rfl

theorem mem_joinQuoted (wordList : List (List Nat)) :
    ∀ x ∈ joinQuoted wordList,
      (∃ w ∈ wordList, x ∈ w) ∨ x = 92 ∨ x = 34 ∨ x = 44 ∨ (48 ≤ x ∧ x ≤ 57) ∨
        (97 ≤ x ∧ x ≤ 117) := by
  induction wordList with
  | nil => intro x hx; simp [joinQuoted] at hx
  | cons w rest ih =>
    intro x hx
    cases rest with
    | nil =>
      simp only [joinQuoted] at hx
      rcases mem_quoteJSONString w x hx with h | h
      · exact Or.inl ⟨w, List.mem_cons_self _ _, h⟩
      · exact Or.inr h
    | cons w2 rest2 =>
      rw [joinQuoted_cons_cons, List.mem_append, List.mem_cons] at hx
      rcases hx with hx | rfl | hx
      · rcases mem_quoteJSONString w x hx with h | h
        · exact Or.inl ⟨w, List.mem_cons_self _ _, h⟩
        · exact Or.inr h
      · exact Or.inr (Or.inr (Or.inr (Or.inl rfl)))
      · rcases ih x hx with ⟨v, hv, h⟩ | h
        · exact Or.inl ⟨v, List.mem_cons_of_mem _ hv, h⟩
        · exact Or.inr h

/-- Removing white space leaves the text of `JSON.stringify` as it is when
no word contains white space. -/
theorem filter_jsonStringify (wordList : List (List Nat))
    (hspace : ∀ w ∈ wordList, ∀ c ∈ w, isSpaceUnit c = false) :
    (jsonStringify wordList).filter (fun c => !isSpaceUnit c) = jsonStringify wordList := by
  rw [List.filter_eq_self]
  intro x hx
  simp only [jsonStringify, List.mem_cons, List.mem_append, List.mem_singleton,
    List.mem_nil_iff, or_false] at hx
  have halph : ∀ y, (y = 92 ∨ y = 34 ∨ y = 44 ∨ (48 ≤ y ∧ y ≤ 57) ∨ (97 ≤ y ∧ y ≤ 117)) →
      isSpaceUnit y = false := by
    intro y hy
    unfold isSpaceUnit
    rw [decide_eq_false_iff_not]
    omega
  rcases hx with (rfl | hx) | rfl
  · decide
  · rcases mem_joinQuoted wordList x hx with ⟨w, hw, hxw⟩ | h
    · simp [hspace w hw x hxw]
    · simp [halph x h]
  · decide

/-! ### The first occurrence of a text -/

theorem replaceFirst_noHit (searchValue replaceValue : List Nat) (before after : List Nat)
    (h : NoHit searchValue before after) :
    replaceFirst searchValue replaceValue (before ++ after) =
      before ++ replaceFirst searchValue replaceValue after := by
  induction before with
  | nil => rfl
  | cons c before ih =>
    obtain ⟨h1, h2⟩ := h
    rw [List.cons_append, replaceFirst, h1]
    simp only [Bool.false_eq_true, if_false]
    rw [ih h2]
    rfl

theorem noHit_append (searchValue : List Nat) (a b after : List Nat) :
    NoHit searchValue (a ++ b) after ↔
      NoHit searchValue a (b ++ after) ∧ NoHit searchValue b after := by
  induction a with
  | nil => simp [NoHit]
  | cons c a ih =>
    rw [List.cons_append]
    simp only [NoHit, ih, List.append_assoc, and_assoc]

theorem noHit_of_ne (s : Nat) (searchValue : List Nat) (before after : List Nat)
    (h : ∀ x ∈ before, x ≠ s) : NoHit (s :: searchValue) before after := by
  induction before with
  | nil => trivial
  | cons c before ih =>
    refine ⟨?_, ih (fun x hx => h x (List.mem_cons_of_mem _ hx))⟩
    have hc : s ≠ c := fun e => h c (List.mem_cons_self _ _) e.symm
    simp [startsWith, hc]

theorem startsWith_quoteUnits (r : Nat) (after : List Nat) (s : List Nat)
    (hs : ∀ x ∈ s, x ≠ 92 ∧ x ≠ r) :
    ∀ (afterHigh : Bool) (v : List Nat),
      startsWith s (quoteUnits afterHigh v ++ r :: after) = true → startsWith s v = true := by
  induction s with
  | nil => intro f v _; cases v <;> rfl
  | cons x s ih =>
    intro f v h
    obtain ⟨hx1, hx2⟩ := hs x (List.mem_cons_self _ _)
    cases v with
    | nil =>
      simp only [quoteUnits, List.nil_append, startsWith, Bool.and_eq_true,
        decide_eq_true_eq] at h
      exact absurd h.1 hx2
    | cons c v =>
      simp only [quoteUnits, List.append_assoc] at h
      rcases quoteToken_spec f c v with htok | ⟨⟨tail, htok⟩, -⟩
      · rw [htok] at h
        simp only [List.singleton_append, startsWith, Bool.and_eq_true,
          decide_eq_true_eq] at h ⊢
        exact ⟨h.1, ih (fun y hy => hs y (List.mem_cons_of_mem _ hy)) _ v h.2⟩
      · rw [htok] at h
        simp only [List.cons_append, startsWith, Bool.and_eq_true, decide_eq_true_eq] at h
        exact absurd h.1 hx1

theorem noHit_quoteUnits (r : Nat) (after : List Nat) (s : List Nat)
    (hs : ∀ x ∈ s, x ≠ 92 ∧ x ≠ r) (w : List Nat) :
    ∀ (afterHigh : Bool), includes (40 :: s) w = false →
      NoHit (40 :: s) (quoteUnits afterHigh w) (r :: after) := by
  induction w with
  | nil => intro f _; trivial
  | cons c w ih =>
    intro f hinc
    simp only [includes, Bool.or_eq_false_iff] at hinc
    obtain ⟨hstart, hrest⟩ := hinc
    simp only [quoteUnits]
    rw [noHit_append]
    refine ⟨?_, ih _ hrest⟩
    rcases quoteToken_spec f c w with htok | ⟨-, htok⟩
    · rw [htok]
      refine ⟨?_, trivial⟩
      rw [Bool.eq_false_iff]
      intro h
      simp only [List.singleton_append, startsWith, Bool.and_eq_true, decide_eq_true_eq] at h
      have h2 := startsWith_quoteUnits r after s hs _ w h.2
      rw [← h.1] at hstart
      simp [startsWith, h2] at hstart
    · apply noHit_of_ne
      intro x hx
      rcases htok x hx with h | h | h | h <;> omega

theorem noHit_quoteJSONString (s : List Nat) (hs : ∀ x ∈ s, x ≠ 92 ∧ x ≠ 34) (w : List Nat)
    (hinc : includes (40 :: s) w = false) (after : List Nat) :
    NoHit (40 :: s) (quoteJSONString w) after := by
  unfold quoteJSONString
  rw [List.cons_append]
  refine ⟨by simp [startsWith], ?_⟩
  rw [noHit_append]
  exact ⟨noHit_quoteUnits 34 after s hs w false hinc, ⟨by simp [startsWith], trivial⟩⟩

theorem noHit_joinQuoted (s : List Nat) (hs : ∀ x ∈ s, x ≠ 92 ∧ x ≠ 34)
    (wordList : List (List Nat)) (hinc : ∀ w ∈ wordList, includes (40 :: s) w = false) :
    ∀ after, NoHit (40 :: s) (joinQuoted wordList) after := by
  induction wordList with
  | nil => intro after; trivial
  | cons w rest ih =>
    intro after
    cases rest with
    | nil => exact noHit_quoteJSONString s hs w (hinc w (List.mem_cons_self _ _)) after
    | cons w2 rest2 =>
      rw [joinQuoted_cons_cons, noHit_append]
      refine ⟨noHit_quoteJSONString s hs w (hinc w (List.mem_cons_self _ _)) _,
        ⟨by simp [startsWith], ?_⟩⟩
      exact ih (fun v hv => hinc v (List.mem_cons_of_mem _ hv)) after

theorem includes_drop (searchValue : List Nat) (w : List Nat) :
    ∀ k, includes searchValue (w.drop k) = true → includes searchValue w = true := by
  induction w with
  | nil => intro k h; simpa using h
  | cons c w ih =>
    intro k h
    cases k with
    | zero => simpa using h
    | succ k =>
      rw [List.drop_succ_cons] at h
      simp only [includes, Bool.or_eq_true]
      exact Or.inr (ih k h)

/-! ### The words written by the encoding loop -/

theorem compressWord_shape (prevWord word : List Nat) :
    compressWord prevWord word = word ∨
      ∃ p, 2 ≤ p ∧ p ≤ 9 ∧ word.take p = prevWord.take p ∧
        compressWord prevWord word = (48 + p) :: word.drop p := by
  obtain ⟨h9, htake⟩ := prefixLength_spec word prevWord
  unfold compressWord
  simp only []
  by_cases hp : prefixLength word prevWord ≥ 2
  · rw [if_pos hp, digit_units _ h9]
    exact Or.inr ⟨_, hp, h9, htake, rfl⟩
  · rw [if_neg hp]
    exact Or.inl rfl

theorem mem_compressList (wordList : List (List Nat)) :
    ∀ e ∈ compressList wordList,
      ∃ w ∈ wordList, e = w ∨ ∃ prevWord, e = compressWord prevWord w := by
  intro e he
  obtain ⟨j, hj⟩ := List.mem_iff_getElem?.mp he
  rw [compressList_getElem?] at hj
  split at hj
  · cases hw : wordList[j]? with
    | none => rw [hw] at hj; cases hj
    | some w =>
      rw [hw] at hj
      simp only [Option.map_some', Option.some.injEq] at hj
      exact ⟨w, List.mem_iff_getElem?.mpr ⟨j, hw⟩, Or.inr ⟨_, hj.symm⟩⟩
  · exact ⟨e, List.mem_iff_getElem?.mpr ⟨j, hj⟩, Or.inl rfl⟩

theorem compressList_clean (wordList : List (List Nat))
    (hspace : ∀ w ∈ wordList, ∀ c ∈ w, isSpaceUnit c = false)
    (hinc : ∀ w ∈ wordList, includes (codeUnits ("(leti")) w = false) :
    (∀ e ∈ compressList wordList, ∀ c ∈ e, isSpaceUnit c = false) ∧
      ∀ e ∈ compressList wordList, includes (codeUnits ("(leti")) e = false := by
  have hword : ∀ w ∈ wordList, ∀ prevWord,
      (∀ c ∈ compressWord prevWord w, isSpaceUnit c = false) ∧
        includes (codeUnits ("(leti")) (compressWord prevWord w) = false := by
    intro w hw prevWord
    rcases compressWord_shape prevWord w with h | ⟨p, h2, h9, -, h⟩
    · rw [h]; exact ⟨hspace w hw, hinc w hw⟩
    · rw [h]
      constructor
      · intro c hc
        rcases List.mem_cons.mp hc with rfl | hc
        · unfold isSpaceUnit
          rw [decide_eq_false_iff_not]
          omega
        · exact hspace w hw c (List.mem_of_mem_drop hc)
      · rw [Bool.eq_false_iff]
        intro hi
        have hpat : codeUnits ("(leti") = 40 :: [108, 101, 116, 105] := by decide
        rw [hpat] at hi
        simp only [includes, Bool.or_eq_true] at hi
        rcases hi with hi | hi
        · simp only [startsWith, Bool.and_eq_true, decide_eq_true_eq] at hi
          omega
        · have := includes_drop _ w p hi
          rw [← hpat, hinc w hw] at this
          cases this
  constructor
  · intro e he
    obtain ⟨w, hw, h | ⟨prevWord, h⟩⟩ := mem_compressList wordList e he
    · rw [h]; exact hspace w hw
    · rw [h]; exact (hword w hw prevWord).1
  · intro e he
    obtain ⟨w, hw, h | ⟨prevWord, h⟩⟩ := mem_compressList wordList e he
    · rw [h]; exact hinc w hw
    · rw [h]; exact (hword w hw prevWord).2

/-! ### The generated script -/

set_option maxRecDepth 100000 in
theorem loopTemplate_filter :
    loopTemplate.filter (fun c => !isSpaceUnit c) =
      codeUnits (";for(leti=1,p,wl=globalThis.wordList;i<wl.length;++i)\x7bp=wl[i][0];" ++
        "if(p>=1&&p<=9)wl[i]=wl[i-1].substring(0,p)+wl[i].substring(1);\x7d") := by
  decide

set_option maxRecDepth 100000 in
theorem loop_replaceFirst :
    replaceFirst (codeUnits ("(leti")) (codeUnits ("(let i"))
        (codeUnits (";for(leti=1,p,wl=globalThis.wordList;i<wl.length;++i)\x7bp=wl[i][0];" ++
          "if(p>=1&&p<=9)wl[i]=wl[i-1].substring(0,p)+wl[i].substring(1);\x7d")) =
      codeUnits (";for(let i=1,p,wl=globalThis.wordList;i<wl.length;++i)\x7bp=wl[i][0];" ++
        "if(p>=1&&p<=9)wl[i]=wl[i-1].substring(0,p)+wl[i].substring(1);\x7d") := by
  decide

/-- The generated script is the assignment of the array as written by
`JSON.stringify`, followed by the decoding loop, when no entry of the array
contains white space or the text `(leti`. -/
theorem script_eq_scriptOf (wordList : List (List Nat))
    (hspace : ∀ w ∈ wordList, ∀ c ∈ w, isSpaceUnit c = false)
    (hinc : ∀ w ∈ wordList, includes (codeUnits ("(leti")) w = false) :
    script wordList = scriptOf wordList := by
  have hpre : (codeUnits ("\nglobalThis.wordList=")).filter (fun c => !isSpaceUnit c) =
      codeUnits ("globalThis.wordList=") := by decide
  have hpat : codeUnits ("(leti") = 40 :: [108, 101, 116, 105] := by decide
  unfold script scriptOf
  simp only [List.filter_append, hpre, filter_jsonStringify wordList hspace,
    loopTemplate_filter]
  rw [List.append_assoc, List.append_assoc]
  have hno : NoHit (codeUnits ("(leti")) (codeUnits ("globalThis.wordList="))
      (jsonStringify wordList ++
        codeUnits (";for(leti=1,p,wl=globalThis.wordList;i<wl.length;++i)\x7bp=wl[i][0];" ++
          "if(p>=1&&p<=9)wl[i]=wl[i-1].substring(0,p)+wl[i].substring(1);\x7d")) := by
    rw [hpat]
    apply noHit_of_ne
    decide
  rw [replaceFirst_noHit _ _ _ _ hno]
  have hno2 : NoHit (codeUnits ("(leti")) (jsonStringify wordList)
      (codeUnits (";for(leti=1,p,wl=globalThis.wordList;i<wl.length;++i)\x7bp=wl[i][0];" ++
        "if(p>=1&&p<=9)wl[i]=wl[i-1].substring(0,p)+wl[i].substring(1);\x7d")) := by
    rw [hpat] at hinc ⊢
    unfold jsonStringify
    rw [List.cons_append]
    refine ⟨by simp [startsWith], ?_⟩
    rw [noHit_append]
    exact ⟨noHit_joinQuoted _ (by decide) wordList hinc _, ⟨by simp [startsWith], trivial⟩⟩
  rw [replaceFirst_noHit _ _ _ _ hno2, loop_replaceFirst]

set_option maxRecDepth 100000 in
/-- C21, as stated, fails: the one-word list `["(leti"]` has no leading
digit and no white space, yet the text written for it assigns the array
`["(let i"]` and its loop header reads `for(leti=1,p,…`: the replacement of
`(leti` by `(let i` hit the word, the first occurrence in the script, and
not the loop. -/
theorem convert_leti_word :
    beginsWithDigit (codeUnits ("(leti")) = false ∧
    (∀ c ∈ codeUnits ("(leti"), isSpaceUnit c = false) ∧
    compressList [codeUnits ("(leti")] = [codeUnits ("(leti")] ∧
    convert [codeUnits ("(leti")] =
      codeUnits ("globalThis.wordList=[\"(let i\"];" ++
        "for(leti=1,p,wl=globalThis.wordList;i<wl.length;++i)\x7bp=wl[i][0];" ++
        "if(p>=1&&p<=9)wl[i]=wl[i-1].substring(0,p)+wl[i].substring(1);\x7d") ∧
    convert [codeUnits ("(leti")] ≠ scriptOf (compressList [codeUnits ("(leti")]) := by
  decide

/-- C21 (amended): for every list of words none of which begins with a
digit 1–9, contains white space or contains the text `(leti`, the
converter writes the script that assigns the array of compressed words as
written by `JSON.stringify` and then runs the decoding loop; each
compressed word is the word itself or the digit `p` (2 ≤ p ≤ 9) followed by
the word without its first `p` code units, which it shares with the
previous original word; and the decoding loop run on the compressed list
yields the original list exactly. -/
theorem convert_round_trip (wordList : List (List Nat))
    (hdigit : ∀ w ∈ wordList, beginsWithDigit w = false)
    (hspace : ∀ w ∈ wordList, ∀ c ∈ w, isSpaceUnit c = false)
    (hleti : ∀ w ∈ wordList, includes (codeUnits ("(leti")) w = false) :
    convert wordList = scriptOf (compressList wordList) ∧
    expandList (compressList wordList) = wordList ∧
    (∀ j, (compressList wordList)[j]? =
      if 1 ≤ j then (wordList[j]?).map (compressWord (wordList.getD (j - 1) []))
      else wordList[j]?) ∧
    (∀ prevWord word : List Nat, compressWord prevWord word = word ∨
      ∃ p, 2 ≤ p ∧ p ≤ 9 ∧ word.take p = prevWord.take p ∧
        compressWord prevWord word = (48 + p) :: word.drop p) := by
  obtain ⟨h1, h2⟩ := compressList_clean wordList hspace hleti
  exact ⟨script_eq_scriptOf (compressList wordList) h1 h2,
    expandList_compressList wordList hdigit, compressList_getElem? wordList,
    compressWord_shape⟩

set_option maxRecDepth 100000 in
/-- Witness for C21 (amended): the list `abcde`, `abcxy`, `abd`, `abd` is
compressed to `abcde`, `3xy`, `2d`, `9`. -/
theorem convert_round_trip_witness :
    (∀ w ∈ [codeUnits ("abcde"), codeUnits ("abcxy"), codeUnits ("abd"), codeUnits ("abd")],
      beginsWithDigit w = false) ∧
    (∀ w ∈ [codeUnits ("abcde"), codeUnits ("abcxy"), codeUnits ("abd"), codeUnits ("abd")],
      ∀ c ∈ w, isSpaceUnit c = false) ∧
    (∀ w ∈ [codeUnits ("abcde"), codeUnits ("abcxy"), codeUnits ("abd"), codeUnits ("abd")],
      includes (codeUnits ("(leti")) w = false) ∧
    compressList [codeUnits ("abcde"), codeUnits ("abcxy"), codeUnits ("abd"),
        codeUnits ("abd")] =
      [codeUnits ("abcde"), codeUnits ("3xy"), codeUnits ("2d"), codeUnits ("9")] ∧
    convert [codeUnits ("abcde"), codeUnits ("abcxy"), codeUnits ("abd"), codeUnits ("abd")] =
      scriptOf (compressList [codeUnits ("abcde"), codeUnits ("abcxy"), codeUnits ("abd"),
        codeUnits ("abd")]) ∧
    expandList (compressList [codeUnits ("abcde"), codeUnits ("abcxy"), codeUnits ("abd"),
        codeUnits ("abd")]) =
      [codeUnits ("abcde"), codeUnits ("abcxy"), codeUnits ("abd"), codeUnits ("abd")] :=
  ⟨by decide, by decide, by decide, by decide,
    (convert_round_trip
      [codeUnits ("abcde"), codeUnits ("abcxy"), codeUnits ("abd"), codeUnits ("abd")]
      (by decide) (by decide) (by decide)).1,
    (convert_round_trip
      [codeUnits ("abcde"), codeUnits ("abcxy"), codeUnits ("abd"), codeUnits ("abd")]
      (by decide) (by decide) (by decide)).2.1⟩

end Countdown
